import Mathlib

/-!
# theine-go: window, doorkeeper and store

A shallow embedding of `internal/doorkeeper.go`, `internal/store.go` and
`internal/tlfu.go`.

Conventions of the embedding.

* Unsigned machine integers are natural numbers reduced explicitly (`u32`,
  `u64`) wherever the Go code can wrap.  The `int64` results computed by `Set`
  wrap explicitly (`i64`): the expiry `now + ttl` and `costChange = cost -
  oldCost`; `int64(s.cap)` is `toInt s.cap`.  Costs and clock values that are
  inputs are integers, bounded by hypotheses where a bound matters; the window
  sum `qlen` is a mathematical integer.
* The clock is a value of the state: every read of `nowNano()` inside one
  operation returns the same value.
* An `*Entry` is a pointer `Ptr`; the entries live in a heap `Ptr → Entry K V`.
* A Go map is an association list without repeated keys; `delete` and the
  assignment `m[k] = e` remove every binding of the key first.
* A run that panics in Go (index out of range, nil dereference, `PopBack` on an
  empty deque) is `none`.
* Locks are not modelled: every exported operation is one sequential step.
* The small integers of the climber and the threshold (`int8`, `uint8`, `int32`)
  wrap explicitly (`i8`, `u8`, `i32`); the `float32` hit ratio is abstract.
* `maintance` is the body of its loop for one item of the write log; the loops
  of `EvictEntries` run over abstract lists and carry a fuel bound.
-/

set_option maxRecDepth 100000

namespace Theine

/-! ## doorkeeper.go -/

/-- Truncation to a Go `uint32`. -/
def u32 (n : Nat) : Nat := n % 2 ^ 32

/-- Truncation to a Go `uint64` (also `uint` on 64-bit targets). -/
def u64 (n : Nat) : Nat := n % 2 ^ 64

/-- The type `bitvector []uint64`. -/
abbrev bitvector := List Nat

/-- Translation of `newbv(size uint32)`: `make([]uint64, uint(size+63)/64)`. -/
def newbv (size : Nat) : bitvector :=
  List.replicate (u32 (size + 63) / 64) 0

/-- Translation of `bitvector.getset`: sets bit `bit` and returns its previous value;
`none` when `b[idx]` is out of range. -/
def bitvector.getset (b : bitvector) (bit : Nat) : Option (Nat × bitvector) :=
  let shift := bit % 64
  let idx := bit / 64
  match b[idx]? with
  | none => none
  | some bb =>
    let m := u64 (1 <<< shift)
    some (u64 ((bb &&& m) >>> shift), b.set idx (bb ||| m))

/-- Translation of `nextPowerOfTwo(i uint32) uint32`. -/
def nextPowerOfTwo (i : Nat) : Nat :=
  let n := u32 (i + 2 ^ 32 - 1)
  let n := n ||| (n >>> 1)
  let n := n ||| (n >>> 2)
  let n := n ||| (n >>> 4)
  let n := n ||| (n >>> 8)
  let n := n ||| (n >>> 16)
  u32 (n + 1)

/-- The two float64 expressions of `ensureCapacity`, each with its conversion to
`uint32`; the floating-point arithmetic itself is left uninterpreted.
`bloomBits p c` stands for `uint32(float64(c) * -math.Log(p) / (math.Log(2.0) * math.Log(2.0)))`
and `bloomHashes m c` for `uint32(0.7 * float64(m) / float64(c))`. -/
structure FloatOps where
  bloomBits : ℚ → Nat → Nat
  bloomHashes : Nat → Nat → Nat

/-- The struct `doorkeeper`. -/
structure doorkeeper where
  filter : bitvector
  m : Nat
  k : Nat
  falsePositiveRate : ℚ
  capacity : Nat
  deriving DecidableEq

/-- Translation of `doorkeeper.ensureCapacity`. -/
def doorkeeper.ensureCapacity (fl : FloatOps) (d : doorkeeper) (capacity : Nat) : doorkeeper :=
  if capacity ≤ d.capacity then d
  else
    let capacity := nextPowerOfTwo (u32 capacity)
    let bits := u32 (fl.bloomBits d.falsePositiveRate capacity)
    let m := nextPowerOfTwo bits
    let m := if m < 1024 then 1024 else m
    let k := u32 (fl.bloomHashes m capacity)
    let k := if k < 2 then 2 else k
    { d with capacity := capacity, m := m, filter := newbv m, k := k }

/-- Translation of `newDoorkeeper`. -/
def newDoorkeeper (fl : FloatOps) (falsePositiveRate : ℚ) : doorkeeper :=
  doorkeeper.ensureCapacity fl
    { filter := [], m := 0, k := 0, falsePositiveRate := falsePositiveRate, capacity := 0 } 320

/-- The index probed by iteration `i` of `insert`: `(h1 + (i * h2)) & (d.m - 1)` in
`uint32` arithmetic. -/
def doorkeeper.probe (m h1 h2 i : Nat) : Nat :=
  u32 (h1 + u32 (i * h2)) &&& u32 (m + 2 ^ 32 - 1)

/-- The loop of `doorkeeper.insert`: `n` iterations remain, `i` is the loop counter and
`o` the accumulator. -/
def doorkeeper.insertLoop (m h1 h2 : Nat) : Nat → Nat → Nat → bitvector → Option (Nat × bitvector)
  | 0, _, o, f => some (o, f)
  | n + 1, i, o, f =>
    match bitvector.getset f (doorkeeper.probe m h1 h2 i) with
    | none => none
    | some (r, f') => doorkeeper.insertLoop m h1 h2 n (i + 1) (o &&& r) f'

/-- Translation of `doorkeeper.insert(h uint64) bool`. -/
def doorkeeper.insert (d : doorkeeper) (h : Nat) : Option (Bool × doorkeeper) :=
  let h1 := u32 h
  let h2 := u32 (h >>> 32)
  match doorkeeper.insertLoop d.m h1 h2 d.k 0 1 d.filter with
  | none => none
  | some (o, f) => some (decide (o = 1), { d with filter := f })

/-- Translation of `doorkeeper.reset`. -/
def doorkeeper.reset (d : doorkeeper) : doorkeeper :=
  { d with filter := d.filter.map (fun _ => 0) }

/-- Bit number `p` of a bit vector (`false` beyond its end). -/
def bitAt (f : bitvector) (p : Nat) : Bool :=
  (f.getD (p / 64) 0).testBit (p % 64)

/-- The position the specification assigns to probe `i` of hash `h`:
`(h1 + i·h2) mod m` with `h1` the low and `h2` the high 32 bits. -/
def specPos (m h i : Nat) : Nat :=
  (h % 2 ^ 32 + i * (h / 2 ^ 32)) % m

/-- A run of `insert` calls, one per hash of the list; the answers are dropped. -/
def doorkeeper.insertAll : doorkeeper → List Nat → Option doorkeeper
  | d, [] => some d
  | d, h :: hs =>
    match d.insert h with
    | none => none
    | some (_, d') => doorkeeper.insertAll d' hs

/-- The three operations that change a doorkeeper after its construction. -/
inductive DoorkeeperOp where
  | ensureCapacity (capacity : Nat)
  | insert (h : Nat)
  | reset
  deriving DecidableEq

/-- A sequence of operations applied to a doorkeeper; `none` when an `insert` of the
sequence indexes outside the filter. -/
def doorkeeper.run (fl : FloatOps) : doorkeeper → List DoorkeeperOp → Option doorkeeper
  | d, [] => some d
  | d, DoorkeeperOp.ensureCapacity c :: ops =>
    doorkeeper.run fl (d.ensureCapacity fl c) ops
  | d, DoorkeeperOp.insert h :: ops =>
    match d.insert h with
    | none => none
    | some (_, d') => doorkeeper.run fl d' ops
  | d, DoorkeeperOp.reset :: ops => doorkeeper.run fl d.reset ops

/-! ## Data model of store.go -/

/-- A pointer `*Entry[K, V]`: an address in the heap of entries. -/
abbrev Ptr := Nat

/-- The type `RemoveReason` with its three constants. -/
inductive RemoveReason where
  | REMOVED
  | EVICTED
  | EXPIRED
  deriving DecidableEq, Repr

/-- Modelled from the spec: the codes of a write-log item, `code ∈ {NEW,UPDATE,REMOVE}`
(§4.8); their declaration is not in the sources. -/
inductive WriteCode where
  | NEW
  | REMOVE
  | UPDATE
  deriving DecidableEq, Repr

/-- Modelled from the spec: the intrusive link slots of an entry (§3), `{prev,next}` for the
SLRU and `{wheelPrev,wheelNext}` for the timer wheel; `none` is the nil pointer. -/
structure MetaData where
  prev : Option Ptr
  next : Option Ptr
  wheelPrev : Option Ptr
  wheelNext : Option Ptr
  deriving DecidableEq, Repr

/-- Modelled from the spec: the struct `Entry` (§3), whose declaration is not in the
sources.  The atomic fields `cost`, `expire`, `frequency` are plain fields. -/
structure Entry (K V : Type) where
  key : K
  value : V
  shard : Nat
  cost : Int
  expire : Int
  frequency : Int
  deque : Bool
  removed : Bool
  meta : MetaData

/-- Modelled from the spec: `WriteBufItem{entry, code, costChange, reschedule}` (§4.8); the
field is spelled `rechedule` where store.go uses it. -/
structure WriteBufItem where
  entry : Option Ptr
  code : WriteCode
  costChange : Int
  rechedule : Bool
  deriving DecidableEq, Repr

/-- Modelled from the spec: `ReadBufItem{hash, entry?}` (§4.8). -/
structure ReadBufItem where
  hash : Nat
  entry : Option Ptr
  deriving DecidableEq, Repr

/-- The struct `dequeKV`. -/
structure dequeKV (K V : Type) where
  k : K
  v : V

/-- The heap of entries. -/
abbrev Heap (K V : Type) := Ptr → Entry K V

/-- Assignment `*p = e` in the heap. -/
def Heap.write {K V : Type} (heap : Heap K V) (p : Ptr) (e : Entry K V) : Heap K V :=
  fun q => if q = p then e else heap q

/-! ### Go maps and slices -/

/-- Lookup `m[k]` in a Go map. -/
def mapGet {K : Type} [DecidableEq K] (m : List (K × Ptr)) (k : K) : Option Ptr :=
  (m.find? (fun kv => decide (kv.1 = k))).map (fun kv => kv.2)

/-- The builtin `delete(m, k)`. -/
def mapDelete {K : Type} [DecidableEq K] (m : List (K × Ptr)) (k : K) : List (K × Ptr) :=
  m.filter (fun kv => !decide (kv.1 = k))

/-- Assignment `m[k] = p`. -/
def mapSet {K : Type} [DecidableEq K] (m : List (K × Ptr)) (k : K) (p : Ptr) : List (K × Ptr) :=
  (k, p) :: mapDelete m k

/-- A Go slice header: backing array, length, capacity. -/
structure GoSlice where
  arr : Nat
  len : Nat
  cap : Nat
  deriving DecidableEq, Repr

/-- The backing arrays of the slices of one function activation: `cell a i` is element `i`
of array `a`, `next` the next unused array. -/
structure SliceMem (α : Type) where
  cell : Nat → Nat → Option α
  next : Nat

/-- No array allocated yet. -/
def SliceMem.empty {α : Type} : SliceMem α :=
  { cell := fun _ _ => none, next := 0 }

/-- The builtin `make([]T, 0, cap)`. -/
def SliceMem.make {α : Type} (mem : SliceMem α) (cap : Nat) : GoSlice × SliceMem α :=
  ({ arr := mem.next, len := 0, cap := cap }, { mem with next := mem.next + 1 })

/-- Store `x` in element `i` of array `a`. -/
def SliceMem.write {α : Type} (mem : SliceMem α) (a i : Nat) (x : α) : SliceMem α :=
  { mem with cell := fun a' i' => if a' = a ∧ i' = i then some x else mem.cell a' i' }

/-- The builtin `append(s, x)`: when `len(s) < cap(s)` the element is written into the
backing array of `s` and the result shares that array; otherwise the elements are copied
to a new array of capacity `grow (cap s)` (at least `len(s)+1`). -/
def SliceMem.append {α : Type} (grow : Nat → Nat) (mem : SliceMem α) (s : GoSlice) (x : α) :
    GoSlice × SliceMem α :=
  if s.len < s.cap then
    ({ s with len := s.len + 1 }, mem.write s.arr s.len x)
  else
    let a := mem.next
    let copied : SliceMem α :=
      { cell := fun a' i' =>
          if a' = a then (if i' < s.len then mem.cell s.arr i' else none) else mem.cell a' i',
        next := a + 1 }
    ({ arr := a, len := s.len + 1, cap := max (grow s.cap) (s.len + 1) },
      copied.write a s.len x)

/-- The elements `s[0], …, s[len(s)-1]` seen through the slice `s`. -/
def SliceMem.toList {α : Type} (mem : SliceMem α) (s : GoSlice) : List α :=
  (List.range s.len).filterMap (fun i => mem.cell s.arr i)

/-! ### Components outside the sources -/

/-- Modelled from the spec: the components whose sources are not part of the three files:
the key hasher, the count-min sketch (§4.2), the SLRU (§4.3), the `float32` hit ratio of
the climber (§4.5), the buckets of the timer wheel (§4.6), together with the parts of the Go runtime that are implementation
defined (`float64` arithmetic of the doorkeeper, capacity growth of `append`).  Their
states are abstract types and their operations are parameters. -/
structure Env (K V : Type) where
  Slru : Type
  Sketch : Type
  Wheel : Type
  F32 : Type
  hash : K → Nat
  fl : FloatOps
  growslice : Nat → Nat
  sketchAdd : Sketch → Nat → Sketch × Bool
  sketchEstimate : Sketch → Nat → Nat
  slruVictim : Slru → Option Ptr
  slruAccess : Slru → Heap K V → Ptr → Slru × Heap K V
  slruRemove : Slru → Heap K V → Ptr → Slru × Heap K V
  slruInsert : Slru → Heap K V → Ptr → Slru × Heap K V × Option Ptr
  slruUpdateCost : Slru → Heap K V → Ptr → Int → Slru × Heap K V
  probationPopTail : Slru → Heap K V → Option Ptr × Slru × Heap K V
  protectedPopTail : Slru → Heap K V → Option Ptr × Slru × Heap K V
  sketchEnsureCapacity : Sketch → Nat → Sketch
  schedule : Wheel → Heap K V → Ptr → Wheel × Heap K V
  deschedule : Wheel → Heap K V → Ptr → Wheel × Heap K V
  probationLen : Slru → Int
  protectedLen : Slru → Int
  slruMaxsize : Slru → Nat
  f32div : Nat → Nat → F32
  f32sub : F32 → F32 → F32
  f32pos : F32 → Bool
  f32neg : F32 → Bool

/-- Wrap to a Go `int64`. -/
def i64 (x : Int) : Int := (x + 2 ^ 63) % 2 ^ 64 - 2 ^ 63

/-- Modelled from the spec: the injected monotonic clock (§6), `now` is the value that
`nowNano()` returns. -/
structure Clock where
  now : Int
  deriving DecidableEq, Repr

/-- Modelled from the spec: `expire` is the absolute clock value at which an entry expires
(§3), so a time-to-live `ttl` taken at clock value `now` expires at `now + ttl`; the result
is the `int64` that `Set` stores, so the sum wraps. -/
def Clock.expireNano (c : Clock) (ttl : Int) : Int := i64 (c.now + ttl)

/-- Translation of `nowNano()` for the injected clock. -/
def Clock.nowNano (c : Clock) : Int := c.now

/-- Modelled from the spec: the timer wheel (§4.6): its clock and its buckets, the latter
an abstract state. -/
structure TimerWheel {K V : Type} (E : Env K V) where
  clock : Clock
  wheel : E.Wheel

/-! ## tlfu.go -/

/-- Wrap to a Go `int8`. -/
def i8 (x : Int) : Int := (x + 128) % 256 - 128

/-- Wrap to a Go `uint8`. -/
def u8 (x : Int) : Nat := (x % 256).toNat

/-- Wrap to a Go `int32`. -/
def i32 (x : Int) : Int := (x + 2 ^ 31) % 2 ^ 32 - 2 ^ 31

/-- Conversion of a Go `int` to `uint`. -/
def toUint (x : Int) : Nat := (x % 2 ^ 64).toNat

/-- Conversion of a Go `uint` to `int`. -/
def toInt (n : Nat) : Int := ((n : Int) + 2 ^ 63) % 2 ^ 64 - 2 ^ 63

/-- The struct `TinyLfu`; the hasher is `Env.hash`. -/
structure TinyLfu {K V : Type} (E : Env K V) where
  slru : E.Slru
  sketch : E.Sketch
  size : Nat
  counter : Nat
  total : Nat
  hit : Nat
  hr : E.F32
  threshold : Int
  lruFactor : Nat
  step : Int

/-- Translation of `NewTinyLfu`, with `slru` the value of `NewSlru(size)`, `sketch` that of
`NewCountMinSketch()` and `hr` the zero `float32`. -/
def NewTinyLfu {K V : Type} {E : Env K V} (size : Nat) (slru : E.Slru) (sketch : E.Sketch)
    (hr : E.F32) : TinyLfu E :=
  { slru := slru, sketch := sketch, size := size, counter := 0, total := 0, hit := 0,
    hr := hr, threshold := -1, lruFactor := 0, step := 1 }

/-- Translation of `TinyLfu.climb`. -/
def TinyLfu.climb {K V : Type} {E : Env K V} (t : TinyLfu E) : TinyLfu E :=
  let current := E.f32div t.hit t.total
  let delta := E.f32sub current t.hr
  let clampFactor : Int → Int := fun newFactor =>
    if newFactor < 0 then 0 else if newFactor > 16 then 16 else newFactor
  let r : Int × Nat × Int :=
    if E.f32pos delta then
      let step := if t.step < 0 then i8 (t.step - 1) else i8 (t.step + 1)
      let step := if step < -13 then -13 else if step > 13 then 13 else step
      let newFactor := clampFactor (i8 (i8 t.lruFactor + step))
      (step, u8 newFactor, i8 (newFactor - i8 t.lruFactor))
    else if E.f32neg delta then
      let step : Int := if t.step > 0 then -1 else 1
      let newFactor := clampFactor (i8 (i8 t.lruFactor + step))
      (step, u8 newFactor, i8 (newFactor - i8 t.lruFactor))
    else (t.step, t.lruFactor, 0)
  { t with
    step := r.1, lruFactor := r.2.1,
    threshold := i32 (t.threshold + i32 (-r.2.2)),
    hr := current, hit := 0, total := 0 }

/-- Translation of `TinyLfu.UpdateThreshold`. -/
def TinyLfu.UpdateThreshold {K V : Type} {E : Env K V} (t : TinyLfu E) (heap : Heap K V) :
    TinyLfu E :=
  if E.probationLen t.slru + E.protectedLen t.slru < (E.slruMaxsize t.slru : Int) then
    { t with threshold := -1 }
  else
    match E.slruVictim t.slru with
    | some tail =>
      let estimate := E.sketchEstimate t.sketch (E.hash (heap tail).key)
      { t with threshold := i32 (u64 (estimate + 2 ^ 64 - u64 t.lruFactor) : Nat) }
    | none => { t with threshold := -1 }

/-- Translation of `TinyLfu.Access`; it may store `entry.frequency`, so the heap is
threaded through. -/
def TinyLfu.Access {K V : Type} {E : Env K V} (t : TinyLfu E) (heap : Heap K V)
    (item : ReadBufItem) : TinyLfu E × Heap K V :=
  let t : TinyLfu E := { t with counter := u64 (t.counter + 1) }
  let t : TinyLfu E :=
    if t.counter > u64 (10 * t.size) then { t.climb with counter := 0 } else t
  let added := E.sketchAdd t.sketch item.hash
  let t : TinyLfu E := { t with sketch := added.1 }
  let t : TinyLfu E := if added.2 then { t with threshold := Int.tdiv t.threshold 2 } else t
  match item.entry with
  | some entry =>
    if (heap entry).meta.prev ≠ none then
      let tail := decide (some entry = E.slruVictim t.slru)
      let accessed := E.slruAccess t.slru heap entry
      let t : TinyLfu E := { t with slru := accessed.1 }
      if tail then (t.UpdateThreshold accessed.2, accessed.2) else (t, accessed.2)
    else
      (t, heap.write entry
        { heap entry with frequency := i32 (E.sketchEstimate t.sketch item.hash) })
  | none => (t, heap)

/-- Translation of `TinyLfu.Set`: the returned entry, the policy and the heap.  The fields
`probation.len` and `protected.len` are read through the observers of `Len()`. -/
def TinyLfu.Set {K V : Type} {E : Env K V} (t : TinyLfu E) (heap : Heap K V) (entry : Ptr) :
    Option Ptr × TinyLfu E × Heap K V :=
  let t : TinyLfu E := { t with counter := u64 (t.counter + 1) }
  let t : TinyLfu E :=
    if t.counter > u64 (10 * t.size) then { t.climb with counter := 0 } else t
  if (heap entry).meta.prev = none then
    match E.slruVictim t.slru with
    | some victim =>
      let freq : Int := (heap entry).frequency
      let freq : Int :=
        if freq = -1 then toInt (E.sketchEstimate t.sketch (E.hash (heap entry).key)) else freq
      let evictedCount := u64 (toUint freq + t.lruFactor)
      let victimCount := E.sketchEstimate t.sketch (E.hash (heap victim).key)
      if evictedCount ≤ u64 victimCount then (some entry, t, heap)
      else
        let inserted := E.slruInsert t.slru heap entry
        (inserted.2.2, { t with slru := inserted.1 }, inserted.2.1)
    | none =>
      let count := E.probationLen t.slru + E.protectedLen t.slru
      let t : TinyLfu E :=
        { t with sketch := E.sketchEnsureCapacity t.sketch (toUint (count + Int.tdiv count 100)) }
      let inserted := E.slruInsert t.slru heap entry
      (inserted.2.2, { t with slru := inserted.1 }, inserted.2.1)
  else (none, t, heap)

/-- Translation of `TinyLfu.Remove`. -/
def TinyLfu.Remove {K V : Type} {E : Env K V} (t : TinyLfu E) (heap : Heap K V) (entry : Ptr) :
    TinyLfu E × Heap K V :=
  let r := E.slruRemove t.slru heap entry
  ({ t with slru := r.1 }, r.2)

/-- Translation of `TinyLfu.UpdateCost`. -/
def TinyLfu.UpdateCost {K V : Type} {E : Env K V} (t : TinyLfu E) (heap : Heap K V)
    (entry : Ptr) (delta : Int) : TinyLfu E × Heap K V :=
  let r := E.slruUpdateCost t.slru heap entry delta
  ({ t with slru := r.1 }, r.2)

/-- One of the two loops of `EvictEntries`, `pop` being `PopTail` of its list; `removed` is
the slice built so far.  The lists are abstract, so the number of iterations is bounded by
`fuel`; `none` when it runs out. -/
def TinyLfu.evictLoop {K V : Type} {E : Env K V}
    (pop : E.Slru → Heap K V → Option Ptr × E.Slru × Heap K V) :
    Nat → E.Slru → Heap K V → List Ptr → Option (E.Slru × Heap K V × List Ptr)
  | 0, _, _, _ => none
  | fuel + 1, slru, heap, removed =>
    if E.probationLen slru + E.protectedLen slru > (E.slruMaxsize slru : Int) then
      match pop slru heap with
      | (none, slru', heap') => some (slru', heap', removed)
      | (some entry, slru', heap') =>
        TinyLfu.evictLoop pop fuel slru' heap' (removed ++ [entry])
    else some (slru, heap, removed)

/-- Translation of `TinyLfu.EvictEntries`: the slice `removed`, the policy and the heap. -/
def TinyLfu.EvictEntries {K V : Type} {E : Env K V} (fuel : Nat) (t : TinyLfu E)
    (heap : Heap K V) : Option (List Ptr × TinyLfu E × Heap K V) :=
  match TinyLfu.evictLoop E.probationPopTail fuel t.slru heap [] with
  | none => none
  | some (slru, heap, removed) =>
    match TinyLfu.evictLoop E.protectedPopTail fuel slru heap removed with
    | none => none
    | some (slru, heap, removed) => some (removed, { t with slru := slru }, heap)

/-! ## store.go -/

/-- The struct `Shard` (without the singleflight group and the lock); `deque` lists the
window front first. -/
@[ext]
structure Shard (K : Type) where
  hashmap : List (K × Ptr)
  dookeeper : Option doorkeeper
  deque : List Ptr
  size : Nat
  qsize : Nat
  qlen : Int
  counter : Nat
  deriving DecidableEq

/-- Translation of `NewShard`; the rational `1 / 100` stands for the float64 constant
`0.01`, which only the uninterpreted `bloomBits` reads. -/
def NewShard {K : Type} (fl : FloatOps) (size qsize : Nat) (doorkeeper : Bool) : Shard K :=
  { hashmap := [], dookeeper := if doorkeeper then some (newDoorkeeper fl (1 / 100)) else none,
    deque := [], size := size, qsize := qsize, qlen := 0, counter := 0 }

/-- Translation of `Shard.set`. -/
def Shard.set {K : Type} [DecidableEq K] (fl : FloatOps) (s : Shard K) (key : K) (entry : Ptr) :
    Shard K :=
  let s : Shard K := { s with hashmap := mapSet s.hashmap key entry }
  match s.dookeeper with
  | some d =>
    let ds := 20 * s.hashmap.length
    if ds > d.capacity then { s with dookeeper := some (d.ensureCapacity fl ds) } else s
  | none => s

/-- Translation of `Shard.get`. -/
def Shard.get {K : Type} [DecidableEq K] (s : Shard K) (key : K) : Option Ptr :=
  mapGet s.hashmap key

/-- Translation of `Shard.delete`: the binding of `entry.key` is removed only when it
still points to `entry`. -/
def Shard.delete {K V : Type} [DecidableEq K] (s : Shard K) (heap : Heap K V) (entry : Ptr) :
    Bool × Shard K :=
  match mapGet s.hashmap (heap entry).key with
  | some exist =>
    if exist = entry then (true, { s with hashmap := mapDelete s.hashmap (heap exist).key })
    else (false, s)
  | none => (false, s)

/-- Translation of `Shard.len`. -/
def Shard.len {K : Type} (s : Shard K) : Nat := s.hashmap.length

/-- The struct `Store`.  `heap` holds the entries; `entryPool` lists the entries that were
`Put` into the pool; `writebuf` is the content of the channel, oldest item first;
`removalListener` is `none` for a nil listener and otherwise the calls made to it so far;
`readbuf` is the read queue, oldest item first. -/
structure Store {K V : Type} (E : Env K V) where
  heap : Heap K V
  entryPool : List Ptr
  writebuf : List WriteBufItem
  removalListener : Option (List (K × V × RemoveReason))
  policy : TinyLfu E
  timerwheel : TimerWheel E
  readbuf : List ReadBufItem
  cost : V → Int
  readCounter : Nat
  shards : List (Shard K)
  cap : Nat
  shardCount : Nat
  tailUpdate : Bool
  doorkeeper : Bool
  closed : Bool

/-- The constant `MAX_READ_BUFF_SIZE`. -/
def MAX_READ_BUFF_SIZE : Nat := 64

/-- Translation of `Store.index`: the hash and the shard index of a key. -/
def Store.index {K V : Type} {E : Env K V} (s : Store E) (key : K) : Nat × Nat :=
  let base := u64 (E.hash key)
  let h := u64 (((base >>> 16) ^^^ base) * 0x45d9f3b)
  let h := u64 (((h >>> 16) ^^^ h) * 0x45d9f3b)
  let h := (h >>> 16) ^^^ h
  (base, h &&& u64 (s.shardCount + 2 ^ 64 - 1))

/-- Translation of `Store.Len`. -/
def Store.Len {K V : Type} {E : Env K V} (s : Store E) : Nat :=
  (s.shards.map Shard.len).sum

/-- Translation of `Store.postDelete`, heap part: the value is cleared. -/
def Store.postDelete {K V : Type} [Inhabited V] (heap : Heap K V) (entry : Ptr) : Heap K V :=
  heap.write entry { heap entry with value := default }

/-- Translation of `Store.drainRead`. -/
def Store.drainRead {K V : Type} {E : Env K V} (s : Store E) : Store E :=
  let policy : TinyLfu E := { s.policy with total := u32 (s.policy.total + MAX_READ_BUFF_SIZE) }
  let r := s.readbuf.foldl (fun (acc : TinyLfu E × Heap K V) v => acc.1.Access acc.2 v)
    (policy, s.heap)
  { s with policy := r.1, heap := r.2, readbuf := [], readCounter := 0 }

/-- Translation of `Store.getFromShard`. -/
def Store.getFromShard {K V : Type} [DecidableEq K] [Inhabited V] {E : Env K V}
    (s : Store E) (key : K) (hash : Nat) (shard : Shard K) : (V × Bool) × Store E :=
  let new := u32 (s.readCounter + 1)
  let s : Store E := { s with readCounter := new }
  let found := shard.get key
  let live : Option Ptr :=
    match found with
    | some entry =>
      let expire := (s.heap entry).expire
      if expire ≠ 0 ∧ expire ≤ s.timerwheel.clock.nowNano then none else some entry
    | none => none
  let value : V :=
    match live with
    | some entry => (s.heap entry).value
    | none => default
  let s : Store E :=
    match live with
    | some _ => { s with policy := { s.policy with hit := u32 (s.policy.hit + 1) } }
    | none => s
  let s : Store E :=
    if new < MAX_READ_BUFF_SIZE then
      { s with readbuf := s.readbuf ++ [{ hash := hash, entry := live }] }
    else if new = MAX_READ_BUFF_SIZE then s.drainRead
    else s
  ((value, live.isSome), s)

/-- Translation of `Store.Get`. -/
def Store.Get {K V : Type} [DecidableEq K] [Inhabited V] {E : Env K V}
    (s : Store E) (key : K) : Option ((V × Bool) × Store E) :=
  let hi := s.index key
  match s.shards[hi.2]? with
  | none => none
  | some shard => some (s.getFromShard key hi.1 shard)

/-- The local variables of one activation of `processDeque`: the shard, the heap and pool
it mutates, the slice `send` (only ever appended to itself, hence a list) and the slices
`removedkv` and `expiredkv` with their backing arrays. -/
structure DequeRun (K V : Type) where
  shard : Shard K
  heap : Heap K V
  entryPool : List Ptr
  send : List Ptr
  mem : SliceMem (dequeKV K V)
  removedkv : GoSlice
  expiredkv : GoSlice

/-- One iteration of the loop of `processDeque` (store.go lines 309–339): `evicted` is the
entry returned by `PopBack` and `rest` the deque that remains. -/
def processDequeStep {K V : Type} [DecidableEq K] [Inhabited V] (grow : Nat → Nat)
    (threshold now : Int) (st : DequeRun K V) (evicted : Ptr) (rest : List Ptr) :
    DequeRun K V :=
  let heap : Heap K V := st.heap.write evicted { st.heap evicted with deque := false }
  let expire := (heap evicted).expire
  let shard : Shard K :=
    { st.shard with deque := rest, qlen := st.shard.qlen - (heap evicted).cost }
  let kv : dequeKV K V := { k := (heap evicted).key, v := (heap evicted).value }
  if expire ≠ 0 ∧ expire ≤ now then
    let deleted := shard.delete heap evicted
    if deleted.1 then
      let appended := st.mem.append grow st.expiredkv kv
      { st with
        shard := deleted.2, heap := Store.postDelete heap evicted,
        entryPool := evicted :: st.entryPool,
        expiredkv := appended.1, mem := appended.2 }
    else { st with shard := deleted.2, heap := heap }
  else
    let count := (heap evicted).frequency
    if count = -1 then { st with shard := shard, heap := heap, send := st.send ++ [evicted] }
    else if count ≥ threshold then
      { st with shard := shard, heap := heap, send := st.send ++ [evicted] }
    else
      let deleted := shard.delete heap evicted
      if deleted.1 then
        let appended := st.mem.append grow st.expiredkv kv
        { st with
          shard := deleted.2, heap := Store.postDelete heap evicted,
          entryPool := evicted :: st.entryPool,
          removedkv := appended.1, mem := appended.2 }
      else { st with shard := deleted.2, heap := heap }

/-- The loop `for shard.qlen > int(shard.qsize)` of `processDeque`.  The first argument is
the window back first, so its head is what `PopBack` returns; `PopBack` on an empty deque
panics. -/
def processDequeLoop {K V : Type} [DecidableEq K] [Inhabited V] (grow : Nat → Nat)
    (threshold now : Int) : List Ptr → DequeRun K V → Option (DequeRun K V)
  | [], st => if st.shard.qlen > (st.shard.qsize : Int) then none else some st
  | evicted :: rest, st =>
    if st.shard.qlen > (st.shard.qsize : Int) then
      processDequeLoop grow threshold now rest
        (processDequeStep grow threshold now st evicted rest.reverse)
    else some st

/-- The write-log item `WriteBufItem{entry: entry, code: NEW}`. -/
def newItem (entry : Ptr) : WriteBufItem :=
  { entry := some entry, code := WriteCode.NEW, costChange := 0, rechedule := false }

/-- The calls `s.removalListener(e.k, e.v, reason)` for the elements of a slice. -/
def listenerCalls {K V : Type} (kvs : List (dequeKV K V)) (reason : RemoveReason) :
    List (K × V × RemoveReason) :=
  kvs.map (fun e => (e.k, e.v, reason))

/-- Translation of `Store.processDeque` for the shard `s.shards[index]`. -/
def Store.processDeque {K V : Type} [DecidableEq K] [Inhabited V] {E : Env K V}
    (s : Store E) (index : Nat) : Option (Store E) :=
  match s.shards[index]? with
  | none => none
  | some shard =>
    if shard.qlen ≤ (shard.qsize : Int) then some s
    else
      let removed := (SliceMem.empty : SliceMem (dequeKV K V)).make 2
      let expired := removed.2.make 2
      let st0 : DequeRun K V :=
        { shard := shard, heap := s.heap, entryPool := s.entryPool, send := [],
          mem := expired.2, removedkv := removed.1, expiredkv := expired.1 }
      match processDequeLoop E.growslice s.policy.threshold s.timerwheel.clock.nowNano
          shard.deque.reverse st0 with
      | none => none
      | some st =>
        let writebuf := s.writebuf ++ st.send.map newItem
        let listener :=
          match s.removalListener with
          | none => none
          | some calls =>
            some (calls ++ listenerCalls (st.mem.toList st.removedkv) RemoveReason.EVICTED
              ++ listenerCalls (st.mem.toList st.expiredkv) RemoveReason.EXPIRED)
        some { s with
          shards := s.shards.set index st.shard, heap := st.heap,
          entryPool := st.entryPool, writebuf := writebuf, removalListener := listener }

/-- Lines 250–263 of `Store.Set`: the doorkeeper gate on a shard for hash `h`.  The result
is `hit` and the updated shard; a nil `dookeeper` is a nil dereference. -/
def Shard.doorkeeperGate {K : Type} (shard : Shard K) (h : Nat) : Option (Bool × Shard K) :=
  match shard.dookeeper with
  | none => none
  | some d =>
    let reset := decide (shard.counter > d.capacity)
    let d := if reset then d.reset else d
    let counter := if reset then 0 else shard.counter
    match d.insert h with
    | none => none
    | some (hit, d) =>
      if !hit then
        some (false, { shard with dookeeper := some d, counter := u64 (counter + 1) })
      else some (true, { shard with dookeeper := some d, counter := counter })

/-- Translation of `Store.Set`.  `entry` is the pointer that `s.entryPool.Get()` returns
on this call (used only when a new entry is created): an entry of the pool, or a newly
allocated one, for which the heap holds the zero `Entry`. -/
def Store.Set {K V : Type} [DecidableEq K] [Inhabited V] {E : Env K V}
    (s : Store E) (key : K) (value : V) (cost ttl : Int) (entry : Ptr) :
    Option (Bool × Store E) :=
  let cost := if cost = 0 then s.cost value else cost
  if cost > toInt s.cap then some (false, s)
  else
    let hi := s.index key
    let h := hi.1
    let index := hi.2
    match s.shards[index]? with
    | none => none
    | some shard =>
      let expire : Int := if ttl ≠ 0 then s.timerwheel.clock.expireNano ttl else 0
      match shard.get key with
      | some exist =>
        let oldCost := (s.heap exist).cost
        let heap : Heap K V := s.heap.write exist { s.heap exist with value := value, cost := cost }
        let costChange : Int := if oldCost ≠ cost then i64 (cost - oldCost) else 0
        let shard : Shard K :=
          if oldCost ≠ cost ∧ (heap exist).deque = true then
            { shard with qlen := shard.qlen + costChange }
          else shard
        let old := (heap exist).expire
        let heap : Heap K V :=
          if expire > 0 then heap.write exist { heap exist with expire := expire } else heap
        let reschedule : Bool := decide (expire > 0 ∧ old ≠ expire)
        let writebuf :=
          if reschedule = true ∨ costChange ≠ 0 then
            s.writebuf ++ [{ entry := some exist, code := WriteCode.UPDATE,
                             costChange := costChange, rechedule := reschedule }]
          else s.writebuf
        some (true, { s with heap := heap, shards := s.shards.set index shard,
                             writebuf := writebuf })
      | none =>
        match (if s.doorkeeper then shard.doorkeeperGate h else some (true, shard)) with
        | none => none
        | some (false, shard) => some (false, { s with shards := s.shards.set index shard })
        | some (true, shard) =>
          let heap : Heap K V := s.heap.write entry
            { s.heap entry with
              frequency := -1, shard := index % 2 ^ 16, key := key, value := value,
              expire := expire, cost := cost }
          let shard : Shard K := shard.set E.fl key entry
          let entryPool := s.entryPool.erase entry
          if cost > (shard.qsize : Int) then
            some (true, { s with
              heap := heap, entryPool := entryPool, shards := s.shards.set index shard,
              writebuf := s.writebuf ++ [newItem entry] })
          else
            let heap : Heap K V := heap.write entry { heap entry with deque := true }
            let shard : Shard K :=
              { shard with deque := entry :: shard.deque, qlen := shard.qlen + cost }
            let s1 : Store E :=
              { s with heap := heap, entryPool := entryPool,
                       shards := s.shards.set index shard }
            match s1.processDeque index with
            | none => none
            | some s2 => some (true, s2)

/-- The write-log item `WriteBufItem{entry: entry, code: REMOVE}`. -/
def removeItem (entry : Ptr) : WriteBufItem :=
  { entry := some entry, code := WriteCode.REMOVE, costChange := 0, rechedule := false }

/-- Translation of `Store.Delete`. -/
def Store.Delete {K V : Type} [DecidableEq K] {E : Env K V} (s : Store E) (key : K) :
    Option (Store E) :=
  let index := (s.index key).2
  match s.shards[index]? with
  | none => none
  | some shard =>
    match shard.get key with
    | some entry =>
      some { s with
        shards := s.shards.set index (shard.delete s.heap entry).2,
        writebuf := s.writebuf ++ [removeItem entry] }
    | none => some s

/-- Translation of `Store.removeEntry`. -/
def Store.removeEntry {K V : Type} [DecidableEq K] [Inhabited V] {E : Env K V}
    (s : Store E) (entry : Ptr) (reason : RemoveReason) : Option (Store E) :=
  let s : Store E :=
    if (s.heap entry).meta.prev ≠ none then
      let r := E.slruRemove s.policy.slru s.heap entry
      { s with policy := { s.policy with slru := r.1 }, heap := r.2 }
    else s
  let s : Store E :=
    if (s.heap entry).meta.wheelPrev ≠ none then
      let r := E.deschedule s.timerwheel.wheel s.heap entry
      { s with timerwheel := { s.timerwheel with wheel := r.1 }, heap := r.2 }
    else s
  let call : List (K × V × RemoveReason) := [((s.heap entry).key, (s.heap entry).value, reason)]
  match s.shards[(s.heap entry).shard]? with
  | none => none
  | some shard =>
    match reason with
    | RemoveReason.REMOVED =>
      some { s with removalListener := s.removalListener.map (fun calls => calls ++ call) }
    | _ =>
      let deleted := shard.delete s.heap entry
      let s1 : Store E := { s with shards := s.shards.set (s.heap entry).shard deleted.2 }
      if deleted.1 then
        some { s1 with
          removalListener := s.removalListener.map (fun calls => calls ++ call),
          heap := Store.postDelete s.heap entry,
          entryPool := entry :: s.entryPool }
      else some s1

/-- Translation of `s.timerwheel.schedule(entry)` as the maintainer calls it. -/
def Store.schedule {K V : Type} {E : Env K V} (s : Store E) (entry : Ptr) : Store E :=
  let r := E.schedule s.timerwheel.wheel s.heap entry
  { s with timerwheel := { s.timerwheel with wheel := r.1 }, heap := r.2 }

/-- Lines 473–480 of `maintance`, the first part of the `NEW` case for an entry that is not
marked removed: scheduling, `policy.Set`, and the removal of the entry it returned. -/
def Store.maintanceSet {K V : Type} [DecidableEq K] [Inhabited V] {E : Env K V}
    (s : Store E) (entry : Ptr) : Option (Store E) :=
  let s : Store E := if (s.heap entry).expire ≠ 0 then s.schedule entry else s
  let r := s.policy.Set s.heap entry
  let s : Store E := { s with policy := r.2.1, heap := r.2.2 }
  match r.1 with
  | some evicted =>
    match s.removeEntry evicted RemoveReason.EVICTED with
    | none => none
    | some s => some { s with tailUpdate := true }
  | none => some s

/-- The loop `for _, e := range removed` of `maintance`. -/
def Store.maintanceRemoved {K V : Type} [DecidableEq K] [Inhabited V] {E : Env K V} :
    Store E → List Ptr → Option (Store E)
  | s, [] => some s
  | s, e :: removed =>
    match ({ s with tailUpdate := true } : Store E).removeEntry e RemoveReason.EVICTED with
    | none => none
    | some s => Store.maintanceRemoved s removed

/-- The statements `removed := s.policy.EvictEntries()` and the loop over `removed` of
`maintance`; `none` when the fuel of `EvictEntries` runs out or `removeEntry` panics. -/
def Store.maintanceEvict {K V : Type} [DecidableEq K] [Inhabited V] {E : Env K V}
    (fuel : Nat) (s : Store E) : Option (Store E) :=
  match s.policy.EvictEntries fuel s.heap with
  | none => none
  | some (removed, policy, heap) =>
    Store.maintanceRemoved { s with policy := policy, heap := heap } removed

/-- Translation of the body of the loop `for item := range s.writebuf` of `maintance` for
one item taken from the channel. -/
def Store.maintance {K V : Type} [DecidableEq K] [Inhabited V] {E : Env K V}
    (fuel : Nat) (s : Store E) (item : WriteBufItem) : Option (Store E) :=
  match item.entry with
  | none => some s
  | some entry =>
    let handled : Option (Option (Store E)) :=
      match item.code with
      | WriteCode.NEW =>
        if (s.heap entry).removed then some none
        else
          match s.maintanceSet entry with
          | none => none
          | some s => (s.maintanceEvict fuel).map some
      | WriteCode.REMOVE =>
        let s : Store E :=
          { s with heap := s.heap.write entry { s.heap entry with removed := true } }
        match s.removeEntry entry RemoveReason.REMOVED with
        | none => none
        | some s => some (some { s with policy := { s.policy with threshold := -1 } })
      | WriteCode.UPDATE =>
        let s : Store E := if item.rechedule then s.schedule entry else s
        if item.costChange ≠ 0 then
          let r := s.policy.UpdateCost s.heap entry item.costChange
          (({ s with policy := r.1, heap := r.2 } : Store E).maintanceEvict fuel).map some
        else some (some s)
    match handled with
    | none => none
    | some none => some s
    | some (some s) =>
      if s.tailUpdate then
        some { s with policy := s.policy.UpdateThreshold s.heap, tailUpdate := false }
      else some s

/-- Translation of `NewStore`, with `procs` the value of `runtime.GOMAXPROCS(0)` and
`fresh` the policy `NewTinyLfu(policySize, hasher)`, `wheel` the buckets of
`NewTimerWheel` and `zero` the zero `Entry`; `maxsize` is taken non-negative.  The
loop doubling `shardCount` runs at most eight times before the clamp to 128 applies. -/
def NewStore {K V : Type} {E : Env K V} (procs : Nat) (fresh : Nat → TinyLfu E)
    (wheel : E.Wheel) (zero : Entry K V) (maxsize : Nat) (doorkeeper : Bool) : Store E :=
  let shardCount := (List.range 8).foldl
    (fun c _ => if c < procs * 2 then c * 2 else c) 1
  let shardCount := if shardCount < 16 then 16 else shardCount
  let shardCount := if shardCount > 128 then 128 else shardCount
  let dequeSize := maxsize / 100 / shardCount
  let shardSize := maxsize / shardCount
  let shardSize := if shardSize < 50 then 50 else shardSize
  let policySize := maxsize - dequeSize * shardCount
  { heap := fun _ => zero, entryPool := [], writebuf := [], removalListener := none,
    policy := fresh policySize, timerwheel := { clock := { now := 0 }, wheel := wheel }, readbuf := [],
    cost := fun _ => 1, readCounter := 0,
    shards := List.replicate shardCount (NewShard E.fl shardSize dequeSize doorkeeper),
    cap := maxsize, shardCount := shardCount, tailUpdate := false,
    doorkeeper := doorkeeper, closed := false }

/-! ## A concrete instance -/

/-- An instance of the environment for the concrete runs below: keys and values are
numbers, a key hashes to itself, the float64 expressions of the doorkeeper take the values
they have for the false-positive rate 0.01, `append` doubles the capacity, and the policy
components are trivial. -/
def exEnv : Env Nat Nat :=
  { Slru := Unit, Sketch := Unit, Wheel := Unit, F32 := Unit, hash := fun k => k,
    fl := { bloomBits := fun _ c => c * 9585 / 1000,
            bloomHashes := fun m c => 7 * m / (10 * c) },
    growslice := fun c => 2 * c,
    sketchAdd := fun s _ => (s, false), sketchEstimate := fun _ _ => 0,
    slruVictim := fun _ => none, slruAccess := fun s h _ => (s, h),
    slruRemove := fun s h _ => (s, h), slruInsert := fun s h _ => (s, h, none),
    slruUpdateCost := fun s h _ _ => (s, h), probationPopTail := fun s h => (none, s, h),
    protectedPopTail := fun s h => (none, s, h), sketchEnsureCapacity := fun s _ => s,
    schedule := fun w h _ => (w, h), deschedule := fun w h _ => (w, h),
    probationLen := fun _ => 0, protectedLen := fun _ => 0, slruMaxsize := fun _ => 0,
    f32div := fun _ _ => (), f32sub := fun _ _ => (), f32pos := fun _ => false,
    f32neg := fun _ => false }

/-- The policy `NewTinyLfu(size, hasher)` of the instance. -/
def exPolicy (size : Nat) : TinyLfu exEnv :=
  { slru := (), sketch := (), size := size, counter := 0, total := 0, hit := 0, hr := (),
    threshold := -1, lruFactor := 0, step := 1 }

/-- The zero `Entry`. -/
def exZero : Entry Nat Nat :=
  { key := 0, value := 0, shard := 0, cost := 0, expire := 0, frequency := 0, deque := false,
    removed := false,
    meta := { prev := none, next := none, wheelPrev := none, wheelNext := none } }

/-- The store `NewStore(10000, dk)` on a machine with four processors: 16 shards, each with
a window of size 6. -/
def exStore (dk : Bool) : Store exEnv := NewStore 4 exPolicy () exZero 10000 dk

/-- The store with its clock set to `now`. -/
def Store.atTime {K V : Type} {E : Env K V} (s : Store E) (now : Int) : Store E :=
  { s with timerwheel := { s.timerwheel with clock := { now := now } } }

/-- The store after `Set(7, 70, cost 1, ttl 0)` on the new store without doorkeeper; the pool
hands out the newly allocated entry `0`.  Key 7 lives in shard 3. -/
def exStore1 : Store exEnv :=
  match (exStore false).Set 7 70 1 0 0 with
  | some r => r.2
  | none => exStore false

/-- The shard with index `i` of a store (an empty shard when there is none). -/
def Store.shardAt {K V : Type} {E : Env K V} (s : Store E) (i : Nat) : Shard K :=
  s.shards.getD i (NewShard E.fl 0 0 false)

/-- One `Set` of the concrete runs: the result store, or the store itself when `Set`
panics. -/
def Store.afterSet {K V : Type} [DecidableEq K] [Inhabited V] {E : Env K V} (s : Store E)
    (key : K) (value : V) (cost ttl : Int) (entry : Ptr) : Store E :=
  match s.Set key value cost ttl entry with
  | some r => r.2
  | none => s

/-- The new store without doorkeeper after `Set(k, 10k, cost 1, ttl 0)` for the six keys
7, 8, 51, 63, 72, 111 of shard 3, stored in the entries 0 to 5: the window of shard 3 is
full (`qlen = qsize = 6`). -/
def exStore6 : Store exEnv :=
  (((((exStore1.afterSet 8 80 1 0 1).afterSet 51 510 1 0 2).afterSet 63 630 1 0 3).afterSet
    72 720 1 0 4).afterSet 111 1110 1 0 5)

/-- The store `exStore6` with a removal listener registered, after reads gave the entries
of the keys 7 and 8 the frequency 1 and the policy published the threshold 3. -/
def exWindow : Store exEnv :=
  { exStore6 with
    removalListener := some [],
    policy := { exStore6.policy with threshold := 3 },
    heap := fun p => if p < 2 then { exStore6.heap p with frequency := 1 } else exStore6.heap p }

/-- The store `exWindow` in which the entry of key 7 carries the expiry 5, at clock
value 10. -/
def exWindowExpired : Store exEnv :=
  { exWindow.atTime 10 with
    heap := fun p => if p = 0 then { exWindow.heap p with expire := 5 } else exWindow.heap p }

/-- The new doorkeeper-enabled store in which the counter of shard 3 stands at 512, the
capacity of its doorkeeper (512 keys of the shard were each seen once since the last
reset); the filter bits are left clear, the key used below is a first sighting either
way. -/
def exCounterFull : Store exEnv :=
  { exStore true with
    shards := (exStore true).shards.set 3 { (exStore true).shardAt 3 with counter := 512 } }

/-- The new store without doorkeeper after `Set(7, 70, cost 1, ttl 5)` at clock value 0:
the entry of key 7 expires at 5. -/
def exTtl : Store exEnv := (exStore false).afterSet 7 70 1 5 0

/-- The store `exStore1` after `Set(7, 70, cost 1, ttl 5)` gave the window entry 0 the
expiry 5, the maintainer consumed the `UPDATE` item, and `removeEntry(entry 0, EXPIRED)` ran
at clock value 10 (the call the timer wheel makes for an expired entry). -/
def exRecycled : Store exEnv :=
  match ({ (exStore1.afterSet 7 70 1 5 1).atTime 10 with writebuf := [] } : Store exEnv).removeEntry
      0 RemoveReason.EXPIRED with
  | some s => s
  | none => exStore1

/-- The list SLRU of the second instance: the two segments, head first, and `maxsize`. -/
structure ExSlru where
  probationList : List Ptr
  protectedList : List Ptr
  maxsize : Nat
  deriving DecidableEq

/-- The link slots of an entry with the SLRU pair set to `link`. -/
def setLink {K V : Type} (heap : Heap K V) (entry : Ptr) (link : Option Ptr) : Heap K V :=
  heap.write entry
    { heap entry with meta := { (heap entry).meta with prev := link, next := link } }

/-- The link slots of an entry with the timer-wheel pair set to `link`. -/
def setWheelLink {K V : Type} (heap : Heap K V) (entry : Ptr) (link : Option Ptr) :
    Heap K V :=
  heap.write entry
    { heap entry with meta := { (heap entry).meta with wheelPrev := link, wheelNext := link } }

/-- Modelled from the spec: `access` of the SLRU (§4.3) on lists: a probation member moves
to the head of protected, and when protected then exceeds `0.8·maxsize` its tail moves to
the head of probation; a protected member moves to the head of protected. -/
def ExSlru.access (s : ExSlru) (entry : Ptr) : ExSlru :=
  if entry ∈ s.probationList then
    let s : ExSlru :=
      { s with probationList := s.probationList.erase entry,
               protectedList := entry :: s.protectedList }
    if s.protectedList.length * 10 > 8 * s.maxsize then
      match s.protectedList.getLast? with
      | some tail =>
        { s with probationList := tail :: s.probationList,
                 protectedList := s.protectedList.dropLast }
      | none => s
    else s
  else if entry ∈ s.protectedList then
    { s with protectedList := entry :: s.protectedList.erase entry }
  else s

/-- Modelled from the spec: a second instance of the environment with working policy
components for entries of cost 1: the sketch (§4.2) keeps one counter per hash, saturating
at 15 and never halved; the SLRU (§4.3) is a pair of lists whose `Len()` is the number of
members and a linked entry has non-nil links.  `victim` is nil while the combined size is
below `maxsize` and the probation tail otherwise: `TinyLfu.Set` and `UpdateThreshold` take
a nil victim to mean that the cache is not full (tlfu.go lines 98–100 and 177–179).
`insert` pushes at the head of probation after it unlinked the probation tail when the
combined size had reached `maxsize`, and returns that tail, so the size never exceeds
`maxsize`.  The timer wheel (§4.6) is the list of scheduled entries.  A hit ratio is the
exact fraction `hit/total`, with `(n, 0)` for the infinities and `(0, 0)` for NaN; it stands
for the `float32` value only where the counts are small enough to be exact. -/
@[reducible] def polEnv : Env Nat Nat :=
  { Slru := ExSlru, Sketch := List (Nat × Nat), Wheel := List Ptr, F32 := Int × Nat,
    hash := fun k => k, fl := exEnv.fl, growslice := fun c => 2 * c,
    sketchAdd := fun s h => (mapSet s h (min 15 ((mapGet s h).getD 0 + 1)), false),
    sketchEstimate := fun s h => (mapGet s h).getD 0,
    slruVictim := fun s =>
      if s.probationList.length + s.protectedList.length < s.maxsize then none
      else s.probationList.getLast?,
    slruAccess := fun s h e => (s.access e, h),
    slruRemove := fun s h e =>
      ({ s with probationList := s.probationList.erase e,
                protectedList := s.protectedList.erase e }, setLink h e none),
    slruInsert := fun s h e =>
      if s.probationList.length + s.protectedList.length ≥ s.maxsize then
        match s.probationList.getLast? with
        | some tail =>
          ({ s with probationList := e :: s.probationList.dropLast },
            setLink (setLink h tail none) e (some e), some tail)
        | none => ({ s with probationList := e :: s.probationList }, setLink h e (some e), none)
      else ({ s with probationList := e :: s.probationList }, setLink h e (some e), none),
    slruUpdateCost := fun s h _ _ => (s, h),
    probationPopTail := fun s h =>
      match s.probationList.getLast? with
      | some e => (some e, { s with probationList := s.probationList.dropLast },
          setLink h e none)
      | none => (none, s, h),
    protectedPopTail := fun s h =>
      match s.protectedList.getLast? with
      | some e => (some e, { s with protectedList := s.protectedList.dropLast },
          setLink h e none)
      | none => (none, s, h),
    sketchEnsureCapacity := fun s _ => s,
    schedule := fun w h e => (e :: w.erase e, setWheelLink h e (some e)),
    deschedule := fun w h e => (w.erase e, setWheelLink h e none),
    probationLen := fun s => s.probationList.length,
    protectedLen := fun s => s.protectedList.length,
    slruMaxsize := fun s => s.maxsize,
    f32div := fun hit total => ((hit : Int), total),
    f32sub := fun a b => (a.1 * b.2 - b.1 * a.2, a.2 * b.2),
    f32pos := fun d => decide (d.1 > 0),
    f32neg := fun d => decide (d.1 < 0) }

/-- The policy `NewTinyLfu(size, hasher)` of the second instance. -/
def polPolicy (size : Nat) : TinyLfu polEnv :=
  NewTinyLfu size { probationList := [], protectedList := [], maxsize := size } [] (0, 1)

/-- The store `NewStore(1, false)` of the second instance on a machine with four
processors: 16 shards, each with a window of size 0, and an SLRU of size 1. -/
def polStore : Store polEnv := NewStore 4 polPolicy [] exZero 1 false

/-- A heap with two entries for the second instance: entry 0 holds key 1 and is linked in
the SLRU, entry 1 holds key 2, is not linked and has no sampled frequency. -/
def polHeap : Heap Nat Nat := fun p =>
  if p = 0 then
    { exZero with
      key := 1, frequency := -1, cost := 1,
      meta := { exZero.meta with prev := some 0, next := some 0 } }
  else { exZero with key := 2, frequency := -1, cost := 1 }

/-- The policy of a cache of capacity 1 (`NewTinyLfu(1, hasher)`) after ten `Set` calls
(the first admitted entry 0, the others were rejected) and one `Get` that hit; no read was
drained yet, so the sketch is empty and `total` is 0.  The next call of `Set` or `Access`
is the eleventh and runs `climb`. -/
def polClimbDue : TinyLfu polEnv :=
  { polPolicy 1 with
    slru := { probationList := [0], protectedList := [], maxsize := 1 },
    counter := 10, hit := 1, total := 0 }

/-! ## Specification-side vocabulary -/

/-- An entry is expired at clock value `now`: `expire != 0` and `expire <= now`. -/
def isExpired {K V : Type} (heap : Heap K V) (now : Int) (p : Ptr) : Bool :=
  decide ((heap p).expire ≠ 0 ∧ (heap p).expire ≤ now)

/-- The rule of §4.4 for an entry popped from the window: it is forwarded to the policy when
it is not expired and its frequency is `-1` or at least the published threshold. -/
def isForwarded {K V : Type} (heap : Heap K V) (threshold now : Int) (p : Ptr) : Bool :=
  !isExpired heap now p &&
    (decide ((heap p).frequency = -1) || decide ((heap p).frequency ≥ threshold))

/-- Removal of an entry from a shard map "when the map still holds that same entry". -/
def mapDrop {K V : Type} [DecidableEq K] (heap : Heap K V) (m : List (K × Ptr)) (p : Ptr) :
    List (K × Ptr) :=
  if mapGet m (heap p).key = some p then mapDelete m (heap p).key else m

/-- The shard map after the window entries `popped` were handled by the rule of §4.4. -/
def mapAfterPops {K V : Type} [DecidableEq K] (heap : Heap K V) (threshold now : Int)
    (popped : List Ptr) (m : List (K × Ptr)) : List (K × Ptr) :=
  popped.foldl (fun m p => if isForwarded heap threshold now p then m else mapDrop heap m p) m

/-- The sum of the costs of the members of a window. -/
def dequeCost {K V : Type} (heap : Heap K V) (deque : List Ptr) : Int :=
  (deque.map (fun p => (heap p).cost)).sum

/-- Two heaps agree on the fields that `processDeque` reads but never writes. -/
def HeapAgree {K V : Type} (heap heap' : Heap K V) : Prop :=
  ∀ q, (heap' q).key = (heap q).key ∧ (heap' q).expire = (heap q).expire ∧
    (heap' q).frequency = (heap q).frequency ∧ (heap' q).cost = (heap q).cost

/-- The cost that `Set` works with: the argument, or the cost function when it is `0`. -/
def Store.effectiveCost {K V : Type} {E : Env K V} (s : Store E) (value : V) (cost : Int) : Int :=
  if cost = 0 then s.cost value else cost

/-- The expiry that `Set` computes from `ttl`. -/
def Store.expireOf {K V : Type} {E : Env K V} (s : Store E) (ttl : Int) : Int :=
  if ttl ≠ 0 then s.timerwheel.clock.expireNano ttl else 0

/-- The outcome of the doorkeeper stage of `Set` on a shard. -/
def Store.gate {K V : Type} {E : Env K V} (s : Store E) (shard : Shard K) (h : Nat) :
    Option (Bool × Shard K) :=
  if s.doorkeeper then shard.doorkeeperGate h else some (true, shard)

/-- The entry that `Set` initialises for a new key, before it is pushed on the window. -/
def Store.newEntry {K V : Type} {E : Env K V} (s : Store E) (key : K) (value : V)
    (cost ttl : Int) (entry : Ptr) : Entry K V :=
  { s.heap entry with
    frequency := -1, shard := (s.index key).2 % 2 ^ 16, key := key, value := value,
    expire := s.expireOf ttl, cost := s.effectiveCost value cost }

/-- The shard of a new key after `Set` pushed the entry on the front of the window
(store.go lines 275–286), `shard1` being the shard that left the doorkeeper stage. -/
def Store.pushedShard {K V : Type} [DecidableEq K] {E : Env K V} (s : Store E) (key : K)
    (value : V) (cost : Int) (entry : Ptr) (shard1 : Shard K) : Shard K :=
  { shard1.set E.fl key entry with
    deque := entry :: (shard1.set E.fl key entry).deque,
    qlen := (shard1.set E.fl key entry).qlen + s.effectiveCost value cost }

/-- The store on which `Set` calls `processDeque` for a new key that enters the window. -/
def Store.pushed {K V : Type} [DecidableEq K] {E : Env K V} (s : Store E) (key : K)
    (value : V) (cost ttl : Int) (entry : Ptr) (shard1 : Shard K) : Store E :=
  { s with
    heap := s.heap.write entry { s.newEntry key value cost ttl entry with deque := true },
    entryPool := s.entryPool.erase entry,
    shards := s.shards.set (s.index key).2 (s.pushedShard key value cost entry shard1) }

/-- The write-log item `WriteBufItem{entry, code: UPDATE, costChange, rechedule}`. -/
def updateItem (entry : Ptr) (costChange : Int) (rechedule : Bool) : WriteBufItem :=
  { entry := some entry, code := WriteCode.UPDATE, costChange := costChange,
    rechedule := rechedule }

/-- The shape of a constructed doorkeeper: `m` is a power of two between `2^10` and
`2^31`, at least two probes are made, and the filter has one bit per position. -/
def doorkeeper.Shaped (d : doorkeeper) : Prop :=
  (∃ j, 10 ≤ j ∧ j < 32 ∧ d.m = 2 ^ j) ∧ 2 ≤ d.k ∧ d.filter.length * 64 = d.m

/-- The value `x` clamped to the interval `[lo, hi]`. -/
def clamp (x lo hi : Int) : Int :=
  if x < lo then lo else if x > hi then hi else x

/-- The difference `delta = hit/total - hr` that `climb` computes. -/
def TinyLfu.delta {K V : Type} {E : Env K V} (t : TinyLfu E) : E.F32 :=
  E.f32sub (E.f32div t.hit t.total) t.hr

/-- The policy after the first statement of `Set` and of `Access`: the call counter is
incremented and, when it exceeds `10 * size`, `climb` runs and the counter restarts. -/
def TinyLfu.counted {K V : Type} {E : Env K V} (t : TinyLfu E) : TinyLfu E :=
  let t : TinyLfu E := { t with counter := u64 (t.counter + 1) }
  if t.counter > u64 (10 * t.size) then { t.climb with counter := 0 } else t

/-- The policy after one `climb` per element of the list, each preceded by stores of the
given values to `hit` and `total`. -/
def TinyLfu.climbs {K V : Type} {E : Env K V} : TinyLfu E → List (Nat × Nat) → TinyLfu E
  | t, [] => t
  | t, (hit, total) :: rest =>
    TinyLfu.climbs ({ t with hit := hit, total := total } : TinyLfu E).climb rest

/-- Consecutive `Get` calls, one per key of the list, results dropped; `none` when one of
them panics. -/
def Store.getAll {K V : Type} [DecidableEq K] [Inhabited V] {E : Env K V} :
    Store E → List K → Option (Store E)
  | s, [] => some s
  | s, key :: keys =>
    match s.Get key with
    | none => none
    | some r => Store.getAll r.2 keys

/-- The entry that `Get(key)` finds live in a shard: stored under the key and not
expired. -/
def Store.liveEntry {K V : Type} [DecidableEq K] {E : Env K V} (s : Store E)
    (shard : Shard K) (key : K) : Option Ptr :=
  match shard.get key with
  | some entry =>
    if (s.heap entry).expire ≠ 0 ∧ (s.heap entry).expire ≤ s.timerwheel.clock.nowNano then
      none
    else some entry
  | none => none

/-- The read-log item `ReadBufItem{hash, entry}` that `Get(key)` builds. -/
def Store.readItem {K V : Type} [DecidableEq K] {E : Env K V} (s : Store E) (key : K) :
    ReadBufItem :=
  { hash := (s.index key).1, entry := s.liveEntry (s.shardAt (s.index key).2) key }

/-- The hit counter of the policy after `Get` calls for the keys of the list: one
`hit.Add(1)` per key found live. -/
def Store.hitsAfter {K V : Type} [DecidableEq K] {E : Env K V} (s : Store E) :
    List K → Nat → Nat
  | [], hit => hit
  | key :: keys, hit =>
    Store.hitsAfter s keys (if (s.readItem key).entry.isSome then u32 (hit + 1) else hit)

/-- The store after `Get` calls for the keys of the list when none of them is the 64th
read since the last drain: the read counter, the hit counter and the read log have
advanced, one log item per key. -/
def Store.logged {K V : Type} [DecidableEq K] {E : Env K V} (s : Store E) (keys : List K) :
    Store E :=
  { s with
    readCounter := s.readCounter + keys.length,
    policy := { s.policy with hit := s.hitsAfter keys s.policy.hit },
    readbuf := s.readbuf ++ keys.map s.readItem }

/-- The store `exStore1` after 63 calls `Get(7)`: the read counter stands at 63 and the
read log holds 63 items. -/
def exRead63 : Store exEnv :=
  match exStore1.getAll (List.replicate 63 7) with
  | some s => s
  | none => exStore1

/-- The store at the point where the `NEW` case of `maintance` calls `policy.Set`: the
entry has been scheduled when it carries an expiry. -/
def Store.scheduledNew {K V : Type} {E : Env K V} (s : Store E) (entry : Ptr) : Store E :=
  if (s.heap entry).expire ≠ 0 then s.schedule entry else s

/-- The entry returned by `policy.Set(entry)` in the `NEW` case of `maintance` and the store
right after that call. -/
def Store.afterPolicySet {K V : Type} {E : Env K V} (s : Store E) (entry : Ptr) :
    Option Ptr × Store E :=
  ((((s.scheduledNew entry).policy.Set (s.scheduledNew entry).heap entry).1),
    { s.scheduledNew entry with
      policy := ((s.scheduledNew entry).policy.Set (s.scheduledNew entry).heap entry).2.1,
      heap := ((s.scheduledNew entry).policy.Set (s.scheduledNew entry).heap entry).2.2 })

/-- The last statement of the loop body of `maintance`: `UpdateThreshold` when `tailUpdate`
is set, which is then cleared. -/
def Store.tailUpdated {K V : Type} {E : Env K V} (s : Store E) : Store E :=
  if s.tailUpdate then
    { s with policy := s.policy.UpdateThreshold s.heap, tailUpdate := false }
  else s

/-- The store of capacity 1 of the second instance with a removal listener, after
`Set(7, 70, cost 1)`, whose entry 0 bypassed the window (cost above `qsize = 0`), and then
the maintainer, which took the item `NEW` of entry 0 from the write log and admitted the
entry into the empty SLRU: the SLRU is full. -/
def polAdmitted : Store polEnv :=
  match ({ polStore with removalListener := some [] } : Store polEnv).Set 7 70 1 0 0 with
  | none => polStore
  | some r =>
    match r.2.maintance 2 (newItem 0) with
    | none => polStore
    | some s => { s with writebuf := [] }

/-- The store `polAdmitted` after `Set(8, 80, cost 1)` with the new entry 1: the item
`NEW` of entry 1 waits in the write log. -/
def polPending : Store polEnv := polAdmitted.afterSet 8 80 1 0 1

/-- The store `polPending` after the maintainer handled the item `NEW` of entry 1 (the
store itself if that panicked). -/
def polRejected : Store polEnv :=
  match polPending.maintance 2 (newItem 1) with
  | some s => s
  | none => polPending

/-! ### Lemmas on the bit vector -/

theorem and_two_pow_shiftRight (bb s : Nat) :
    (bb &&& 2 ^ s) >>> s = (bb.testBit s).toNat := by
  apply Nat.eq_of_testBit_eq
  intro j
  rw [Nat.testBit_shiftRight, Nat.testBit_and, Nat.testBit_two_pow, Nat.testBit_bool_to_nat]
  by_cases hj : j = 0
  · subst hj; simp
  · have : ¬ s = s + j := by omega
    simp [this, hj]

theorem getset_eq (f : bitvector) (p : Nat) (hp : p / 64 < f.length) :
    bitvector.getset f p =
      some ((bitAt f p).toNat, f.set (p / 64) (f.getD (p / 64) 0 ||| 2 ^ (p % 64))) := by
  have hs : p % 64 < 64 := Nat.mod_lt _ (by norm_num)
  have hpow : u64 (1 <<< (p % 64)) = 2 ^ (p % 64) := by
    rw [Nat.one_shiftLeft]
    exact Nat.mod_eq_of_lt (Nat.pow_lt_pow_right (by norm_num) hs)
  have hget : f[p / 64]? = some (f.getD (p / 64) 0) := by
    rw [List.getD_eq_getElem?_getD, List.getElem?_eq_getElem hp]; rfl
  unfold bitvector.getset
  simp only [hget, hpow, and_two_pow_shiftRight]
  have : u64 ((f.getD (p / 64) 0).testBit (p % 64)).toNat
      = ((f.getD (p / 64) 0).testBit (p % 64)).toNat := by
    cases (f.getD (p / 64) 0).testBit (p % 64) <;> rfl
  rw [this]; rfl

theorem bitAt_set (f : bitvector) (p q : Nat) (hp : p / 64 < f.length) :
    bitAt (f.set (p / 64) (f.getD (p / 64) 0 ||| 2 ^ (p % 64))) q
      = (bitAt f q || decide (q = p)) := by
  unfold bitAt
  by_cases hw : q / 64 = p / 64
  · rw [hw, List.getD_eq_getElem?_getD, List.getElem?_set_self hp]
    simp only [Option.getD_some, Nat.testBit_or, Nat.testBit_two_pow]
    by_cases hb : p % 64 = q % 64
    · have : q = p := by omega
      simp [this]
    · have : ¬ q = p := by intro h; subst h; exact hb rfl
      simp [hb, this]
  · have hne : ¬ q = p := by intro h; subst h; exact hw rfl
    rw [List.getD_eq_getElem?_getD, List.getElem?_set_ne (Ne.symm hw),
      ← List.getD_eq_getElem?_getD]
    simp [hne]

theorem probe_eq_specPos (j h i : Nat) (hj : j < 32) (hh : h < 2 ^ 64) :
    doorkeeper.probe (2 ^ j) (u32 h) (u32 (h >>> 32)) i = specPos (2 ^ j) h i := by
  have hdvd : 2 ^ j ∣ 2 ^ 32 := Nat.pow_dvd_pow 2 (by omega)
  have hlt : 2 ^ j < 2 ^ 32 := Nat.pow_lt_pow_right (by norm_num) hj
  have hpos : 0 < 2 ^ j := Nat.two_pow_pos j
  have hmask : u32 (2 ^ j + 2 ^ 32 - 1) = 2 ^ j - 1 := by
    unfold u32
    have : 2 ^ j + 2 ^ 32 - 1 = (2 ^ j - 1) + 2 ^ 32 := by omega
    rw [this, Nat.add_mod_right]
    exact Nat.mod_eq_of_lt (by omega)
  have hh2 : u32 (h >>> 32) = h / 2 ^ 32 := by
    unfold u32
    rw [Nat.shiftRight_eq_div_pow]
    apply Nat.mod_eq_of_lt
    apply Nat.div_lt_of_lt_mul
    calc h < 2 ^ 64 := hh
      _ = 2 ^ 32 * 2 ^ 32 := by norm_num
  unfold doorkeeper.probe specPos
  rw [hmask, Nat.and_pow_two_sub_one_eq_mod, hh2]
  unfold u32
  have e : i * (h / 2 ^ 32) % 2 ^ 32 % 2 ^ j = i * (h / 2 ^ 32) % 2 ^ j :=
    Nat.mod_mod_of_dvd _ hdvd
  calc (h % 2 ^ 32 + i * (h / 2 ^ 32) % 2 ^ 32) % 2 ^ 32 % 2 ^ j
      = (h % 2 ^ 32 + i * (h / 2 ^ 32) % 2 ^ 32) % 2 ^ j := Nat.mod_mod_of_dvd _ hdvd
    _ = (h % 2 ^ 32 % 2 ^ j + i * (h / 2 ^ 32) % 2 ^ 32 % 2 ^ j) % 2 ^ j := Nat.add_mod _ _ _
    _ = (h % 2 ^ 32 % 2 ^ j + i * (h / 2 ^ 32) % 2 ^ j) % 2 ^ j := by rw [e]
    _ = (h % 2 ^ 32 + i * (h / 2 ^ 32)) % 2 ^ j := (Nat.add_mod _ _ _).symm

theorem insertLoop_spec (m h1 h2 : Nat) (len : Nat)
    (hin : ∀ i, doorkeeper.probe m h1 h2 i / 64 < len) :
    ∀ (n i o : Nat) (f : bitvector), f.length = len → o ≤ 1 →
      ∃ o' f', doorkeeper.insertLoop m h1 h2 n i o f = some (o', f') ∧
        f'.length = len ∧ o' ≤ 1 ∧
        (o' = 1 ↔ o = 1 ∧ ∀ t, t < n → bitAt f (doorkeeper.probe m h1 h2 (i + t)) = true) ∧
        ∀ q, (bitAt f' q = true ↔
          bitAt f q = true ∨ ∃ t, t < n ∧ q = doorkeeper.probe m h1 h2 (i + t)) := by
  intro n
  induction n with
  | zero =>
    intro i o f hf ho
    exact ⟨o, f, rfl, hf, ho, by simp, by simp⟩
  | succ n ih =>
    intro i o f hf ho
    have hp : doorkeeper.probe m h1 h2 i / 64 < f.length := hf ▸ hin i
    obtain ⟨o', f', hrun, hlen', ho', hiff, hbits⟩ :=
      ih (i + 1) (o &&& (bitAt f (doorkeeper.probe m h1 h2 i)).toNat)
        (f.set (doorkeeper.probe m h1 h2 i / 64)
          (f.getD (doorkeeper.probe m h1 h2 i / 64) 0 ||| 2 ^ (doorkeeper.probe m h1 h2 i % 64)))
        (by simp [hf])
        (by
          have : o = 0 ∨ o = 1 := by omega
          rcases this with h | h <;> subst h <;>
            cases bitAt f (doorkeeper.probe m h1 h2 i) <;> decide)
    refine ⟨o', f', ?_, hlen', ho', ?_, ?_⟩
    · simp only [doorkeeper.insertLoop, getset_eq f _ hp]
      exact hrun
    · rw [hiff]
      constructor
      · rintro ⟨hand, hall⟩
        have hb : bitAt f (doorkeeper.probe m h1 h2 i) = true := by
          cases hbit : bitAt f (doorkeeper.probe m h1 h2 i) with
          | true => rfl
          | false =>
            rw [hbit] at hand
            have : o = 0 ∨ o = 1 := by omega
            rcases this with h | h <;> subst h <;> simp at hand
        have ho1 : o = 1 := by
          rw [hb] at hand
          have : o = 0 ∨ o = 1 := by omega
          rcases this with h | h <;> subst h <;> simp at hand ⊢
        refine ⟨ho1, ?_⟩
        intro t ht
        cases t with
        | zero => simpa using hb
        | succ t =>
          have := hall t (by omega)
          rw [bitAt_set f _ _ hp] at this
          have hidx : i + (t + 1) = i + 1 + t := by omega
          rw [hidx]
          rcases Bool.or_eq_true _ _ ▸ this with h | h
          · exact h
          · have := of_decide_eq_true h
            rw [this]; exact hb
      · rintro ⟨ho1, hall⟩
        have hb : bitAt f (doorkeeper.probe m h1 h2 i) = true := by simpa using hall 0 (by omega)
        refine ⟨by rw [ho1, hb]; decide, ?_⟩
        intro t ht
        rw [bitAt_set f _ _ hp]
        have hidx : i + 1 + t = i + (t + 1) := by omega
        rw [hidx, hall (t + 1) (by omega)]
        rfl
    · intro q
      rw [hbits q, bitAt_set f _ _ hp]
      constructor
      · rintro (h | ⟨t, ht, hq⟩)
        · rcases Bool.or_eq_true _ _ ▸ h with h | h
          · exact Or.inl h
          · exact Or.inr ⟨0, by omega, by simpa using of_decide_eq_true h⟩
        · exact Or.inr ⟨t + 1, by omega, by rw [hq]; congr 1; omega⟩
      · rintro (h | ⟨t, ht, hq⟩)
        · exact Or.inl (by rw [h]; rfl)
        · cases t with
          | zero => exact Or.inl (by simp at hq; simp [hq])
          | succ t => exact Or.inr ⟨t, by omega, by rw [hq]; congr 1; omega⟩

theorem insert_facts (d : doorkeeper) (h j : Nat) (hm : d.m = 2 ^ j) (hj : j < 32)
    (hlen : d.filter.length = (d.m + 63) / 64) (hh : h < 2 ^ 64) :
    ∃ r d', d.insert h = some (r, d') ∧
      (r = true ↔ ∀ i, i < d.k → bitAt d.filter (specPos d.m h i) = true) ∧
      (∀ q, bitAt d'.filter q = true ↔
        bitAt d.filter q = true ∨ ∃ i, i < d.k ∧ q = specPos d.m h i) ∧
      d'.filter.length = d.filter.length ∧ d'.m = d.m ∧ d'.k = d.k ∧
      d'.capacity = d.capacity := by
  have hprobe : ∀ i, doorkeeper.probe d.m (u32 h) (u32 (h >>> 32)) i = specPos d.m h i := by
    intro i; rw [hm]; exact probe_eq_specPos j h i hj hh
  have hpos : 0 < d.m := by rw [hm]; exact Nat.two_pow_pos j
  have hin : ∀ i, doorkeeper.probe d.m (u32 h) (u32 (h >>> 32)) i / 64 < (d.m + 63) / 64 := by
    intro i
    rw [hprobe]
    have : specPos d.m h i < d.m := Nat.mod_lt _ hpos
    omega
  obtain ⟨o', f', hrun, hlen', _, hiff, hbits⟩ :=
    insertLoop_spec d.m (u32 h) (u32 (h >>> 32)) _ hin d.k 0 1 d.filter hlen (le_refl 1)
  refine ⟨decide (o' = 1), { d with filter := f' }, ?_, ?_, ?_, ?_, rfl, rfl, rfl⟩
  · simp only [doorkeeper.insert, hrun]
  · rw [decide_eq_true_iff, hiff]
    simp only [true_and, Nat.zero_add, hprobe]
  · intro q
    rw [hbits q]
    simp only [Nat.zero_add, hprobe]
  · simp only [hlen', hlen]

/-! ### Lemmas on maps and the heap -/

theorem Heap.write_self {K V : Type} (heap : Heap K V) (p : Ptr) (e : Entry K V) :
    heap.write p e p = e := by
  simp [Heap.write]

theorem Heap.write_other {K V : Type} (heap : Heap K V) (p q : Ptr) (e : Entry K V)
    (h : q ≠ p) : heap.write p e q = heap q := by
  simp [Heap.write, h]

theorem mapGet_nil {K : Type} [DecidableEq K] (k : K) :
    mapGet ([] : List (K × Ptr)) k = none := rfl

theorem mapGet_cons {K : Type} [DecidableEq K] (k0 : K) (p0 : Ptr) (m : List (K × Ptr))
    (k : K) : mapGet ((k0, p0) :: m) k = if k0 = k then some p0 else mapGet m k := by
  unfold mapGet
  by_cases h : k0 = k <;> simp [List.find?_cons, h]

theorem mapDelete_nil {K : Type} [DecidableEq K] (k : K) :
    mapDelete ([] : List (K × Ptr)) k = [] := rfl

theorem mapDelete_cons {K : Type} [DecidableEq K] (k0 : K) (p0 : Ptr) (m : List (K × Ptr))
    (k : K) :
    mapDelete ((k0, p0) :: m) k
      = if k0 = k then mapDelete m k else (k0, p0) :: mapDelete m k := by
  unfold mapDelete
  by_cases h : k0 = k <;> simp [List.filter_cons, h]

theorem mapGet_mapDelete_self {K : Type} [DecidableEq K] (m : List (K × Ptr)) (k : K) :
    mapGet (mapDelete m k) k = none := by
  induction m with
  | nil => rfl
  | cons kv m ih =>
    obtain ⟨k0, p0⟩ := kv
    rw [mapDelete_cons]
    by_cases h : k0 = k
    · rw [if_pos h]; exact ih
    · rw [if_neg h, mapGet_cons, if_neg h]; exact ih

theorem mapGet_mapDelete_ne {K : Type} [DecidableEq K] (m : List (K × Ptr)) (k k' : K)
    (hne : k' ≠ k) : mapGet (mapDelete m k) k' = mapGet m k' := by
  induction m with
  | nil => rfl
  | cons kv m ih =>
    obtain ⟨k0, p0⟩ := kv
    rw [mapDelete_cons, mapGet_cons]
    by_cases h : k0 = k
    · have h' : ¬ k0 = k' := by rw [h]; exact fun e => hne e.symm
      rw [if_pos h, if_neg h']; exact ih
    · rw [if_neg h, mapGet_cons, ih]

theorem mapGet_mapSet_self {K : Type} [DecidableEq K] (m : List (K × Ptr)) (k : K) (p : Ptr) :
    mapGet (mapSet m k p) k = some p := by
  rw [mapSet, mapGet_cons, if_pos rfl]

theorem mapGet_mapSet_ne {K : Type} [DecidableEq K] (m : List (K × Ptr)) (k k' : K) (p : Ptr)
    (hne : k' ≠ k) : mapGet (mapSet m k p) k' = mapGet m k' := by
  rw [mapSet, mapGet_cons, if_neg (fun e => hne e.symm), mapGet_mapDelete_ne m k k' hne]

/-! ### One iteration of the window loop -/

theorem Shard.delete_eq {K V : Type} [DecidableEq K] (sh : Shard K) (heap : Heap K V) (p : Ptr) :
    sh.delete heap p
      = (decide (mapGet sh.hashmap (heap p).key = some p),
         { sh with hashmap := mapDrop heap sh.hashmap p }) := by
  unfold Shard.delete mapDrop
  cases hg : mapGet sh.hashmap (heap p).key with
  | none => simp
  | some q =>
    by_cases hq : q = p
    · subst hq; simp
    · simp [hq]

theorem mapDrop_congr {K V : Type} [DecidableEq K] (heap heap' : Heap K V) (m : List (K × Ptr))
    (p : Ptr) (h : (heap' p).key = (heap p).key) : mapDrop heap' m p = mapDrop heap m p := by
  unfold mapDrop; rw [h]

theorem step_forwarded {K V : Type} [DecidableEq K] [Inhabited V] (grow : Nat → Nat)
    (threshold now : Int) (st : DequeRun K V) (ev : Ptr) (rest : List Ptr)
    (h : isForwarded st.heap threshold now ev = true) :
    processDequeStep grow threshold now st ev rest
      = { st with
          shard := { st.shard with deque := rest, qlen := st.shard.qlen - (st.heap ev).cost },
          heap := st.heap.write ev { st.heap ev with deque := false },
          send := st.send ++ [ev] } := by
  unfold isForwarded isExpired at h
  simp only [Bool.and_eq_true, Bool.not_eq_true', decide_eq_false_iff_not, Bool.or_eq_true,
    decide_eq_true_eq] at h
  obtain ⟨hexp, hfreq⟩ := h
  unfold processDequeStep
  simp only [Heap.write_self]
  rw [if_neg hexp]
  rcases hfreq with h1 | h2
  · rw [if_pos h1]
  · by_cases h1 : (st.heap ev).frequency = -1
    · rw [if_pos h1]
    · rw [if_neg h1, if_pos h2]

theorem step_dropped {K V : Type} [DecidableEq K] [Inhabited V] (grow : Nat → Nat)
    (threshold now : Int) (st : DequeRun K V) (ev : Ptr) (rest : List Ptr)
    (h : isForwarded st.heap threshold now ev = false) :
    (processDequeStep grow threshold now st ev rest).shard
      = { st.shard with
          hashmap := mapDrop st.heap st.shard.hashmap ev,
          deque := rest, qlen := st.shard.qlen - (st.heap ev).cost } ∧
    (processDequeStep grow threshold now st ev rest).send = st.send ∧
    (processDequeStep grow threshold now st ev rest).heap
      = (if mapGet st.shard.hashmap (st.heap ev).key = some ev then
          Store.postDelete (st.heap.write ev { st.heap ev with deque := false }) ev
        else st.heap.write ev { st.heap ev with deque := false }) ∧
    (processDequeStep grow threshold now st ev rest).entryPool
      = (if mapGet st.shard.hashmap (st.heap ev).key = some ev then ev :: st.entryPool
        else st.entryPool) := by
  have hk : mapDrop (st.heap.write ev { st.heap ev with deque := false }) st.shard.hashmap ev
      = mapDrop st.heap st.shard.hashmap ev :=
    mapDrop_congr _ _ _ _ (by rw [Heap.write_self])
  unfold isForwarded isExpired at h
  unfold processDequeStep
  simp only [Heap.write_self, Shard.delete_eq, hk, decide_eq_true_eq]
  by_cases hexp : (st.heap ev).expire ≠ 0 ∧ (st.heap ev).expire ≤ now
  · rw [if_pos hexp]
    by_cases hin : mapGet st.shard.hashmap (st.heap ev).key = some ev
    · simp only [if_pos hin]; refine ⟨?_, ?_, ?_, ?_⟩ <;> trivial
    · simp only [if_neg hin]; refine ⟨?_, ?_, ?_, ?_⟩ <;> trivial
  · rw [if_neg hexp]
    have hd : decide ((st.heap ev).expire ≠ 0 ∧ (st.heap ev).expire ≤ now) = false :=
      decide_eq_false hexp
    rw [hd] at h
    simp only [Bool.not_false, Bool.true_and, Bool.or_eq_false_iff,
      decide_eq_false_iff_not] at h
    rw [if_neg h.1, if_neg h.2]
    by_cases hin : mapGet st.shard.hashmap (st.heap ev).key = some ev
    · simp only [if_pos hin]; refine ⟨?_, ?_, ?_, ?_⟩ <;> trivial
    · simp only [if_neg hin]; refine ⟨?_, ?_, ?_, ?_⟩ <;> trivial

theorem HeapAgree.refl {K V : Type} (heap : Heap K V) : HeapAgree heap heap :=
  fun _ => ⟨rfl, rfl, rfl, rfl⟩

theorem HeapAgree.trans {K V : Type} {h1 h2 h3 : Heap K V} (a : HeapAgree h1 h2)
    (b : HeapAgree h2 h3) : HeapAgree h1 h3 := by
  intro q
  obtain ⟨a1, a2, a3, a4⟩ := a q
  obtain ⟨b1, b2, b3, b4⟩ := b q
  exact ⟨b1.trans a1, b2.trans a2, b3.trans a3, b4.trans a4⟩

theorem HeapAgree.isForwarded {K V : Type} {heap heap' : Heap K V} (a : HeapAgree heap heap')
    (threshold now : Int) (p : Ptr) :
    isForwarded heap' threshold now p = isForwarded heap threshold now p := by
  obtain ⟨_, a2, a3, _⟩ := a p
  unfold Theine.isForwarded isExpired
  rw [a2, a3]

theorem HeapAgree.mapDrop {K V : Type} [DecidableEq K] {heap heap' : Heap K V}
    (a : HeapAgree heap heap') (m : List (K × Ptr)) (p : Ptr) :
    mapDrop heap' m p = mapDrop heap m p :=
  mapDrop_congr heap heap' m p (a p).1

theorem HeapAgree.mapAfterPops {K V : Type} [DecidableEq K] {heap heap' : Heap K V}
    (a : HeapAgree heap heap') (threshold now : Int) (popped : List Ptr) (m : List (K × Ptr)) :
    mapAfterPops heap' threshold now popped m = mapAfterPops heap threshold now popped m := by
  unfold Theine.mapAfterPops
  congr 1
  funext m p
  rw [a.isForwarded, a.mapDrop]

theorem HeapAgree.dequeCost {K V : Type} {heap heap' : Heap K V} (a : HeapAgree heap heap')
    (l : List Ptr) : dequeCost heap' l = dequeCost heap l := by
  unfold Theine.dequeCost
  congr 1
  apply List.map_congr_left
  intro p _
  exact (a p).2.2.2

theorem step_agree {K V : Type} [DecidableEq K] [Inhabited V] (grow : Nat → Nat)
    (threshold now : Int) (st : DequeRun K V) (ev : Ptr) (rest : List Ptr) :
    HeapAgree st.heap (processDequeStep grow threshold now st ev rest).heap := by
  intro q
  cases h : isForwarded st.heap threshold now ev with
  | true =>
    rw [step_forwarded grow threshold now st ev rest h]
    by_cases hq : q = ev
    · subst hq; simp [Heap.write_self]
    · simp [Heap.write_other _ _ _ _ hq]
  | false =>
    rw [(step_dropped grow threshold now st ev rest h).2.2.1]
    by_cases hq : q = ev
    · subst hq
      split_ifs <;> simp [Store.postDelete, Heap.write_self]
    · split_ifs <;> simp [Store.postDelete, Heap.write_other _ _ _ _ hq]

theorem step_value {K V : Type} [DecidableEq K] [Inhabited V] (grow : Nat → Nat)
    (threshold now : Int) (st : DequeRun K V) (ev : Ptr) (rest : List Ptr) (q : Ptr)
    (hq : isForwarded st.heap threshold now q = true) :
    ((processDequeStep grow threshold now st ev rest).heap q).value = (st.heap q).value ∧
    ((processDequeStep grow threshold now st ev rest).heap q).shard = (st.heap q).shard := by
  cases h : isForwarded st.heap threshold now ev with
  | true =>
    rw [step_forwarded grow threshold now st ev rest h]
    by_cases hqe : q = ev
    · subst hqe; simp [Heap.write_self]
    · simp [Heap.write_other _ _ _ _ hqe]
  | false =>
    have hqe : q ≠ ev := by
      intro e; subst e; rw [h] at hq; exact Bool.noConfusion hq
    rw [(step_dropped grow threshold now st ev rest h).2.2.1]
    split_ifs <;> simp [Store.postDelete, Heap.write_other _ _ _ _ hqe]

theorem step_shard {K V : Type} [DecidableEq K] [Inhabited V] (grow : Nat → Nat)
    (threshold now : Int) (st : DequeRun K V) (ev : Ptr) (rest : List Ptr) :
    (processDequeStep grow threshold now st ev rest).shard
      = { st.shard with
          hashmap := mapAfterPops st.heap threshold now [ev] st.shard.hashmap,
          deque := rest, qlen := st.shard.qlen - (st.heap ev).cost } := by
  cases h : isForwarded st.heap threshold now ev with
  | true =>
    rw [step_forwarded grow threshold now st ev rest h]
    simp [mapAfterPops, h]
  | false =>
    rw [(step_dropped grow threshold now st ev rest h).1]
    simp [mapAfterPops, h]

theorem step_send {K V : Type} [DecidableEq K] [Inhabited V] (grow : Nat → Nat)
    (threshold now : Int) (st : DequeRun K V) (ev : Ptr) (rest : List Ptr) :
    (processDequeStep grow threshold now st ev rest).send
      = st.send ++ [ev].filter (isForwarded st.heap threshold now) := by
  cases h : isForwarded st.heap threshold now ev with
  | true =>
    rw [step_forwarded grow threshold now st ev rest h]
    simp [h]
  | false =>
    rw [(step_dropped grow threshold now st ev rest h).2.1]
    simp [h]

/-! ### The window loop -/

theorem dequeCost_nil {K V : Type} (heap : Heap K V) : dequeCost heap [] = 0 := rfl

theorem dequeCost_cons {K V : Type} (heap : Heap K V) (p : Ptr) (l : List Ptr) :
    dequeCost heap (p :: l) = (heap p).cost + dequeCost heap l := by
  simp [dequeCost]

theorem dequeCost_reverse {K V : Type} (heap : Heap K V) (l : List Ptr) :
    dequeCost heap l.reverse = dequeCost heap l := by
  simp [dequeCost, List.sum_reverse]

theorem mapAfterPops_cons {K V : Type} [DecidableEq K] (heap : Heap K V) (threshold now : Int)
    (p : Ptr) (l : List Ptr) (m : List (K × Ptr)) :
    mapAfterPops heap threshold now (p :: l) m
      = mapAfterPops heap threshold now l (mapAfterPops heap threshold now [p] m) := by
  simp [mapAfterPops]

theorem loop_spec {K V : Type} [DecidableEq K] [Inhabited V] (grow : Nat → Nat)
    (threshold now : Int) :
    ∀ (back : List Ptr) (st st' : DequeRun K V),
      processDequeLoop grow threshold now back st = some st' →
      ∃ n, n ≤ back.length ∧
        st'.send = st.send ++ (back.take n).filter (isForwarded st.heap threshold now) ∧
        st'.shard = { st.shard with
            hashmap := mapAfterPops st.heap threshold now (back.take n) st.shard.hashmap,
            deque := if n = 0 then st.shard.deque else (back.drop n).reverse,
            qlen := st.shard.qlen - dequeCost st.heap (back.take n) } ∧
        st'.shard.qlen ≤ (st.shard.qsize : Int) ∧
        (∀ j, j < n → st.shard.qlen - dequeCost st.heap (back.take j) > (st.shard.qsize : Int)) ∧
        HeapAgree st.heap st'.heap ∧
        (∀ q, isForwarded st.heap threshold now q = true →
          (st'.heap q).value = (st.heap q).value ∧ (st'.heap q).shard = (st.heap q).shard) := by
  intro back
  induction back with
  | nil =>
    intro st st' h
    unfold processDequeLoop at h
    split_ifs at h with hq
    injection h with h
    subst h
    refine ⟨0, le_refl _, by simp, ?_, not_lt.mp hq, ?_, HeapAgree.refl _, fun _ _ => ⟨rfl, rfl⟩⟩
    · ext : 1 <;> simp [mapAfterPops, dequeCost]
    · intro j hj; omega
  | cons ev rest ih =>
    intro st st' h
    unfold processDequeLoop at h
    split_ifs at h with hq
    · obtain ⟨n, hn, hsend, hshard, hle, hall, hagree, hval⟩ := ih _ _ h
      have hag := step_agree grow threshold now st ev rest.reverse
      refine ⟨n + 1, by simpa using hn, ?_, ?_, ?_, ?_, hag.trans hagree, ?_⟩
      · rw [hsend, step_send]
        simp only [List.take_succ_cons, List.filter_cons, List.filter_nil, List.append_assoc]
        congr 1
        rw [List.filter_congr (fun q _ => hag.isForwarded threshold now q)]
        cases isForwarded st.heap threshold now ev <;> rfl
      · rw [hshard, step_shard]
        ext : 1
        · simp only [List.take_succ_cons]
          rw [hag.mapAfterPops]
          exact (mapAfterPops_cons _ _ _ _ _ _).symm
        · simp
        · simp only [Nat.add_one_ne_zero, if_false, List.drop_succ_cons]
          split_ifs with h0
          · subst h0; simp
          · rfl
        · simp
        · simp
        · simp only [List.take_succ_cons, dequeCost_cons, hag.dequeCost]
          omega
        · simp
      · rw [step_shard] at hle
        exact hle
      · intro j hj
        cases j with
        | zero => simpa [dequeCost] using hq
        | succ j =>
          have := hall j (by omega)
          rw [step_shard] at this
          simp only [hag.dequeCost] at this
          simp only [List.take_succ_cons, dequeCost_cons]
          omega
      · intro q hq'
        have h1 := hval q (by rw [hag.isForwarded]; exact hq')
        have h2 := step_value grow threshold now st ev rest.reverse q hq'
        exact ⟨h1.1.trans h2.1, h1.2.trans h2.2⟩
    · injection h with h
      subst h
      refine ⟨0, Nat.zero_le _, by simp, ?_, not_lt.mp hq, ?_, HeapAgree.refl _,
        fun _ _ => ⟨rfl, rfl⟩⟩
      · ext : 1 <;> simp [mapAfterPops, dequeCost]
      · intro j hj; omega

/-- The loop does not panic when `qlen` is the sum of the costs of the window members. -/
theorem loop_total {K V : Type} [DecidableEq K] [Inhabited V] (grow : Nat → Nat)
    (threshold now : Int) :
    ∀ (back : List Ptr) (st : DequeRun K V),
      st.shard.qlen = dequeCost st.heap back →
      ∃ st', processDequeLoop grow threshold now back st = some st' := by
  intro back
  induction back with
  | nil =>
    intro st h
    unfold processDequeLoop
    rw [h, dequeCost_nil]
    have : ¬ (0 : Int) > (st.shard.qsize : Int) := by omega
    rw [if_neg this]
    exact ⟨st, rfl⟩
  | cons ev rest ih =>
    intro st h
    unfold processDequeLoop
    split_ifs with hq
    · apply ih
      rw [step_shard, (step_agree grow threshold now st ev rest.reverse).dequeCost]
      rw [dequeCost_cons] at h
      simp only
      omega
    · exact ⟨st, rfl⟩

/-! ### The paths through `Set` -/

theorem Heap.write_write {K V : Type} (h : Heap K V) (p : Ptr) (e1 e2 : Entry K V) :
    (h.write p e1).write p e2 = h.write p e2 := by
  funext q; unfold Heap.write; split_ifs <;> rfl

theorem Set_over {K V : Type} [DecidableEq K] [Inhabited V] {E : Env K V}
    (s : Store E) (key : K) (value : V) (cost ttl : Int) (entry : Ptr)
    (hc : s.effectiveCost value cost > toInt s.cap) :
    s.Set key value cost ttl entry = some (false, s) := by
  unfold Store.effectiveCost at hc
  unfold Store.Set
  simp only [if_pos hc]

theorem Set_rejected {K V : Type} [DecidableEq K] [Inhabited V] {E : Env K V}
    (s : Store E) (key : K) (value : V) (cost ttl : Int) (entry : Ptr)
    (shard shard1 : Shard K)
    (hc : ¬ s.effectiveCost value cost > toInt s.cap)
    (hsh : s.shards[(s.index key).2]? = some shard)
    (hget : shard.get key = none)
    (hgate : s.gate shard (s.index key).1 = some (false, shard1)) :
    s.Set key value cost ttl entry
      = some (false, { s with shards := s.shards.set (s.index key).2 shard1 }) := by
  unfold Store.effectiveCost at hc
  unfold Store.gate at hgate
  unfold Store.Set
  simp only [if_neg hc, hsh, hget, hgate]

theorem Set_bypass {K V : Type} [DecidableEq K] [Inhabited V] {E : Env K V}
    (s : Store E) (key : K) (value : V) (cost ttl : Int) (entry : Ptr)
    (shard shard1 : Shard K)
    (hc : ¬ s.effectiveCost value cost > toInt s.cap)
    (hsh : s.shards[(s.index key).2]? = some shard)
    (hget : shard.get key = none)
    (hgate : s.gate shard (s.index key).1 = some (true, shard1))
    (hq : s.effectiveCost value cost > ((shard1.set E.fl key entry).qsize : Int)) :
    s.Set key value cost ttl entry
      = some (true, { s with
          heap := s.heap.write entry
            { s.heap entry with
              frequency := -1, shard := (s.index key).2 % 2 ^ 16, key := key, value := value,
              expire := s.expireOf ttl, cost := s.effectiveCost value cost },
          entryPool := s.entryPool.erase entry,
          shards := s.shards.set (s.index key).2 (shard1.set E.fl key entry),
          writebuf := s.writebuf ++ [newItem entry] }) := by
  unfold Store.effectiveCost at hc hq
  unfold Store.gate at hgate
  unfold Store.Set
  simp only [if_neg hc, hsh, hget, hgate, if_pos hq]
  rfl

theorem Set_window {K V : Type} [DecidableEq K] [Inhabited V] {E : Env K V}
    (s : Store E) (key : K) (value : V) (cost ttl : Int) (entry : Ptr)
    (shard shard1 : Shard K)
    (hc : ¬ s.effectiveCost value cost > toInt s.cap)
    (hsh : s.shards[(s.index key).2]? = some shard)
    (hget : shard.get key = none)
    (hgate : s.gate shard (s.index key).1 = some (true, shard1))
    (hq : ¬ s.effectiveCost value cost > ((shard1.set E.fl key entry).qsize : Int)) :
    s.Set key value cost ttl entry
      = (Store.processDeque { s with
          heap := s.heap.write entry
            { s.heap entry with
              frequency := -1, shard := (s.index key).2 % 2 ^ 16, key := key, value := value,
              expire := s.expireOf ttl, cost := s.effectiveCost value cost, deque := true },
          entryPool := s.entryPool.erase entry,
          shards := s.shards.set (s.index key).2
            { shard1.set E.fl key entry with
              deque := entry :: (shard1.set E.fl key entry).deque,
              qlen := (shard1.set E.fl key entry).qlen + s.effectiveCost value cost } }
          (s.index key).2).map (fun s2 => (true, s2)) := by
  unfold Store.effectiveCost at hc hq
  unfold Store.gate at hgate
  unfold Store.Set
  simp only [if_neg hc, hsh, hget, hgate, if_neg hq, Heap.write_self]
  unfold Store.effectiveCost Store.expireOf
  simp only [Heap.write_write]
  split <;> rename_i heq <;> rw [heq] <;> rfl

/-! ### `processDeque` as a whole -/

theorem list_set_same {α : Type} (l : List α) (i : Nat) (a : α) (h : l[i]? = some a) :
    l.set i a = l := by
  apply List.ext_getElem?
  intro j
  by_cases hj : i = j
  · subst hj
    have hlt : i < l.length := by
      by_contra hc
      rw [List.getElem?_eq_none (not_lt.mp hc)] at h
      exact Option.noConfusion h
    rw [List.getElem?_set_self hlt, h]
  · rw [List.getElem?_set_ne hj]

theorem getElem?_set_self_of {α : Type} (l : List α) (i : Nat) (a b : α)
    (h : l[i]? = some a) : (l.set i b)[i]? = some b := by
  have hlt : i < l.length := by
    by_contra hc
    rw [List.getElem?_eq_none (not_lt.mp hc)] at h
    exact Option.noConfusion h
  exact List.getElem?_set_self hlt

theorem processDeque_spec {K V : Type} [DecidableEq K] [Inhabited V] {E : Env K V}
    (s s' : Store E) (index : Nat) (shard : Shard K)
    (hsh : s.shards[index]? = some shard) (h : s.processDeque index = some s') :
    ∃ popped rest, shard.deque = rest ++ popped.reverse ∧
      s'.shards = s.shards.set index
        { shard with
          hashmap := mapAfterPops s.heap s.policy.threshold s.timerwheel.clock.nowNano popped
            shard.hashmap,
          deque := rest, qlen := shard.qlen - dequeCost s.heap popped } ∧
      shard.qlen - dequeCost s.heap popped ≤ (shard.qsize : Int) ∧
      (∀ j, j < popped.length →
        shard.qlen - dequeCost s.heap (popped.take j) > (shard.qsize : Int)) ∧
      s'.writebuf = s.writebuf ++
        (popped.filter (isForwarded s.heap s.policy.threshold s.timerwheel.clock.nowNano)).map
          newItem ∧
      HeapAgree s.heap s'.heap ∧
      (∀ q, isForwarded s.heap s.policy.threshold s.timerwheel.clock.nowNano q = true →
        (s'.heap q).value = (s.heap q).value ∧ (s'.heap q).shard = (s.heap q).shard) ∧
      s'.timerwheel = s.timerwheel ∧ s'.shardCount = s.shardCount ∧ s'.policy = s.policy ∧
      s'.cap = s.cap ∧ s'.doorkeeper = s.doorkeeper := by
  unfold Store.processDeque at h
  simp only [hsh] at h
  split_ifs at h with hq
  · injection h with h
    subst h
    refine ⟨[], shard.deque, by simp, ?_, by simpa [dequeCost] using hq, ?_, by simp,
      HeapAgree.refl _, fun _ _ => ⟨rfl, rfl⟩, rfl, rfl, rfl, rfl, rfl⟩
    · have : ({ shard with
          hashmap := mapAfterPops s.heap s.policy.threshold s.timerwheel.clock.nowNano []
            shard.hashmap,
          deque := shard.deque, qlen := shard.qlen - dequeCost s.heap [] } : Shard K) = shard := by
        ext : 1 <;> simp [mapAfterPops, dequeCost]
      rw [this, list_set_same _ _ _ hsh]
    · intro j hj; simp at hj
  · split at h
    · exact Option.noConfusion h
    · rename_i st hloop
      injection h with h
      subst h
      obtain ⟨n, hn, hsend, hshard, hle, hall, hagree, hval⟩ := loop_spec _ _ _ _ _ _ hloop
      simp only at hsend hshard hle hall hagree hval
      have hdq : (if n = 0 then shard.deque else (shard.deque.reverse.drop n).reverse)
          = (shard.deque.reverse.drop n).reverse := by
        split_ifs with h0
        · subst h0; simp
        · rfl
      rw [hdq] at hshard
      rw [hshard] at hle
      have hlen : (shard.deque.reverse.take n).length = n := by
        rw [List.length_take]; exact Nat.min_eq_left hn
      refine ⟨shard.deque.reverse.take n, (shard.deque.reverse.drop n).reverse, ?_, ?_, hle, ?_,
        ?_, hagree, hval, rfl, rfl, rfl, rfl, rfl⟩
      · rw [← List.reverse_append, List.take_append_drop, List.reverse_reverse]
      · simp only [hshard]
      · intro j hj
        rw [hlen] at hj
        rw [List.take_take, Nat.min_eq_left (Nat.le_of_lt hj)]
        exact hall j hj
      · simp only [hsend, List.nil_append]

theorem processDeque_total {K V : Type} [DecidableEq K] [Inhabited V] {E : Env K V}
    (s : Store E) (index : Nat) (shard : Shard K)
    (hsh : s.shards[index]? = some shard)
    (hinv : shard.qlen = dequeCost s.heap shard.deque) :
    ∃ s', s.processDeque index = some s' := by
  unfold Store.processDeque
  simp only [hsh]
  split_ifs with hq
  · exact ⟨s, rfl⟩
  · obtain ⟨st', h⟩ := loop_total E.growslice s.policy.threshold s.timerwheel.clock.nowNano
      shard.deque.reverse
      { shard := shard, heap := s.heap, entryPool := s.entryPool, send := [],
        mem := ((SliceMem.empty : SliceMem (dequeKV K V)).make 2).2.make 2 |>.2,
        removedkv := ((SliceMem.empty : SliceMem (dequeKV K V)).make 2).1,
        expiredkv := (((SliceMem.empty : SliceMem (dequeKV K V)).make 2).2.make 2).1 }
      (by simp only [dequeCost_reverse]; exact hinv)
    simp only [h]
    exact ⟨_, rfl⟩

/-! ### The shard map under the window rule -/

theorem mapGet_mapDelete_some {K : Type} [DecidableEq K] (m : List (K × Ptr)) (k0 k : K)
    (x : Ptr) (h : mapGet (mapDelete m k0) k = some x) : mapGet m k = some x := by
  by_cases hk : k = k0
  · subst hk
    rw [mapGet_mapDelete_self] at h
    exact Option.noConfusion h
  · rwa [mapGet_mapDelete_ne m k0 k hk] at h

theorem mapGet_mapDrop_some {K V : Type} [DecidableEq K] (heap : Heap K V) (m : List (K × Ptr))
    (q : Ptr) (k : K) (x : Ptr) (h : mapGet (mapDrop heap m q) k = some x) :
    mapGet m k = some x := by
  unfold mapDrop at h
  split_ifs at h
  · exact mapGet_mapDelete_some _ _ _ _ h
  · exact h

theorem mapGet_mapDrop_self {K V : Type} [DecidableEq K] (heap : Heap K V) (m : List (K × Ptr))
    (p : Ptr) : mapGet (mapDrop heap m p) (heap p).key ≠ some p := by
  unfold mapDrop
  split_ifs with h
  · rw [mapGet_mapDelete_self]; exact fun e => Option.noConfusion e
  · exact h

theorem mapGet_mapAfterPops_some {K V : Type} [DecidableEq K] (heap : Heap K V)
    (threshold now : Int) (k : K) (x : Ptr) :
    ∀ (l : List Ptr) (m : List (K × Ptr)),
      mapGet (mapAfterPops heap threshold now l m) k = some x → mapGet m k = some x := by
  intro l
  induction l with
  | nil => intro m h; exact h
  | cons p l ih =>
    intro m h
    rw [mapAfterPops_cons] at h
    have h1 := ih _ h
    simp only [mapAfterPops, List.foldl_cons, List.foldl_nil] at h1
    split_ifs at h1
    · exact h1
    · exact mapGet_mapDrop_some _ _ _ _ _ h1

/-- A popped entry that the rule does not forward is no longer bound in the shard map. -/
theorem mapAfterPops_dropped {K V : Type} [DecidableEq K] (heap : Heap K V)
    (threshold now : Int) (p : Ptr) (hp : isForwarded heap threshold now p = false) :
    ∀ (l : List Ptr) (m : List (K × Ptr)), p ∈ l →
      mapGet (mapAfterPops heap threshold now l m) (heap p).key ≠ some p := by
  intro l
  induction l with
  | nil => intro m hin; simp at hin
  | cons q l ih =>
    intro m hin
    rw [mapAfterPops_cons]
    by_cases hl : p ∈ l
    · exact ih _ hl
    · have hq : p = q := by
        rcases List.mem_cons.mp hin with h | h
        · exact h
        · exact absurd h hl
      subst hq
      intro hcontra
      have h1 := mapGet_mapAfterPops_some _ _ _ _ _ _ _ hcontra
      simp only [mapAfterPops, List.foldl_cons, List.foldl_nil, hp] at h1
      exact mapGet_mapDrop_self _ _ _ h1

/-- A binding to an entry that the rule forwards survives the handling of the popped
entries. -/
theorem mapAfterPops_keep {K V : Type} [DecidableEq K] (heap : Heap K V)
    (threshold now : Int) (k : K) (e : Ptr) (he : isForwarded heap threshold now e = true) :
    ∀ (l : List Ptr) (m : List (K × Ptr)), mapGet m k = some e →
      mapGet (mapAfterPops heap threshold now l m) k = some e := by
  intro l
  induction l with
  | nil => intro m h; exact h
  | cons p l ih =>
    intro m h
    rw [mapAfterPops_cons]
    apply ih
    simp only [mapAfterPops, List.foldl_cons, List.foldl_nil]
    split_ifs with hf
    · exact h
    · unfold mapDrop
      split_ifs with hin
      · have hk : k ≠ (heap p).key := by
          intro hk
          rw [← hk, h] at hin
          injection hin with hin
          rw [← hin] at hf
          exact hf he
        rw [mapGet_mapDelete_ne _ _ _ hk]
        exact h
      · exact h

/-- Bindings of keys other than those of the popped entries are untouched. -/
theorem mapAfterPops_other {K V : Type} [DecidableEq K] (heap : Heap K V)
    (threshold now : Int) (k : K) :
    ∀ (l : List Ptr) (m : List (K × Ptr)), (∀ p, p ∈ l → (heap p).key ≠ k) →
      mapGet (mapAfterPops heap threshold now l m) k = mapGet m k := by
  intro l
  induction l with
  | nil => intro m _; rfl
  | cons p l ih =>
    intro m h
    rw [mapAfterPops_cons, ih _ (fun q hq => h q (List.mem_cons_of_mem _ hq))]
    simp only [mapAfterPops, List.foldl_cons, List.foldl_nil]
    split_ifs with hf
    · rfl
    · unfold mapDrop
      split_ifs with hin
      · exact mapGet_mapDelete_ne _ _ _ (fun e => h p (List.mem_cons_self _ _) e.symm)
      · rfl

/-! ### The doorkeeper gate, `Shard.set`, `index`, `Len`, `getFromShard` -/

theorem doorkeeperGate_frame {K : Type} (shard shard1 : Shard K) (h : Nat) (b : Bool)
    (hg : shard.doorkeeperGate h = some (b, shard1)) :
    shard1.hashmap = shard.hashmap ∧ shard1.deque = shard.deque ∧ shard1.qlen = shard.qlen ∧
      shard1.qsize = shard.qsize ∧ shard1.size = shard.size := by
  unfold Shard.doorkeeperGate at hg
  split at hg
  · exact Option.noConfusion hg
  · simp only at hg
    split at hg
    · exact Option.noConfusion hg
    · split_ifs at hg <;> injection hg with hg <;> injection hg with _ hg <;> subst hg <;>
        exact ⟨rfl, rfl, rfl, rfl, rfl⟩

theorem gate_frame {K V : Type} {E : Env K V} (s : Store E) (shard shard1 : Shard K) (h : Nat)
    (b : Bool) (hg : s.gate shard h = some (b, shard1)) :
    shard1.hashmap = shard.hashmap ∧ shard1.deque = shard.deque ∧ shard1.qlen = shard.qlen ∧
      shard1.qsize = shard.qsize ∧ shard1.size = shard.size := by
  unfold Store.gate at hg
  split_ifs at hg
  · exact doorkeeperGate_frame _ _ _ _ hg
  · injection hg with hg
    injection hg with _ hg
    subst hg
    exact ⟨rfl, rfl, rfl, rfl, rfl⟩

theorem Shard.set_frame {K : Type} [DecidableEq K] (fl : FloatOps) (sh : Shard K) (key : K)
    (entry : Ptr) :
    (sh.set fl key entry).hashmap = mapSet sh.hashmap key entry ∧
      (sh.set fl key entry).deque = sh.deque ∧ (sh.set fl key entry).qlen = sh.qlen ∧
      (sh.set fl key entry).qsize = sh.qsize ∧ (sh.set fl key entry).size = sh.size ∧
      (sh.set fl key entry).counter = sh.counter := by
  unfold Shard.set
  simp only
  split
  · split_ifs <;> exact ⟨rfl, rfl, rfl, rfl, rfl, rfl⟩
  · exact ⟨rfl, rfl, rfl, rfl, rfl, rfl⟩

theorem index_congr {K V : Type} {E : Env K V} (s s' : Store E) (key : K)
    (h : s'.shardCount = s.shardCount) : s'.index key = s.index key := by
  unfold Store.index
  rw [h]

/-- The shard index of a key is in range for a store with `shardCount` shards. -/
theorem index_lt {K V : Type} {E : Env K V} (s : Store E) (key : K)
    (h0 : 0 < s.shardCount) (h1 : s.shardCount < 2 ^ 64) :
    (s.index key).2 < s.shardCount := by
  unfold Store.index
  simp only
  have hmask : u64 (s.shardCount + 2 ^ 64 - 1) = s.shardCount - 1 := by
    unfold u64
    have : s.shardCount + 2 ^ 64 - 1 = (s.shardCount - 1) + 2 ^ 64 := by omega
    rw [this, Nat.add_mod_right]
    exact Nat.mod_eq_of_lt (by omega)
  rw [hmask]
  have := @Nat.and_le_right
    ((u64 (((u64 (((u64 (E.hash key) >>> 16) ^^^ u64 (E.hash key)) * 0x45d9f3b) >>> 16) ^^^
      u64 (((u64 (E.hash key) >>> 16) ^^^ u64 (E.hash key)) * 0x45d9f3b)) * 0x45d9f3b) >>> 16) ^^^
      u64 (((u64 (((u64 (E.hash key) >>> 16) ^^^ u64 (E.hash key)) * 0x45d9f3b) >>> 16) ^^^
      u64 (((u64 (E.hash key) >>> 16) ^^^ u64 (E.hash key)) * 0x45d9f3b)) * 0x45d9f3b))
    (s.shardCount - 1)
  omega

theorem Len_set {K V : Type} {E : Env K V} (s s' : Store E) (i : Nat) (shard shard' : Shard K)
    (hsh : s.shards[i]? = some shard) (hs : s'.shards = s.shards.set i shard')
    (hm : shard'.hashmap.length = shard.hashmap.length) : s'.Len = s.Len := by
  unfold Store.Len
  rw [hs, List.map_set]
  have : shard'.len = shard.len := hm
  rw [this, list_set_same]
  rw [List.getElem?_map, hsh]
  rfl

theorem getFromShard_hit {K V : Type} [DecidableEq K] [Inhabited V] {E : Env K V}
    (s : Store E) (key : K) (hash : Nat) (shard : Shard K) (p : Ptr)
    (hget : shard.get key = some p)
    (hlive : ¬ ((s.heap p).expire ≠ 0 ∧ (s.heap p).expire ≤ s.timerwheel.clock.nowNano)) :
    (s.getFromShard key hash shard).1 = ((s.heap p).value, true) := by
  unfold Store.getFromShard
  simp only [hget, if_neg hlive, Option.isSome_some]

theorem getFromShard_expired {K V : Type} [DecidableEq K] [Inhabited V] {E : Env K V}
    (s : Store E) (key : K) (hash : Nat) (shard : Shard K) (p : Ptr)
    (hget : shard.get key = some p)
    (hexp : (s.heap p).expire ≠ 0 ∧ (s.heap p).expire ≤ s.timerwheel.clock.nowNano) :
    (s.getFromShard key hash shard).1 = (default, false) := by
  unfold Store.getFromShard
  simp only [hget, if_pos hexp, Option.isSome_none]

theorem getFromShard_absent {K V : Type} [DecidableEq K] [Inhabited V] {E : Env K V}
    (s : Store E) (key : K) (hash : Nat) (shard : Shard K)
    (hget : shard.get key = none) :
    (s.getFromShard key hash shard).1 = (default, false) := by
  unfold Store.getFromShard
  simp only [hget, Option.isSome_none]

/-! ### Facts about `Set`, `Delete` and `Get` -/

theorem Set_update {K V : Type} [DecidableEq K] [Inhabited V] {E : Env K V}
    (s : Store E) (key : K) (value : V) (cost ttl : Int) (entry : Ptr)
    (shard : Shard K) (exist : Ptr)
    (hc : ¬ s.effectiveCost value cost > toInt s.cap)
    (hsh : s.shards[(s.index key).2]? = some shard)
    (hget : shard.get key = some exist) :
    ∃ s' shard', s.Set key value cost ttl entry = some (true, s') ∧
      s'.shards = s.shards.set (s.index key).2 shard' ∧
      shard'.hashmap = shard.hashmap ∧ shard'.dookeeper = shard.dookeeper ∧
      shard'.counter = shard.counter ∧ shard'.deque = shard.deque ∧
      shard'.qsize = shard.qsize ∧
      shard'.qlen = (if (s.heap exist).cost ≠ s.effectiveCost value cost ∧
          (s.heap exist).deque = true
        then shard.qlen + i64 (s.effectiveCost value cost - (s.heap exist).cost)
        else shard.qlen) ∧
      (s'.heap exist).value = value ∧
      (s'.heap exist).cost = s.effectiveCost value cost ∧
      (s'.heap exist).expire
        = (if s.expireOf ttl > 0 then s.expireOf ttl else (s.heap exist).expire) ∧
      (s'.heap exist).deque = (s.heap exist).deque ∧
      (∀ q, q ≠ exist → s'.heap q = s.heap q) ∧
      s'.writebuf =
        (if (s.expireOf ttl > 0 ∧ (s.heap exist).expire ≠ s.expireOf ttl) ∨
            i64 (s.effectiveCost value cost - (s.heap exist).cost) ≠ 0 then
          s.writebuf ++ [updateItem exist (i64 (s.effectiveCost value cost - (s.heap exist).cost))
            (decide (s.expireOf ttl > 0 ∧ (s.heap exist).expire ≠ s.expireOf ttl))]
        else s.writebuf) ∧
      s'.removalListener = s.removalListener ∧ s'.entryPool = s.entryPool ∧
      s'.timerwheel = s.timerwheel ∧ s'.shardCount = s.shardCount ∧ s'.policy = s.policy := by
  have hfc : (if cost = 0 then s.cost value else cost) = s.effectiveCost value cost := rfl
  have hfx : (if ttl ≠ 0 then s.timerwheel.clock.expireNano ttl else 0) = s.expireOf ttl := rfl
  unfold Store.Set
  simp only [hfc, hfx, if_neg hc, hsh, hget, Heap.write_self]
  generalize s.effectiveCost value cost = c
  generalize s.expireOf ttl = x
  refine ⟨_, _, rfl, rfl, ?_, ?_, ?_, ?_, ?_, ?_, ?_, ?_, ?_, ?_, ?_, ?_, rfl, rfl, rfl, rfl, rfl⟩
  · split_ifs <;> rfl
  · split_ifs <;> rfl
  · split_ifs <;> rfl
  · split_ifs <;> rfl
  · split_ifs <;> rfl
  · split_ifs <;> simp_all
  · simp only
    split_ifs <;> simp [Heap.write_self]
  · simp only
    split_ifs <;> simp [Heap.write_self]
  · simp only
    split_ifs <;> simp_all [Heap.write_self]
  · simp only
    split_ifs <;> simp [Heap.write_self]
  · intro q hq
    simp only
    split_ifs <;> simp [Heap.write_other _ _ _ _ hq]
  · simp only [updateItem]
    have h0 : i64 0 = 0 := by decide
    by_cases hne : (s.heap exist).cost = c
    · rw [hne, sub_self, h0]
      simp
    · simp [hne]

theorem Get_of_shard {K V : Type} [DecidableEq K] [Inhabited V] {E : Env K V}
    (s : Store E) (key : K) (shard : Shard K)
    (hsh : s.shards[(s.index key).2]? = some shard) :
    s.Get key = some (s.getFromShard key (s.index key).1 shard) := by
  unfold Store.Get
  simp only [hsh]

theorem Delete_facts {K V : Type} [DecidableEq K] [Inhabited V] {E : Env K V}
    (s : Store E) (key : K) (shard : Shard K)
    (hsh : s.shards[(s.index key).2]? = some shard)
    (hkey : ∀ p, shard.get key = some p → (s.heap p).key = key) :
    ∃ s' shard', s.Delete key = some s' ∧
      s'.shards = s.shards.set (s.index key).2 shard' ∧
      s'.shards[(s'.index key).2]? = some shard' ∧
      shard'.get key = none ∧
      (∀ k', k' ≠ key → shard'.get k' = shard.get k') ∧
      (s'.Get key).map (fun r => r.1) = some (default, false) ∧
      (∀ p, shard.get key = some p → s'.writebuf = s.writebuf ++ [removeItem p]) ∧
      (shard.get key = none → s'.writebuf = s.writebuf) ∧
      s'.heap = s.heap ∧ s'.removalListener = s.removalListener := by
  cases hget : shard.get key with
  | none =>
    refine ⟨s, shard, ?_, (list_set_same _ _ _ hsh).symm, hsh, hget, fun _ _ => rfl, ?_,
      fun p hp => Option.noConfusion hp, fun _ => rfl, rfl, rfl⟩
    · unfold Store.Delete
      simp only [hsh, hget]
    · rw [Get_of_shard s key shard hsh, Option.map_some',
        getFromShard_absent s key _ shard hget]
  | some p =>
    have hk := hkey p hget
    have hdel : (shard.delete s.heap p).2 = { shard with hashmap := mapDelete shard.hashmap key } := by
      rw [Shard.delete_eq]
      simp only [mapDrop, hk]
      unfold Shard.get at hget
      rw [if_pos hget]
    have hidx : ∀ s' : Store E, s'.shardCount = s.shardCount → s'.index key = s.index key :=
      fun s' h => index_congr s s' key h
    refine ⟨{ s with
        shards := s.shards.set (s.index key).2 (shard.delete s.heap p).2,
        writebuf := s.writebuf ++ [removeItem p] }, (shard.delete s.heap p).2, ?_, rfl, ?_, ?_, ?_,
      ?_, ?_, ?_, rfl, rfl⟩
    · unfold Store.Delete
      simp only [hsh, hget]
    · rw [hidx _ rfl]
      exact getElem?_set_self_of _ _ _ _ hsh
    · rw [hdel]
      exact mapGet_mapDelete_self _ _
    · intro k' hne
      rw [hdel]
      exact mapGet_mapDelete_ne _ _ _ hne
    · rw [Get_of_shard _ key (shard.delete s.heap p).2
          (by rw [hidx _ rfl]; exact getElem?_set_self_of _ _ _ _ hsh),
        Option.map_some', getFromShard_absent]
      rw [hdel]
      exact mapGet_mapDelete_self _ _
    · intro q hq
      injection hq with hq
      subst hq
      rfl
    · intro h; exact Option.noConfusion h

theorem Set_bypass_facts {K V : Type} [DecidableEq K] [Inhabited V] {E : Env K V}
    (s : Store E) (key : K) (value : V) (cost ttl : Int) (entry : Ptr)
    (shard shard1 : Shard K)
    (hc : s.effectiveCost value cost ≤ toInt s.cap)
    (hsh : s.shards[(s.index key).2]? = some shard)
    (hget : shard.get key = none)
    (hgate : s.gate shard (s.index key).1 = some (true, shard1))
    (hq : (shard.qsize : Int) < s.effectiveCost value cost) :
    ∃ s' shard', s.Set key value cost ttl entry = some (true, s') ∧
      s'.shards[(s.index key).2]? = some shard' ∧
      shard'.get key = some entry ∧
      (∀ k', k' ≠ key → shard'.get k' = shard.get k') ∧
      (s'.heap entry).deque = (s.heap entry).deque ∧
      (s'.heap entry).key = key ∧ (s'.heap entry).value = value ∧
      (s'.heap entry).cost = s.effectiveCost value cost ∧
      (s'.heap entry).expire = s.expireOf ttl ∧ (s'.heap entry).frequency = -1 ∧
      shard'.deque = shard.deque ∧ shard'.qlen = shard.qlen ∧
      s'.writebuf = s.writebuf ++ [newItem entry] ∧
      s'.removalListener = s.removalListener := by
  obtain ⟨g1, g2, g3, g4, _⟩ := gate_frame s shard shard1 _ _ hgate
  obtain ⟨f1, f2, f3, f4, _, _⟩ := Shard.set_frame E.fl shard1 key entry
  have hq' : s.effectiveCost value cost > ((shard1.set E.fl key entry).qsize : Int) := by
    rw [f4, g4]; exact hq
  refine ⟨_, shard1.set E.fl key entry,
    Set_bypass s key value cost ttl entry shard shard1 (not_lt.mpr hc) hsh hget hgate hq',
    getElem?_set_self_of _ _ _ _ hsh, ?_, ?_, ?_, ?_, ?_, ?_, ?_, ?_, ?_, ?_, rfl, rfl⟩
  · unfold Shard.get; rw [f1]; exact mapGet_mapSet_self _ _ _
  · intro k' hne
    unfold Shard.get; rw [f1, g1]; exact mapGet_mapSet_ne _ _ _ _ hne
  all_goals first
    | (simp only [Heap.write_self])
    | (rw [f2, g2])
    | (rw [f3, g3])

theorem dequeCost_write_notin {K V : Type} (heap : Heap K V) (p : Ptr) (e : Entry K V)
    (l : List Ptr) (h : p ∉ l) : dequeCost (heap.write p e) l = dequeCost heap l := by
  unfold dequeCost
  congr 1
  apply List.map_congr_left
  intro q hq
  have : q ≠ p := fun e => h (e ▸ hq)
  rw [Heap.write_other _ _ _ _ this]

theorem Set_window_eq {K V : Type} [DecidableEq K] [Inhabited V] {E : Env K V}
    (s : Store E) (key : K) (value : V) (cost ttl : Int) (entry : Ptr)
    (shard shard1 : Shard K)
    (hc : s.effectiveCost value cost ≤ toInt s.cap)
    (hsh : s.shards[(s.index key).2]? = some shard)
    (hget : shard.get key = none)
    (hgate : s.gate shard (s.index key).1 = some (true, shard1))
    (hq : s.effectiveCost value cost ≤ (shard.qsize : Int)) :
    s.Set key value cost ttl entry
      = ((s.pushed key value cost ttl entry shard1).processDeque (s.index key).2).map
          (fun s2 => (true, s2)) := by
  obtain ⟨g1, g2, g3, g4, _⟩ := gate_frame s shard shard1 _ _ hgate
  obtain ⟨f1, f2, f3, f4, _, _⟩ := Shard.set_frame E.fl shard1 key entry
  have hq' : ¬ s.effectiveCost value cost > ((shard1.set E.fl key entry).qsize : Int) := by
    rw [f4, g4]; exact not_lt.mpr hq
  rw [Set_window s key value cost ttl entry shard shard1 (not_lt.mpr hc) hsh hget hgate hq']
  rfl

theorem Set_window_facts {K V : Type} [DecidableEq K] [Inhabited V] {E : Env K V}
    (s s' : Store E) (key : K) (value : V) (cost ttl : Int) (entry : Ptr)
    (shard shard1 : Shard K) (r : Bool)
    (hc : s.effectiveCost value cost ≤ toInt s.cap)
    (hsh : s.shards[(s.index key).2]? = some shard)
    (hget : shard.get key = none)
    (hgate : s.gate shard (s.index key).1 = some (true, shard1))
    (hq : s.effectiveCost value cost ≤ (shard.qsize : Int))
    (hlive : ¬ (s.expireOf ttl ≠ 0 ∧ s.expireOf ttl ≤ s.timerwheel.clock.nowNano))
    (hres : s.Set key value cost ttl entry = some (r, s')) :
    r = true ∧ ∃ shard', s'.shards[(s.index key).2]? = some shard' ∧
      shard'.get key = some entry ∧
      (s'.heap entry).key = key ∧ (s'.heap entry).value = value ∧
      (s'.heap entry).cost = s.effectiveCost value cost ∧
      (s'.heap entry).expire = s.expireOf ttl ∧ (s'.heap entry).frequency = -1 ∧
      s'.timerwheel = s.timerwheel ∧ s'.shardCount = s.shardCount := by
  obtain ⟨f1, _⟩ := Shard.set_frame E.fl shard1 key entry
  rw [Set_window_eq s key value cost ttl entry shard shard1 hc hsh hget hgate hq] at hres
  cases hpd : (s.pushed key value cost ttl entry shard1).processDeque (s.index key).2 with
  | none => rw [hpd] at hres; exact Option.noConfusion hres
  | some s2 =>
    rw [hpd] at hres
    simp only [Option.map_some', Option.some.injEq, Prod.mk.injEq] at hres
    obtain ⟨hr, hs⟩ := hres
    subst hs
    refine ⟨hr.symm, ?_⟩
    have hshp : (s.pushed key value cost ttl entry shard1).shards[(s.index key).2]?
        = some (s.pushedShard key value cost entry shard1) :=
      getElem?_set_self_of _ _ _ _ hsh
    obtain ⟨popped, rest, _, hshards, _, _, _, hagree, hval, htw, hsc, _, _, _⟩ :=
      processDeque_spec _ s2 (s.index key).2 _ hshp hpd
    have hheap : (s.pushed key value cost ttl entry shard1).heap entry
        = { s.newEntry key value cost ttl entry with deque := true } := Heap.write_self _ _ _
    have hfwd : isForwarded (s.pushed key value cost ttl entry shard1).heap
        (s.pushed key value cost ttl entry shard1).policy.threshold
        (s.pushed key value cost ttl entry shard1).timerwheel.clock.nowNano entry = true := by
      unfold isForwarded isExpired
      rw [hheap]
      have : decide ((s.expireOf ttl ≠ 0 ∧ s.expireOf ttl ≤ s.timerwheel.clock.nowNano)) = false :=
        decide_eq_false hlive
      simp only [Store.newEntry, Store.pushed, this]
      rfl
    have hs2 := getElem?_set_self_of _ _ _
      ({ s.pushedShard key value cost entry shard1 with
          hashmap := mapAfterPops (s.pushed key value cost ttl entry shard1).heap
            (s.pushed key value cost ttl entry shard1).policy.threshold
            (s.pushed key value cost ttl entry shard1).timerwheel.clock.nowNano popped
            (s.pushedShard key value cost entry shard1).hashmap,
          deque := rest,
          qlen := (s.pushedShard key value cost entry shard1).qlen
            - dequeCost (s.pushed key value cost ttl entry shard1).heap popped } : Shard K) hshp
    rw [← hshards] at hs2
    refine ⟨_, hs2, ?_, ?_, ?_, ?_, ?_, ?_, htw, hsc⟩
    · unfold Shard.get
      apply mapAfterPops_keep _ _ _ _ _ hfwd
      simp only [Store.pushedShard, f1]
      exact mapGet_mapSet_self _ _ _
    · rw [(hagree entry).1, hheap]; rfl
    · rw [(hval entry hfwd).1, hheap]; rfl
    · rw [(hagree entry).2.2.2, hheap]; rfl
    · rw [(hagree entry).2.1, hheap]; rfl
    · rw [(hagree entry).2.2.1, hheap]; rfl

theorem Set_window_total {K V : Type} [DecidableEq K] [Inhabited V] {E : Env K V}
    (s : Store E) (key : K) (value : V) (cost ttl : Int) (entry : Ptr)
    (shard shard1 : Shard K)
    (hc : s.effectiveCost value cost ≤ toInt s.cap)
    (hsh : s.shards[(s.index key).2]? = some shard)
    (hget : shard.get key = none)
    (hgate : s.gate shard (s.index key).1 = some (true, shard1))
    (hq : s.effectiveCost value cost ≤ (shard.qsize : Int))
    (hinv : shard.qlen = dequeCost s.heap shard.deque)
    (hfresh : entry ∉ shard.deque) :
    ∃ s', s.Set key value cost ttl entry = some (true, s') := by
  obtain ⟨g1, g2, g3, g4, _⟩ := gate_frame s shard shard1 _ _ hgate
  obtain ⟨f1, f2, f3, f4, _, _⟩ := Shard.set_frame E.fl shard1 key entry
  rw [Set_window_eq s key value cost ttl entry shard shard1 hc hsh hget hgate hq]
  have hshp : (s.pushed key value cost ttl entry shard1).shards[(s.index key).2]?
      = some (s.pushedShard key value cost entry shard1) :=
    getElem?_set_self_of _ _ _ _ hsh
  obtain ⟨s2, h2⟩ := processDeque_total (s.pushed key value cost ttl entry shard1)
    (s.index key).2 (s.pushedShard key value cost entry shard1) hshp
    (by
      simp only [Store.pushedShard, Store.pushed, f2, f3, g2, g3, dequeCost_cons,
        Heap.write_self]
      rw [dequeCost_write_notin _ _ _ _ hfresh, hinv]
      simp only [Store.newEntry]
      omega)
  exact ⟨s2, by rw [h2]; rfl⟩

/-! ### The doorkeeper on two consecutive calls -/

theorem bitAt_zero (f : bitvector) (q : Nat) : bitAt (f.map (fun _ => 0)) q = false := by
  unfold bitAt
  rw [List.getD_eq_getElem?_getD, List.getElem?_map]
  cases f[q / 64]? <;> simp

theorem index_fst_lt {K V : Type} {E : Env K V} (s : Store E) (key : K) :
    (s.index key).1 < 2 ^ 64 := by
  unfold Store.index u64
  exact Nat.mod_lt _ (by norm_num)

theorem doorkeeperGate_eq {K : Type} (shard : Shard K) (d : doorkeeper) (h j : Nat)
    (hd : shard.dookeeper = some d) (hm : d.m = 2 ^ j) (hj : j < 32)
    (hlen : d.filter.length = (d.m + 63) / 64) (hh : h < 2 ^ 64) :
    ∃ r d', (if shard.counter > d.capacity then d.reset else d).insert h = some (r, d') ∧
      shard.doorkeeperGate h = some (r,
        { shard with
          dookeeper := some d',
          counter := if r then (if shard.counter > d.capacity then 0 else shard.counter)
            else u64 ((if shard.counter > d.capacity then 0 else shard.counter) + 1) }) ∧
      (r = true ↔ ∀ i, i < d.k →
        bitAt (if shard.counter > d.capacity then d.reset else d).filter (specPos d.m h i)
          = true) ∧
      (∀ i, i < d.k → bitAt d'.filter (specPos d.m h i) = true) ∧
      d'.filter.length = d.filter.length ∧ d'.m = d.m ∧ d'.k = d.k ∧
      d'.capacity = d.capacity := by
  have h0m : (if shard.counter > d.capacity then d.reset else d).m = d.m := by
    split_ifs <;> rfl
  have h0k : (if shard.counter > d.capacity then d.reset else d).k = d.k := by
    split_ifs <;> rfl
  have h0c : (if shard.counter > d.capacity then d.reset else d).capacity = d.capacity := by
    split_ifs <;> rfl
  have h0l : (if shard.counter > d.capacity then d.reset else d).filter.length
      = d.filter.length := by
    split_ifs
    · simp [doorkeeper.reset]
    · rfl
  obtain ⟨r, d', hins, hr, hbits, hl', hm', hk', hc'⟩ :=
    insert_facts (if shard.counter > d.capacity then d.reset else d) h j
      (by rw [h0m]; exact hm) hj (by rw [h0l, h0m]; exact hlen) hh
  rw [h0m, h0k] at hr hbits
  refine ⟨r, d', hins, ?_, hr, ?_, by rw [hl', h0l], by rw [hm', h0m], by rw [hk', h0k],
    by rw [hc', h0c]⟩
  · unfold Shard.doorkeeperGate
    simp only [hd, decide_eq_true_eq]
    rw [hins]
    cases r <;> simp
  · intro i hi
    exact (hbits _).mpr (Or.inr ⟨i, hi, rfl⟩)

theorem i64_of_fits (x : Int) (hlo : -2 ^ 63 ≤ x) (hhi : x < 2 ^ 63) : i64 x = x := by
  unfold i64
  omega

theorem i64_sub_ne_zero (a b : Int) (ha : -2 ^ 63 ≤ a ∧ a < 2 ^ 63)
    (hb : -2 ^ 63 ≤ b ∧ b < 2 ^ 63) (hne : a ≠ b) : i64 (a - b) ≠ 0 := by
  unfold i64
  omega

theorem toInt_lt (n : Nat) : toInt n < 2 ^ 63 := by
  unfold toInt
  omega

theorem toInt_le (n : Nat) : toInt n ≤ (n : Int) := by
  unfold toInt
  omega

theorem toInt_of_lt (n : Nat) (h : n < 2 ^ 63) : toInt n = (n : Int) := by
  unfold toInt
  omega

theorem expireOf_fits {K V : Type} {E : Env K V} (s : Store E) (ttl : Int) (h0 : ttl ≠ 0)
    (hlo : -2 ^ 63 ≤ s.timerwheel.clock.nowNano + ttl)
    (hhi : s.timerwheel.clock.nowNano + ttl < 2 ^ 63) :
    s.expireOf ttl = s.timerwheel.clock.nowNano + ttl := by
  unfold Store.expireOf Clock.expireNano
  rw [if_pos h0]
  exact i64_of_fits _ hlo hhi

theorem expireOf_zero {K V : Type} {E : Env K V} (s : Store E) : s.expireOf 0 = 0 := by
  unfold Store.expireOf
  rw [if_neg (by simp)]

theorem expireOf_live {K V : Type} {E : Env K V} (s : Store E) (ttl : Int) (h : 0 ≤ ttl)
    (hlo : -2 ^ 63 ≤ s.timerwheel.clock.nowNano)
    (hhi : s.timerwheel.clock.nowNano + ttl < 2 ^ 63) :
    ¬ (s.expireOf ttl ≠ 0 ∧ s.expireOf ttl ≤ s.timerwheel.clock.nowNano) := by
  by_cases h0 : ttl = 0
  · subst h0
    rw [expireOf_zero]
    intro hc; exact hc.1 rfl
  · rw [expireOf_fits s ttl h0 (by omega) hhi]
    intro hc; omega

theorem Set_new_ok {K V : Type} [DecidableEq K] [Inhabited V] {E : Env K V}
    (s : Store E) (key : K) (value : V) (cost ttl : Int) (entry : Ptr)
    (shard shard1 : Shard K)
    (hc : s.effectiveCost value cost ≤ toInt s.cap)
    (hsh : s.shards[(s.index key).2]? = some shard)
    (hget : shard.get key = none)
    (hgate : s.gate shard (s.index key).1 = some (true, shard1))
    (hlive : ¬ (s.expireOf ttl ≠ 0 ∧ s.expireOf ttl ≤ s.timerwheel.clock.nowNano))
    (hinv : shard.qlen = dequeCost s.heap shard.deque)
    (hfresh : entry ∉ shard.deque) :
    ∃ s' shard', s.Set key value cost ttl entry = some (true, s') ∧
      s'.shards[(s.index key).2]? = some shard' ∧ shard'.get key = some entry ∧
      (s'.heap entry).value = value ∧ (s'.heap entry).expire = s.expireOf ttl ∧
      s'.timerwheel = s.timerwheel ∧ s'.shardCount = s.shardCount := by
  by_cases hq : (shard.qsize : Int) < s.effectiveCost value cost
  · obtain ⟨s', shard', h1, h2, h3, _, _, _, h7, _, h9, _, _, _, _, _⟩ :=
      Set_bypass_facts s key value cost ttl entry shard shard1 hc hsh hget hgate hq
    have hs' := Set_bypass s key value cost ttl entry shard shard1 (not_lt.mpr hc) hsh hget hgate
      (by
        obtain ⟨_, _, _, g4, _⟩ := gate_frame s shard shard1 _ _ hgate
        obtain ⟨_, _, _, f4, _, _⟩ := Shard.set_frame E.fl shard1 key entry
        rw [f4, g4]; exact hq)
    rw [hs'] at h1
    injection h1 with h1
    injection h1 with _ h1
    subst h1
    exact ⟨_, shard', hs', h2, h3, h7, h9, rfl, rfl⟩
  · obtain ⟨s', hs'⟩ := Set_window_total s key value cost ttl entry shard shard1 hc hsh hget
      hgate (not_lt.mp hq) hinv hfresh
    obtain ⟨_, shard', h2, h3, _, h5, _, h7, _, h9, h10⟩ :=
      Set_window_facts s s' key value cost ttl entry shard shard1 true hc hsh hget hgate
        (not_lt.mp hq) hlive hs'
    exact ⟨s', shard', hs', h2, h3, h5, h7, h9, h10⟩

theorem Set_new_gate {K V : Type} [DecidableEq K] [Inhabited V] {E : Env K V}
    (s s' : Store E) (key : K) (value : V) (cost ttl : Int) (entry : Ptr)
    (shard : Shard K)
    (hsh : s.shards[(s.index key).2]? = some shard)
    (hget : shard.get key = none)
    (hres : s.Set key value cost ttl entry = some (true, s')) :
    s.effectiveCost value cost ≤ toInt s.cap ∧
      ∃ shard1, s.gate shard (s.index key).1 = some (true, shard1) := by
  by_cases hc : s.effectiveCost value cost > toInt s.cap
  · rw [Set_over s key value cost ttl entry hc] at hres
    injection hres with hres
    injection hres with hres _
    exact Bool.noConfusion hres
  · refine ⟨not_lt.mp hc, ?_⟩
    cases hg : s.gate shard (s.index key).1 with
    | none =>
      exfalso
      unfold Store.effectiveCost at hc
      unfold Store.gate at hg
      unfold Store.Set at hres
      simp only [if_neg hc, hsh, hget, hg] at hres
      exact Option.noConfusion hres
    | some r =>
      obtain ⟨b, shard1⟩ := r
      cases b with
      | true => exact ⟨shard1, rfl⟩
      | false =>
        rw [Set_rejected s key value cost ttl entry shard shard1 hc hsh hget hg] at hres
        injection hres with hres
        injection hres with hres _
        exact Bool.noConfusion hres

/-! ### A second `Set` behind a doorkeeper whose counter is at the capacity -/

theorem Set_twice_counter_full {K V : Type} [DecidableEq K] [Inhabited V] {E : Env K V}
    (s : Store E) (key : K) (value : V) (cost ttl : Int) (entry : Ptr)
    (shard shard1 : Shard K) (d : doorkeeper) (j : Nat)
    (hdk : s.doorkeeper = true)
    (hc : s.effectiveCost value cost ≤ toInt s.cap)
    (hsh : s.shards[(s.index key).2]? = some shard)
    (hget : shard.get key = none)
    (hd : shard.dookeeper = some d) (hm : d.m = 2 ^ j) (hj : j < 32)
    (hlen : d.filter.length = (d.m + 63) / 64) (hk : 0 < d.k)
    (hfirst : shard.doorkeeperGate (s.index key).1 = some (false, shard1))
    (hcnt : shard.counter = d.capacity) (hcap : d.capacity + 1 < 2 ^ 64) :
    ∃ s1 s2, s.Set key value cost ttl entry = some (false, s1) ∧
      s1.Set key value cost ttl entry = some (false, s2) := by
  have hgate1 : s.gate shard (s.index key).1 = some (false, shard1) := by
    unfold Store.gate; rw [if_pos hdk]; exact hfirst
  obtain ⟨g1, g2, g3, _, _⟩ := doorkeeperGate_frame shard shard1 _ _ hfirst
  have hset1 := Set_rejected s key value cost ttl entry shard shard1 (not_lt.mpr hc) hsh hget hgate1
  obtain ⟨r, d1, _, hgeq, _, _, hl1, hm1, hk1, hc1⟩ :=
    doorkeeperGate_eq shard d (s.index key).1 j hd hm hj hlen (index_fst_lt s key)
  rw [hfirst] at hgeq
  injection hgeq with hgeq
  injection hgeq with hr hsh1
  subst hr
  have hd1 : shard1.dookeeper = some d1 := by rw [hsh1]
  have hcnt1 : shard1.counter > d1.capacity := by
    rw [hsh1, hc1]
    simp only [Bool.false_eq_true, if_false]
    have hng : ¬ shard.counter > d.capacity := by omega
    rw [if_neg hng, hcnt]
    unfold u64
    rw [Nat.mod_eq_of_lt hcap]
    omega
  obtain ⟨r2, d2, _, hgeq2, hr2, _⟩ :=
    doorkeeperGate_eq shard1 d1 (s.index key).1 j hd1 (by rw [hm1]; exact hm) hj
      (by rw [hl1, hm1]; exact hlen) (index_fst_lt s key)
  rw [if_pos hcnt1] at hr2
  have hr2f : r2 = false := by
    cases r2 with
    | false => rfl
    | true =>
      have := hr2.mp rfl 0 (by rw [hk1]; exact hk)
      rw [doorkeeper.reset, bitAt_zero] at this
      exact Bool.noConfusion this
  subst hr2f
  have hidx : ∀ s' : Store E, s'.shardCount = s.shardCount → s'.index key = s.index key :=
    fun s' h => index_congr s s' key h
  have hsh' : ({ s with shards := s.shards.set (s.index key).2 shard1 } : Store E).shards[
      (({ s with shards := s.shards.set (s.index key).2 shard1 } : Store E).index key).2]?
      = some shard1 := by
    rw [hidx _ rfl]; exact getElem?_set_self_of _ _ _ _ hsh
  have h2 := Set_rejected ({ s with shards := s.shards.set (s.index key).2 shard1 } : Store E)
    key value cost ttl entry shard1 _ (not_lt.mpr hc) hsh'
    (by unfold Shard.get at hget ⊢; rw [g1]; exact hget)
    (by
      unfold Store.gate
      rw [hidx _ rfl]
      simp only [hdk, if_true]
      exact hgeq2)
  exact ⟨_, _, hset1, h2⟩

theorem Set_new_result {K V : Type} [DecidableEq K] [Inhabited V] {E : Env K V}
    (s s' : Store E) (key : K) (value : V) (cost ttl : Int) (entry : Ptr)
    (shard : Shard K)
    (hsh : s.shards[(s.index key).2]? = some shard)
    (hget : shard.get key = none)
    (hlive : ¬ (s.expireOf ttl ≠ 0 ∧ s.expireOf ttl ≤ s.timerwheel.clock.nowNano))
    (hres : s.Set key value cost ttl entry = some (true, s')) :
    ∃ shard', s'.shards[(s.index key).2]? = some shard' ∧ shard'.get key = some entry ∧
      (s'.heap entry).value = value ∧ (s'.heap entry).expire = s.expireOf ttl ∧
      s'.timerwheel = s.timerwheel ∧ s'.shardCount = s.shardCount := by
  obtain ⟨hc, shard1, hgate⟩ := Set_new_gate s s' key value cost ttl entry shard hsh hget hres
  by_cases hq : (shard.qsize : Int) < s.effectiveCost value cost
  · obtain ⟨s'', shard', h1, h2, h3, _, _, _, h7, _, h9, _, _, _, _, _⟩ :=
      Set_bypass_facts s key value cost ttl entry shard shard1 hc hsh hget hgate hq
    have hs' := Set_bypass s key value cost ttl entry shard shard1 (not_lt.mpr hc) hsh hget hgate
      (by
        obtain ⟨_, _, _, g4, _⟩ := gate_frame s shard shard1 _ _ hgate
        obtain ⟨_, _, _, f4, _, _⟩ := Shard.set_frame E.fl shard1 key entry
        rw [f4, g4]; exact hq)
    rw [hs'] at h1 hres
    injection h1 with h1
    injection h1 with _ h1
    injection hres with hres
    injection hres with _ hres
    subst h1
    subst hres
    exact ⟨shard', h2, h3, h7, h9, rfl, rfl⟩
  · obtain ⟨_, shard', h2, h3, _, h5, _, h7, _, h9, h10⟩ :=
      Set_window_facts s s' key value cost ttl entry shard shard1 true hc hsh hget hgate
        (not_lt.mp hq) hlive hres
    exact ⟨shard', h2, h3, h5, h7, h9, h10⟩

theorem Get_hit_of {K V : Type} [DecidableEq K] [Inhabited V] {E : Env K V}
    (s s' : Store E) (key : K) (shard' : Shard K) (p : Ptr)
    (hsc : s'.shardCount = s.shardCount)
    (hsh : s'.shards[(s.index key).2]? = some shard')
    (hget : shard'.get key = some p)
    (hlive : ¬ ((s'.heap p).expire ≠ 0 ∧ (s'.heap p).expire ≤ s'.timerwheel.clock.nowNano)) :
    (s'.Get key).map (fun r => r.1) = some ((s'.heap p).value, true) := by
  have hidx := index_congr s s' key hsc
  rw [Get_of_shard s' key shard' (by rw [hidx]; exact hsh), Option.map_some',
    getFromShard_hit s' key _ shard' p hget hlive]

/-! ### Runs of doorkeeper operations -/

theorem insertAll_keeps (h j : Nat) (hj : j < 32) :
    ∀ (hs : List Nat) (d : doorkeeper), (∀ x ∈ hs, x < 2 ^ 64) →
      d.m = 2 ^ j → d.filter.length = (d.m + 63) / 64 →
      (∀ i, i < d.k → bitAt d.filter (specPos d.m h i) = true) →
      ∃ d', d.insertAll hs = some d' ∧ d'.m = d.m ∧ d'.k = d.k ∧
        d'.filter.length = (d'.m + 63) / 64 ∧
        ∀ i, i < d'.k → bitAt d'.filter (specPos d'.m h i) = true := by
  intro hs
  induction hs with
  | nil => intro d _ _ hlen hb; exact ⟨d, rfl, rfl, rfl, hlen, hb⟩
  | cons x hs ih =>
    intro d hx hm hlen hb
    obtain ⟨r, d1, hins, _, hbits, hl1, hm1, hk1, _⟩ :=
      insert_facts d x j hm hj hlen (hx x (List.mem_cons_self _ _))
    obtain ⟨d', hrun, hm', hk', hl', hb'⟩ := ih d1
      (fun y hy => hx y (List.mem_cons_of_mem _ hy)) (hm1.trans hm) (by rw [hl1, hlen, hm1])
      (fun i hi => (hbits _).2 (Or.inl (by rw [hm1]; exact hb i (hk1 ▸ hi))))
    refine ⟨d', ?_, hm'.trans hm1, hk'.trans hk1, hl', hb'⟩
    simp only [doorkeeper.insertAll, hins]
    exact hrun

theorem insert_then_insertAll (d : doorkeeper) (h j : Nat) (hs : List Nat)
    (hm : d.m = 2 ^ j) (hj : j < 32) (hlen : d.filter.length = (d.m + 63) / 64)
    (hh : h < 2 ^ 64) (hhs : ∀ x ∈ hs, x < 2 ^ 64) :
    ∃ r d1 d2 d3, d.insert h = some (r, d1) ∧ d1.insertAll hs = some d2 ∧
      d2.insert h = some (true, d3) := by
  obtain ⟨r, d1, hins, _, hbits, hl1, hm1, hk1, _⟩ := insert_facts d h j hm hj hlen hh
  obtain ⟨d2, hrun, hm2, hk2, hl2, hb2⟩ := insertAll_keeps h j hj hs d1 hhs (hm1.trans hm)
    (by rw [hl1, hlen, hm1])
    (fun i hi => (hbits _).2 (Or.inr ⟨i, hk1 ▸ hi, by rw [hm1]⟩))
  obtain ⟨r3, d3, hins3, hr3, _⟩ :=
    insert_facts d2 h j (hm2.trans (hm1.trans hm)) hj hl2 hh
  have : r3 = true := hr3.2 hb2
  subst this
  exact ⟨r, d1, d2, d3, hins, hrun, hins3⟩

/-! ### `nextPowerOfTwo` and the shape of the filter -/

theorem smear_step (n a k : Nat)
    (h : ∀ i, a.testBit i = true ↔ ∃ d, d < k ∧ n.testBit (i + d) = true) :
    ∀ i, (a ||| a >>> k).testBit i = true ↔ ∃ d, d < 2 * k ∧ n.testBit (i + d) = true := by
  intro i
  rw [Nat.testBit_or, Nat.testBit_shiftRight, Bool.or_eq_true, h, h]
  constructor
  · rintro (⟨d, hd, hb⟩ | ⟨d, hd, hb⟩)
    · exact ⟨d, by omega, hb⟩
    · exact ⟨k + d, by omega, by rw [← hb]; congr 1; omega⟩
  · rintro ⟨d, hd, hb⟩
    by_cases hdk : d < k
    · exact Or.inl ⟨d, hdk, hb⟩
    · exact Or.inr ⟨d - k, by omega, by rw [← hb]; congr 1; omega⟩

theorem smear_bits (n : Nat) :
    ∀ i, (let n1 := n ||| (n >>> 1)
          let n2 := n1 ||| (n1 >>> 2)
          let n3 := n2 ||| (n2 >>> 4)
          let n4 := n3 ||| (n3 >>> 8)
          n4 ||| (n4 >>> 16)).testBit i = true ↔ ∃ d, d < 32 ∧ n.testBit (i + d) = true := by
  have h0 : ∀ i, n.testBit i = true ↔ ∃ d, d < 1 ∧ n.testBit (i + d) = true := by
    intro i
    constructor
    · intro h; exact ⟨0, by omega, h⟩
    · rintro ⟨d, hd, hb⟩
      have : d = 0 := by omega
      subst this; exact hb
  have h1 := smear_step n _ 1 h0
  have h2 := smear_step n _ 2 h1
  have h3 := smear_step n _ 4 h2
  have h4 := smear_step n _ 8 h3
  exact smear_step n _ 16 h4

theorem smear_eq (n t : Nat) (ht : t < 32) (hbit : n.testBit t = true)
    (htop : ∀ j, t < j → n.testBit j = false) :
    (let n1 := n ||| (n >>> 1)
     let n2 := n1 ||| (n1 >>> 2)
     let n3 := n2 ||| (n2 >>> 4)
     let n4 := n3 ||| (n3 >>> 8)
     n4 ||| (n4 >>> 16)) = 2 ^ (t + 1) - 1 := by
  apply Nat.eq_of_testBit_eq
  intro i
  rw [Nat.testBit_two_pow_sub_one]
  by_cases hi : i < t + 1
  · rw [decide_eq_true hi]
    exact (smear_bits n i).2 ⟨t - i, by omega, by rw [← hbit]; congr 1; omega⟩
  · rw [decide_eq_false hi]
    rw [Bool.eq_false_iff]
    intro hc
    obtain ⟨d, _, hb⟩ := (smear_bits n i).1 hc
    rw [htop (i + d) (by omega)] at hb
    exact Bool.noConfusion hb

theorem nextPowerOfTwo_shape (x : Nat) :
    nextPowerOfTwo x = 0 ∨ ∃ j, j < 32 ∧ nextPowerOfTwo x = 2 ^ j := by
  unfold nextPowerOfTwo
  by_cases hn : u32 (x + 2 ^ 32 - 1) = 0
  · right
    refine ⟨0, by omega, ?_⟩
    simp only [hn]
    decide
  · obtain ⟨t, hbit, htop⟩ := Nat.exists_most_significant_bit hn
    have hlt : u32 (x + 2 ^ 32 - 1) < 2 ^ 32 := Nat.mod_lt _ (by norm_num)
    have ht : t < 32 := by
      by_contra hge
      have h2 : 2 ^ 32 ≤ 2 ^ t := Nat.pow_le_pow_right (by norm_num) (by omega)
      have := Nat.testBit_lt_two_pow (lt_of_lt_of_le hlt h2)
      rw [this] at hbit
      exact Bool.noConfusion hbit
    have hs := smear_eq _ t ht hbit htop
    simp only at hs ⊢
    rw [hs]
    have hpos : 0 < 2 ^ (t + 1) := Nat.two_pow_pos _
    rw [Nat.sub_add_cancel hpos]
    by_cases h31 : t = 31
    · left; subst h31; decide
    · right
      refine ⟨t + 1, by omega, ?_⟩
      unfold u32
      exact Nat.mod_eq_of_lt (Nat.pow_lt_pow_right (by norm_num) (by omega))

theorem newbv_length (j : Nat) (h10 : 10 ≤ j) (hj : j < 32) :
    (newbv (2 ^ j)).length * 64 = 2 ^ j := by
  unfold newbv u32
  rw [List.length_replicate]
  have hlt : 2 ^ j ≤ 2 ^ 31 := Nat.pow_le_pow_right (by norm_num) (by omega)
  have hdvd : 2 ^ 6 ∣ 2 ^ j := Nat.pow_dvd_pow 2 (by omega)
  obtain ⟨c, hc⟩ := hdvd
  rw [Nat.mod_eq_of_lt (by norm_num at hlt ⊢; omega)]
  norm_num at hc
  omega

theorem ensureCapacity_grow_shaped (fl : FloatOps) (d : doorkeeper) (c : Nat)
    (hc : ¬ c ≤ d.capacity) : (d.ensureCapacity fl c).Shaped := by
  unfold doorkeeper.ensureCapacity
  rw [if_neg hc]
  simp only
  generalize hb : nextPowerOfTwo (u32 (fl.bloomBits d.falsePositiveRate
    (nextPowerOfTwo (u32 c)))) = m0
  have hm : ∃ j, 10 ≤ j ∧ j < 32 ∧ (if m0 < 1024 then 1024 else m0) = 2 ^ j := by
    rcases nextPowerOfTwo_shape (u32 (fl.bloomBits d.falsePositiveRate
      (nextPowerOfTwo (u32 c)))) with h0 | ⟨j, hj, hpow⟩
    · rw [hb] at h0
      exact ⟨10, le_refl _, by omega, by rw [h0]; rfl⟩
    · rw [hb] at hpow
      by_cases hlt : m0 < 1024
      · exact ⟨10, le_refl _, by omega, by rw [if_pos hlt]; rfl⟩
      · refine ⟨j, ?_, hj, by rw [if_neg hlt]; exact hpow⟩
        by_contra hj10
        have : 2 ^ j < 2 ^ 10 := Nat.pow_lt_pow_right (by norm_num) (by omega)
        omega
  obtain ⟨j, h10, hj, hmj⟩ := hm
  refine ⟨⟨j, h10, hj, hmj⟩, ?_, ?_⟩
  · show 2 ≤ (if _ < 2 then 2 else _)
    split_ifs <;> omega
  · show (newbv _).length * 64 = _
    rw [hmj]
    exact newbv_length j h10 hj

theorem ensureCapacity_shaped (fl : FloatOps) (d : doorkeeper) (c : Nat) (hd : d.Shaped) :
    (d.ensureCapacity fl c).Shaped := by
  by_cases hc : c ≤ d.capacity
  · unfold doorkeeper.ensureCapacity
    rw [if_pos hc]; exact hd
  · exact ensureCapacity_grow_shaped fl d c hc

theorem probe_lt (j h1 h2 i : Nat) (hj : j < 32) :
    doorkeeper.probe (2 ^ j) h1 h2 i < 2 ^ j := by
  have hlt : 2 ^ j < 2 ^ 32 := Nat.pow_lt_pow_right (by norm_num) hj
  have hpos : 0 < 2 ^ j := Nat.two_pow_pos j
  have hmask : u32 (2 ^ j + 2 ^ 32 - 1) = 2 ^ j - 1 := by
    unfold u32
    have : 2 ^ j + 2 ^ 32 - 1 = (2 ^ j - 1) + 2 ^ 32 := by omega
    rw [this, Nat.add_mod_right]
    exact Nat.mod_eq_of_lt (by omega)
  unfold doorkeeper.probe
  rw [hmask]
  have := @Nat.and_le_right (u32 (h1 + u32 (i * h2))) (2 ^ j - 1)
  omega

theorem insert_shaped (d : doorkeeper) (h : Nat) (hd : d.Shaped) :
    ∃ r d', d.insert h = some (r, d') ∧ d'.Shaped := by
  obtain ⟨⟨j, h10, hj, hm⟩, hk, hlen⟩ := hd
  have hin : ∀ i, doorkeeper.probe d.m (u32 h) (u32 (h >>> 32)) i / 64 < d.filter.length := by
    intro i
    have := probe_lt j (u32 h) (u32 (h >>> 32)) i hj
    rw [← hm] at this
    omega
  obtain ⟨o', f', hrun, hlen', _, _, _⟩ :=
    insertLoop_spec d.m (u32 h) (u32 (h >>> 32)) _ hin d.k 0 1 d.filter rfl (le_refl 1)
  refine ⟨decide (o' = 1), { d with filter := f' }, ?_, ⟨j, h10, hj, hm⟩, hk, ?_⟩
  · simp only [doorkeeper.insert, hrun]
  · show f'.length * 64 = d.m
    rw [hlen', hlen]

theorem reset_shaped (d : doorkeeper) (hd : d.Shaped) : d.reset.Shaped := by
  obtain ⟨hm, hk, hlen⟩ := hd
  refine ⟨hm, hk, ?_⟩
  show (d.filter.map _).length * 64 = d.m
  rw [List.length_map, hlen]

theorem run_shaped (fl : FloatOps) :
    ∀ (ops : List DoorkeeperOp) (d : doorkeeper), d.Shaped →
      ∃ d', d.run fl ops = some d' ∧ d'.Shaped := by
  intro ops
  induction ops with
  | nil => intro d hd; exact ⟨d, rfl, hd⟩
  | cons op ops ih =>
    intro d hd
    cases op with
    | ensureCapacity c =>
      obtain ⟨d', h1, h2⟩ := ih _ (ensureCapacity_shaped fl d c hd)
      exact ⟨d', h1, h2⟩
    | insert h =>
      obtain ⟨r, d1, hins, hd1⟩ := insert_shaped d h hd
      obtain ⟨d', h1, h2⟩ := ih _ hd1
      refine ⟨d', ?_, h2⟩
      simp only [doorkeeper.run, hins]
      exact h1
    | reset =>
      obtain ⟨d', h1, h2⟩ := ih _ (reset_shaped d hd)
      exact ⟨d', h1, h2⟩

theorem newDoorkeeper_shaped (fl : FloatOps) (rate : ℚ) : (newDoorkeeper fl rate).Shaped :=
  ensureCapacity_grow_shaped fl _ 320 (by simp)

/-! ### Exit of the window loop -/

theorem loop_exit {K V : Type} [DecidableEq K] [Inhabited V] (grow : Nat → Nat)
    (threshold now : Int) (st : DequeRun K V)
    (hinv : st.shard.qlen = dequeCost st.heap st.shard.deque) :
    ∃ st' n, processDequeLoop grow threshold now st.shard.deque.reverse st = some st' ∧
      n ≤ st.shard.deque.length ∧
      st'.shard.qlen = st.shard.qlen - dequeCost st.heap (st.shard.deque.reverse.take n) ∧
      st'.shard.qsize = st.shard.qsize ∧
      st'.shard.qlen ≤ (st'.shard.qsize : Int) ∧
      ∀ j, j < n →
        st.shard.qlen - dequeCost st.heap (st.shard.deque.reverse.take j)
          > (st.shard.qsize : Int) := by
  obtain ⟨st', hrun⟩ := loop_total grow threshold now st.shard.deque.reverse st
    (by rw [dequeCost_reverse]; exact hinv)
  obtain ⟨n, hn, _, hshard, hle, hpops, _⟩ :=
    loop_spec grow threshold now st.shard.deque.reverse st st' hrun
  refine ⟨st', n, hrun, by simpa using hn, ?_, ?_, ?_, hpops⟩
  · rw [hshard]
  · rw [hshard]
  · rw [hshard] at hle ⊢; exact hle

theorem processDeque_exit {K V : Type} [DecidableEq K] [Inhabited V] {E : Env K V}
    (s : Store E) (index : Nat) (shard : Shard K)
    (hsh : s.shards[index]? = some shard)
    (hinv : shard.qlen = dequeCost s.heap shard.deque) :
    ∃ s' popped shard', s.processDeque index = some s' ∧
      s'.shards[index]? = some shard' ∧
      shard.deque = shard'.deque ++ popped.reverse ∧
      shard'.qlen = shard.qlen - dequeCost s.heap popped ∧
      shard'.qsize = shard.qsize ∧
      shard'.qlen ≤ (shard'.qsize : Int) ∧
      ∀ j, j < popped.length →
        shard.qlen - dequeCost s.heap (popped.take j) > (shard.qsize : Int) := by
  obtain ⟨s', h⟩ := processDeque_total s index shard hsh hinv
  obtain ⟨popped, rest, hdq, hshards, hle, hpops, _⟩ :=
    processDeque_spec s s' index shard hsh h
  have hs' := getElem?_set_self_of s.shards index shard
    ({ shard with
        hashmap := mapAfterPops s.heap s.policy.threshold s.timerwheel.clock.nowNano popped
          shard.hashmap,
        deque := rest, qlen := shard.qlen - dequeCost s.heap popped } : Shard K) hsh
  rw [← hshards] at hs'
  exact ⟨s', popped, _, h, hs', hdq, rfl, rfl, hle, hpops⟩

/-! ### The climber -/

theorem i8_small (x : Int) (hlo : -128 ≤ x) (hhi : x ≤ 127) : i8 x = x := by
  unfold i8; omega

theorem u8_small (x : Int) (hlo : 0 ≤ x) (hhi : x ≤ 255) : (u8 x : Int) = x := by
  unfold u8; omega

theorem clamp_bounds (x lo hi : Int) (h : lo ≤ hi) :
    lo ≤ clamp x lo hi ∧ clamp x lo hi ≤ hi := by
  unfold clamp; split_ifs <;> omega

theorem i8_step (s : Int) (hlo : -13 ≤ s) (hhi : s ≤ 13) :
    (if s < 0 then i8 (s - 1) else i8 (s + 1)) = (if s < 0 then s - 1 else s + 1) := by
  rw [i8_small (s - 1) (by omega) (by omega), i8_small (s + 1) (by omega) (by omega)]

theorem factor_exact (f : Nat) (s : Int) (hf : f ≤ 16) (hlo : -13 ≤ s) (hhi : s ≤ 13) :
    (if i8 (i8 f + s) < 0 then 0 else if i8 (i8 f + s) > 16 then 16 else i8 (i8 f + s))
      = clamp (f + s) 0 16 := by
  rw [i8_small (f : Int) (by omega) (by omega), i8_small (f + s) (by omega) (by omega)]
  rfl

theorem climb_fields {K V : Type} {E : Env K V} (t : TinyLfu E) :
    t.climb.hit = 0 ∧ t.climb.total = 0 ∧ t.climb.hr = E.f32div t.hit t.total ∧
    t.climb.slru = t.slru ∧ t.climb.sketch = t.sketch ∧ t.climb.size = t.size ∧
    t.climb.counter = t.counter :=
  ⟨rfl, rfl, rfl, rfl, rfl, rfl, rfl⟩

theorem climb_factor_of_step (thr : Int) (f : Nat) (s : Int) (hf : f ≤ 16) :
    (u8 (clamp (f + s) 0 16) : Int) = clamp (f + s) 0 16 ∧
    i32 (thr + i32 (-i8 (clamp (f + s) 0 16 - i8 f)))
      = i32 (thr - ((u8 (clamp (f + s) 0 16) : Int) - f)) := by
  have hb := clamp_bounds (f + s) 0 16 (by omega)
  have h1 := u8_small (clamp (f + s) 0 16) hb.1 (by omega)
  rw [h1, i8_small (f : Int) (by omega) (by omega),
    i8_small (clamp (f + s) 0 16 - f) (by omega) (by omega)]
  refine ⟨rfl, ?_⟩
  unfold i32; omega

theorem climb_pos {K V : Type} {E : Env K V} (t : TinyLfu E)
    (hlo : -13 ≤ t.step) (hhi : t.step ≤ 13) (hf : t.lruFactor ≤ 16)
    (hd : E.f32pos t.delta = true) :
    t.climb.step = clamp (if t.step < 0 then t.step - 1 else t.step + 1) (-13) 13 ∧
    (t.climb.lruFactor : Int) = clamp (t.lruFactor + t.climb.step) 0 16 ∧
    t.climb.threshold = i32 (t.threshold - ((t.climb.lruFactor : Int) - t.lruFactor)) := by
  unfold TinyLfu.delta at hd
  have hb := clamp_bounds (if t.step < 0 then t.step - 1 else t.step + 1) (-13) 13 (by omega)
  have hstep : t.climb.step
      = clamp (if t.step < 0 then t.step - 1 else t.step + 1) (-13) 13 := by
    simp only [TinyLfu.climb, hd, ↓reduceIte, i8_step _ hlo hhi]
    rfl
  have hfac : t.climb.lruFactor = u8 (clamp (t.lruFactor + t.climb.step) 0 16) := by
    rw [hstep]
    simp only [TinyLfu.climb, hd, ↓reduceIte, i8_step _ hlo hhi]
    exact congrArg u8 (factor_exact t.lruFactor _ hf hb.1 hb.2)
  have hthr : t.climb.threshold
      = i32 (t.threshold + i32 (-i8 (clamp (t.lruFactor + t.climb.step) 0 16
          - i8 t.lruFactor))) := by
    rw [hstep]
    simp only [TinyLfu.climb, hd, ↓reduceIte, i8_step _ hlo hhi]
    rw [← factor_exact t.lruFactor _ hf hb.1 hb.2]
    rfl
  have hk := climb_factor_of_step t.threshold t.lruFactor t.climb.step hf
  refine ⟨hstep, ?_, ?_⟩
  · rw [hfac]; exact hk.1
  · rw [hthr, hk.2, ← hfac]

theorem climb_neg {K V : Type} {E : Env K V} (t : TinyLfu E)
    (hf : t.lruFactor ≤ 16)
    (hd : E.f32pos t.delta = false) (hn : E.f32neg t.delta = true) :
    t.climb.step = (if t.step > 0 then -1 else 1) ∧
    (t.climb.lruFactor : Int) = clamp (t.lruFactor + t.climb.step) 0 16 ∧
    t.climb.threshold = i32 (t.threshold - ((t.climb.lruFactor : Int) - t.lruFactor)) := by
  unfold TinyLfu.delta at hd hn
  have hb : -13 ≤ (if t.step > 0 then (-1 : Int) else 1) ∧
      (if t.step > 0 then (-1 : Int) else 1) ≤ 13 := by split_ifs <;> omega
  have hstep : t.climb.step = (if t.step > 0 then -1 else 1) := by
    simp only [TinyLfu.climb, hd, hn, ↓reduceIte, Bool.false_eq_true]
  have hfac : t.climb.lruFactor = u8 (clamp (t.lruFactor + t.climb.step) 0 16) := by
    rw [hstep]
    simp only [TinyLfu.climb, hd, hn, ↓reduceIte, Bool.false_eq_true]
    exact congrArg u8 (factor_exact t.lruFactor _ hf hb.1 hb.2)
  have hthr : t.climb.threshold
      = i32 (t.threshold + i32 (-i8 (clamp (t.lruFactor + t.climb.step) 0 16
          - i8 t.lruFactor))) := by
    rw [hstep]
    simp only [TinyLfu.climb, hd, hn, ↓reduceIte, Bool.false_eq_true]
    rw [← factor_exact t.lruFactor _ hf hb.1 hb.2]
  have hk := climb_factor_of_step t.threshold t.lruFactor t.climb.step hf
  refine ⟨hstep, ?_, ?_⟩
  · rw [hfac]; exact hk.1
  · rw [hthr, hk.2, ← hfac]

theorem climb_zero {K V : Type} {E : Env K V} (t : TinyLfu E)
    (hd : E.f32pos t.delta = false) (hn : E.f32neg t.delta = false) :
    t.climb.step = t.step ∧ t.climb.lruFactor = t.lruFactor ∧
    t.climb.threshold = i32 t.threshold := by
  unfold TinyLfu.delta at hd hn
  simp only [TinyLfu.climb, hd, hn, ↓reduceIte, Bool.false_eq_true]
  refine ⟨trivial, trivial, ?_⟩
  unfold i32; omega

theorem climb_threshold {K V : Type} {E : Env K V} (t : TinyLfu E)
    (hlo : -13 ≤ t.step) (hhi : t.step ≤ 13) (hf : t.lruFactor ≤ 16) :
    t.climb.lruFactor ≤ 16 ∧
    t.climb.threshold = i32 (t.threshold - ((t.climb.lruFactor : Int) - t.lruFactor)) := by
  cases hd : E.f32pos t.delta
  · cases hn : E.f32neg t.delta
    · obtain ⟨_, h2, h3⟩ := climb_zero t hd hn
      rw [h2, h3]
      exact ⟨hf, by simp⟩
    · obtain ⟨_, h2, h3⟩ := climb_neg t hf hd hn
      have := clamp_bounds (t.lruFactor + t.climb.step) 0 16 (by omega)
      exact ⟨by omega, h3⟩
  · obtain ⟨_, h2, h3⟩ := climb_pos t hlo hhi hf hd
    have := clamp_bounds (t.lruFactor + t.climb.step) 0 16 (by omega)
    exact ⟨by omega, h3⟩

theorem climb_inv {K V : Type} {E : Env K V} (t : TinyLfu E)
    (hlo : -13 ≤ t.step) (hhi : t.step ≤ 13) (h0 : t.step ≠ 0) (hf : t.lruFactor ≤ 16) :
    -13 ≤ t.climb.step ∧ t.climb.step ≤ 13 ∧ t.climb.step ≠ 0 ∧ t.climb.lruFactor ≤ 16 := by
  have hfac := (climb_threshold t hlo hhi hf).1
  cases hd : E.f32pos t.delta
  · cases hn : E.f32neg t.delta
    · obtain ⟨h1, _, _⟩ := climb_zero t hd hn
      rw [h1]; exact ⟨hlo, hhi, h0, hfac⟩
    · obtain ⟨h1, _, _⟩ := climb_neg t hf hd hn
      rw [h1]
      refine ⟨?_, ?_, ?_, hfac⟩ <;> split_ifs <;> omega
  · obtain ⟨h1, _, _⟩ := climb_pos t hlo hhi hf hd
    rw [h1]
    unfold clamp
    refine ⟨?_, ?_, ?_, hfac⟩ <;> split_ifs <;> omega

theorem climbs_inv {K V : Type} {E : Env K V} :
    ∀ (inputs : List (Nat × Nat)) (t : TinyLfu E),
      -13 ≤ t.step → t.step ≤ 13 → t.step ≠ 0 → t.lruFactor ≤ 16 →
      -13 ≤ (t.climbs inputs).step ∧ (t.climbs inputs).step ≤ 13 ∧
        (t.climbs inputs).step ≠ 0 ∧ (t.climbs inputs).lruFactor ≤ 16 := by
  intro inputs
  induction inputs with
  | nil => intro t hlo hhi h0 hf; exact ⟨hlo, hhi, h0, hf⟩
  | cons x rest ih =>
    intro t hlo hhi h0 hf
    obtain ⟨hit, total⟩ := x
    obtain ⟨a, b, c, d⟩ :=
      climb_inv ({ t with hit := hit, total := total } : TinyLfu E) hlo hhi h0 hf
    exact ih _ a b c d

theorem i32_small (x : Int) (hlo : -2 ^ 31 ≤ x) (hhi : x < 2 ^ 31) : i32 x = x := by
  unfold i32; omega

theorem UpdateThreshold_value (e f : Nat) (he : e ≤ 15) (hf : f ≤ 16) :
    i32 (u64 (e + 2 ^ 64 - u64 f) : Nat) = (e : Int) - f := by
  unfold i32 u64
  omega

theorem UpdateThreshold_cases {K V : Type} {E : Env K V} (t : TinyLfu E) (heap : Heap K V)
    (hf : t.lruFactor ≤ 16) (hest : ∀ h, E.sketchEstimate t.sketch h ≤ 15) :
    (E.probationLen t.slru + E.protectedLen t.slru < (E.slruMaxsize t.slru : Int) →
      (t.UpdateThreshold heap).threshold = -1) ∧
    (E.slruVictim t.slru = none → (t.UpdateThreshold heap).threshold = -1) ∧
    (∀ tail, ¬ E.probationLen t.slru + E.protectedLen t.slru < (E.slruMaxsize t.slru : Int) →
      E.slruVictim t.slru = some tail →
      (t.UpdateThreshold heap).threshold
        = (E.sketchEstimate t.sketch (E.hash (heap tail).key) : Int) - t.lruFactor ∧
      -16 ≤ (t.UpdateThreshold heap).threshold ∧ (t.UpdateThreshold heap).threshold ≤ 15) := by
  refine ⟨?_, ?_, ?_⟩
  · intro h
    unfold TinyLfu.UpdateThreshold
    rw [if_pos h]
  · intro h
    unfold TinyLfu.UpdateThreshold
    rw [h]
    split_ifs <;> rfl
  · intro tail h hv
    have he := hest (E.hash (heap tail).key)
    have hval : (t.UpdateThreshold heap).threshold
        = (E.sketchEstimate t.sketch (E.hash (heap tail).key) : Int) - t.lruFactor := by
      unfold TinyLfu.UpdateThreshold
      rw [if_neg h, hv]
      exact UpdateThreshold_value _ _ he hf
    rw [hval]
    omega

/-! ### Admission by `TinyLfu.Set` -/

theorem toUint_toInt (n : Nat) : toUint (toInt n) = u64 n := by
  unfold toUint toInt u64; omega

theorem climb_lruFactor_le {K V : Type} {E : Env K V} (t : TinyLfu E)
    (hf : t.lruFactor ≤ 255) : t.climb.lruFactor ≤ 255 := by
  have hu : ∀ x : Int, u8 x ≤ 255 := by intro x; unfold u8; omega
  cases hd : E.f32pos t.delta
  · cases hn : E.f32neg t.delta
    · rw [(climb_zero t hd hn).2.1]; exact hf
    · unfold TinyLfu.delta at hd hn
      simp only [TinyLfu.climb, hd, hn, ↓reduceIte, Bool.false_eq_true]
      exact hu _
  · unfold TinyLfu.delta at hd
    simp only [TinyLfu.climb, hd, ↓reduceIte]
    exact hu _

theorem counted_fields {K V : Type} {E : Env K V} (t : TinyLfu E) :
    t.counted.slru = t.slru ∧ t.counted.sketch = t.sketch ∧ t.counted.size = t.size ∧
    (¬ u64 (t.counter + 1) > u64 (10 * t.size) →
      t.counted.lruFactor = t.lruFactor ∧ t.counted.step = t.step ∧
      t.counted.threshold = t.threshold) ∧
    (t.lruFactor ≤ 255 → t.counted.lruFactor ≤ 255) := by
  unfold TinyLfu.counted
  simp only
  split_ifs with h
  · refine ⟨rfl, rfl, rfl, fun hn => absurd h hn, fun hf => ?_⟩
    exact climb_lruFactor_le _ hf
  · exact ⟨rfl, rfl, rfl, fun _ => ⟨rfl, rfl, rfl⟩, fun hf => hf⟩

theorem policySet_eq {K V : Type} {E : Env K V} (t : TinyLfu E) (heap : Heap K V)
    (entry : Ptr) :
    t.Set heap entry =
      if (heap entry).meta.prev = none then
        match E.slruVictim t.counted.slru with
        | some victim =>
          if u64 (toUint (if (heap entry).frequency = -1 then
                  toInt (E.sketchEstimate t.counted.sketch (E.hash (heap entry).key))
                else (heap entry).frequency) + t.counted.lruFactor)
              ≤ u64 (E.sketchEstimate t.counted.sketch (E.hash (heap victim).key)) then
            (some entry, t.counted, heap)
          else
            ((E.slruInsert t.counted.slru heap entry).2.2,
              { t.counted with slru := (E.slruInsert t.counted.slru heap entry).1 },
              (E.slruInsert t.counted.slru heap entry).2.1)
        | none =>
          ((E.slruInsert t.counted.slru heap entry).2.2,
            { t.counted with
              sketch := E.sketchEnsureCapacity t.counted.sketch
                (toUint (E.probationLen t.counted.slru + E.protectedLen t.counted.slru
                  + Int.tdiv (E.probationLen t.counted.slru + E.protectedLen t.counted.slru)
                      100)),
              slru := (E.slruInsert t.counted.slru heap entry).1 },
            (E.slruInsert t.counted.slru heap entry).2.1)
      else (none, t.counted, heap) := rfl

theorem policySet_linked {K V : Type} {E : Env K V} (t : TinyLfu E) (heap : Heap K V)
    (entry : Ptr) (hl : (heap entry).meta.prev ≠ none) :
    t.Set heap entry = (none, t.counted, heap) := by
  rw [policySet_eq, if_neg hl]

theorem policySet_victim {K V : Type} {E : Env K V} (t : TinyLfu E) (heap : Heap K V)
    (entry victim : Ptr) (hl : (heap entry).meta.prev = none)
    (hv : E.slruVictim t.slru = some victim) :
    t.Set heap entry =
      if u64 (toUint (if (heap entry).frequency = -1 then
              toInt (E.sketchEstimate t.sketch (E.hash (heap entry).key))
            else (heap entry).frequency) + t.counted.lruFactor)
          ≤ u64 (E.sketchEstimate t.sketch (E.hash (heap victim).key)) then
        (some entry, t.counted, heap)
      else
        ((E.slruInsert t.slru heap entry).2.2,
          { t.counted with slru := (E.slruInsert t.slru heap entry).1 },
          (E.slruInsert t.slru heap entry).2.1) := by
  have hc := counted_fields t
  rw [policySet_eq, if_pos hl, hc.1, hc.2.1, hv]

theorem policySet_novictim {K V : Type} {E : Env K V} (t : TinyLfu E) (heap : Heap K V)
    (entry : Ptr) (hl : (heap entry).meta.prev = none)
    (hv : E.slruVictim t.slru = none) :
    t.Set heap entry =
      ((E.slruInsert t.slru heap entry).2.2,
        { t.counted with
          sketch := E.sketchEnsureCapacity t.sketch
            (toUint (E.probationLen t.slru + E.protectedLen t.slru
              + Int.tdiv (E.probationLen t.slru + E.protectedLen t.slru) 100)),
          slru := (E.slruInsert t.slru heap entry).1 },
        (E.slruInsert t.slru heap entry).2.1) := by
  have hc := counted_fields t
  rw [policySet_eq, if_pos hl, hc.1, hc.2.1, hv]

theorem admission_compare (freq : Int) (est vf lru : Nat) (hlo : -1 ≤ freq)
    (hhi : freq < 2 ^ 31) (hest : est < 2 ^ 63) (hvf : vf < 2 ^ 63) (hl : lru ≤ 255) :
    (u64 (toUint (if freq = -1 then toInt est else freq) + lru) ≤ u64 vf ↔
      (if freq = -1 then (est : Int) else freq) + lru ≤ vf) := by
  unfold u64 toUint toInt
  split_ifs <;> omega

/-! ### The read log -/

theorem shardAt_of_lt {K V : Type} {E : Env K V} (s : Store E) (i : Nat)
    (h : i < s.shards.length) : s.shards[i]? = some (s.shardAt i) := by
  unfold Store.shardAt
  rw [List.getD_eq_getElem?_getD, List.getElem?_eq_getElem h]
  rfl

theorem getFromShard_store {K V : Type} [DecidableEq K] [Inhabited V] {E : Env K V}
    (s : Store E) (key : K) (hash : Nat) (shard : Shard K) :
    (s.getFromShard key hash shard).2 =
      (if u32 (s.readCounter + 1) < MAX_READ_BUFF_SIZE then
        { s with
          readCounter := u32 (s.readCounter + 1),
          policy := { s.policy with
            hit := if (s.liveEntry shard key).isSome then u32 (s.policy.hit + 1)
              else s.policy.hit },
          readbuf := s.readbuf ++ [{ hash := hash, entry := s.liveEntry shard key }] }
      else if u32 (s.readCounter + 1) = MAX_READ_BUFF_SIZE then
        ({ s with
          readCounter := u32 (s.readCounter + 1),
          policy := { s.policy with
            hit := if (s.liveEntry shard key).isSome then u32 (s.policy.hit + 1)
              else s.policy.hit } } : Store E).drainRead
      else
        { s with
          readCounter := u32 (s.readCounter + 1),
          policy := { s.policy with
            hit := if (s.liveEntry shard key).isSome then u32 (s.policy.hit + 1)
              else s.policy.hit } }) := by
  unfold Store.getFromShard Store.liveEntry
  cases hget : shard.get key with
  | none => simp only [Option.isSome_none, Bool.false_eq_true, if_false]
  | some p =>
    by_cases hexp : (s.heap p).expire ≠ 0 ∧ (s.heap p).expire ≤ s.timerwheel.clock.nowNano
    · simp only [hexp, and_self, if_true, Option.isSome_none, Bool.false_eq_true, if_false,
        ↓reduceIte, ne_eq, not_false_eq_true]
    · simp only [hexp, if_false, Option.isSome_some, if_true, ↓reduceIte]


theorem hitsAfter_congr {K V : Type} [DecidableEq K] {E : Env K V} (s s' : Store E)
    (h : ∀ k, s'.readItem k = s.readItem k) :
    ∀ (keys : List K) (hit : Nat), s'.hitsAfter keys hit = s.hitsAfter keys hit := by
  intro keys
  induction keys with
  | nil => intro hit; rfl
  | cons k keys ih =>
    intro hit
    simp only [Store.hitsAfter, h k]
    exact ih _

theorem logged_readItem {K V : Type} [DecidableEq K] {E : Env K V} (s : Store E)
    (keys : List K) (k : K) : (s.logged keys).readItem k = s.readItem k := rfl

theorem logged_append {K V : Type} [DecidableEq K] {E : Env K V} (s : Store E)
    (key : K) (keys : List K) : (s.logged [key]).logged keys = s.logged (key :: keys) := by
  have e1 : (s.logged [key]).logged keys =
      { s with
        readCounter := s.readCounter + [key].length + keys.length,
        policy := { s.policy with
          hit := (s.logged [key]).hitsAfter keys (s.hitsAfter [key] s.policy.hit) },
        readbuf := (s.readbuf ++ [key].map s.readItem) ++ keys.map s.readItem } := rfl
  have hA : s.readCounter + [key].length + keys.length
      = s.readCounter + (key :: keys).length := by
    simp only [List.length_cons, List.length_nil]; omega
  have hB : (s.logged [key]).hitsAfter keys (s.hitsAfter [key] s.policy.hit)
      = s.hitsAfter (key :: keys) s.policy.hit := by
    rw [hitsAfter_congr s _ (logged_readItem s [key])]; rfl
  have hC : (s.readbuf ++ [key].map s.readItem) ++ keys.map s.readItem
      = s.readbuf ++ (key :: keys).map s.readItem := by simp
  rw [e1, hA, hB, hC]
  rfl

theorem Get_logged {K V : Type} [DecidableEq K] [Inhabited V] {E : Env K V}
    (s : Store E) (key : K) (hsh : (s.index key).2 < s.shards.length)
    (hc : s.readCounter + 1 < 64) :
    ∃ v, s.Get key = some (v, s.logged [key]) := by
  have hu : u32 (s.readCounter + 1) = s.readCounter + 1 := by unfold u32; omega
  refine ⟨(s.getFromShard key (s.index key).1 (s.shardAt (s.index key).2)).1, ?_⟩
  rw [Get_of_shard s key _ (shardAt_of_lt s _ hsh)]
  congr 1
  refine Prod.ext rfl ?_
  rw [getFromShard_store, hu, if_pos (by unfold MAX_READ_BUFF_SIZE; exact hc)]
  rfl

theorem Get_drains {K V : Type} [DecidableEq K] [Inhabited V] {E : Env K V}
    (s : Store E) (key : K) (hsh : (s.index key).2 < s.shards.length)
    (hc : s.readCounter + 1 = 64) :
    ∃ v, s.Get key = some (v,
      ({ s with
        readCounter := 64,
        policy := { s.policy with hit := s.hitsAfter [key] s.policy.hit } } :
          Store E).drainRead) := by
  have hu : u32 (s.readCounter + 1) = 64 := by unfold u32; omega
  refine ⟨(s.getFromShard key (s.index key).1 (s.shardAt (s.index key).2)).1, ?_⟩
  rw [Get_of_shard s key _ (shardAt_of_lt s _ hsh)]
  congr 1
  refine Prod.ext rfl ?_
  rw [getFromShard_store, hu, if_neg (by decide), if_pos (by rfl)]
  rfl

theorem getAll_logged {K V : Type} [DecidableEq K] [Inhabited V] {E : Env K V} :
    ∀ (keys : List K) (s : Store E), (∀ k, (s.index k).2 < s.shards.length) →
      s.readCounter + keys.length < 64 →
      s.getAll keys = some (s.logged keys) := by
  intro keys
  induction keys with
  | nil =>
    intro s _ _
    simp [Store.getAll, Store.logged, Store.hitsAfter]
  | cons key keys ih =>
    intro s hsh hc
    simp only [List.length_cons] at hc
    obtain ⟨v, hget⟩ := Get_logged s key (hsh key) (by omega)
    simp only [Store.getAll, hget]
    rw [ih (s.logged [key]) (fun k => hsh k)
      (by show s.readCounter + 1 + keys.length < 64; omega), logged_append]

theorem drainRead_fold {K V : Type} {E : Env K V} (s : Store E) :
    (s.drainRead.policy, s.drainRead.heap) =
      s.readbuf.foldl (fun acc item => acc.1.Access acc.2 item)
        ({ s.policy with total := u32 (s.policy.total + 64) }, s.heap) := rfl

/-! ### The `NEW` case of the maintainer -/

theorem removeEntry_evicted_of_mapped {K V : Type} [DecidableEq K] [Inhabited V]
    {E : Env K V} (s : Store E) (entry : Ptr) (shard : Shard K)
    (hl : (s.heap entry).meta.prev = none) (hw : (s.heap entry).meta.wheelPrev = none)
    (hsh : s.shards[(s.heap entry).shard]? = some shard)
    (hget : shard.get (s.heap entry).key = some entry) :
    s.removeEntry entry RemoveReason.EVICTED = some
      { s with
        shards := s.shards.set (s.heap entry).shard
          { shard with hashmap := mapDelete shard.hashmap (s.heap entry).key },
        removalListener := s.removalListener.map
          (fun calls => calls ++ [((s.heap entry).key, (s.heap entry).value,
            RemoveReason.EVICTED)]),
        heap := Store.postDelete s.heap entry,
        entryPool := entry :: s.entryPool } := by
  have hdel : shard.delete s.heap entry
      = (true, { shard with hashmap := mapDelete shard.hashmap (s.heap entry).key }) := by
    unfold Shard.delete
    unfold Shard.get at hget
    rw [hget]
    simp
  unfold Store.removeEntry
  simp only [hl, hw, ne_eq, not_true_eq_false, if_false, hsh, hdel, if_true]

theorem maintanceSet_eq {K V : Type} [DecidableEq K] [Inhabited V] {E : Env K V}
    (s : Store E) (entry : Ptr) :
    s.maintanceSet entry =
      match (s.afterPolicySet entry).1 with
      | some evicted =>
        ((s.afterPolicySet entry).2.removeEntry evicted RemoveReason.EVICTED).map
          (fun s' => { s' with tailUpdate := true })
      | none => some (s.afterPolicySet entry).2 := by
  have e : s.maintanceSet entry =
      (match (s.afterPolicySet entry).1 with
      | some evicted =>
        (match (s.afterPolicySet entry).2.removeEntry evicted RemoveReason.EVICTED with
        | none => none
        | some s' => some { s' with tailUpdate := true })
      | none => some (s.afterPolicySet entry).2) := rfl
  rw [e]
  cases (s.afterPolicySet entry).1 with
  | none => rfl
  | some evicted =>
    show (match (s.afterPolicySet entry).2.removeEntry evicted RemoveReason.EVICTED with
      | none => none
      | some s' => some ({ s' with tailUpdate := true } : Store E)) = Option.map _ _
    cases (s.afterPolicySet entry).2.removeEntry evicted RemoveReason.EVICTED <;> rfl

theorem maintance_new_eq {K V : Type} [DecidableEq K] [Inhabited V] {E : Env K V}
    (fuel : Nat) (s : Store E) (entry : Ptr) (hrem : (s.heap entry).removed = false) :
    s.maintance fuel (newItem entry) =
      (s.maintanceSet entry).bind
        (fun s1 => (s1.maintanceEvict fuel).map (fun s2 => s2.tailUpdated)) := by
  unfold Store.maintance newItem
  simp only [hrem, Bool.false_eq_true, if_false]
  cases h1 : s.maintanceSet entry with
  | none => rfl
  | some s1 =>
    cases h2 : s1.maintanceEvict fuel with
    | none => simp only [Option.some_bind, h2, Option.map_none']
    | some s2 =>
      simp only [Option.some_bind, h2, Option.map_some', Store.tailUpdated]
      split_ifs <;> rfl

/-! ### `qlen` as the sum of the window costs -/

theorem dequeCost_append {K V : Type} (heap : Heap K V) (l1 l2 : List Ptr) :
    dequeCost heap (l1 ++ l2) = dequeCost heap l1 + dequeCost heap l2 := by
  unfold dequeCost
  rw [List.map_append, List.sum_append]

theorem dequeCost_update {K V : Type} (heap heap' : Heap K V) (p : Ptr)
    (h : ∀ q, q ≠ p → (heap' q).cost = (heap q).cost) :
    ∀ l : List Ptr, dequeCost heap' l
      = dequeCost heap l + ((heap' p).cost - (heap p).cost) * (l.count p : Int) := by
  intro l
  induction l with
  | nil => simp [dequeCost]
  | cons a l ih =>
    rw [dequeCost_cons, dequeCost_cons, ih]
    by_cases ha : a = p
    · subst ha
      rw [List.count_cons_self]
      push_cast
      ring
    · rw [List.count_cons_of_ne (Ne.symm ha), h a ha]
      ring

theorem processDeque_keeps_qlen {K V : Type} [DecidableEq K] [Inhabited V] {E : Env K V}
    (s s' : Store E) (index : Nat) (shard : Shard K)
    (hsh : s.shards[index]? = some shard)
    (hinv : shard.qlen = dequeCost s.heap shard.deque)
    (h : s.processDeque index = some s') :
    ∃ shard', s'.shards[index]? = some shard' ∧
      shard'.qlen = dequeCost s'.heap shard'.deque ∧
      ∀ j sh, j ≠ index → s.shards[j]? = some sh →
        s'.shards[j]? = some sh ∧ dequeCost s'.heap sh.deque = dequeCost s.heap sh.deque := by
  obtain ⟨popped, rest, hdq, hshards, _, _, _, hagree, _⟩ :=
    processDeque_spec s s' index shard hsh h
  have hs' := getElem?_set_self_of s.shards index shard
    ({ shard with
        hashmap := mapAfterPops s.heap s.policy.threshold s.timerwheel.clock.nowNano popped
          shard.hashmap,
        deque := rest, qlen := shard.qlen - dequeCost s.heap popped } : Shard K) hsh
  rw [← hshards] at hs'
  refine ⟨_, hs', ?_, ?_⟩
  · show shard.qlen - dequeCost s.heap popped = dequeCost s'.heap rest
    rw [hagree.dequeCost, hinv, hdq, dequeCost_append, dequeCost_reverse]
    ring
  · intro j sh hj hshj
    refine ⟨?_, hagree.dequeCost _⟩
    rw [hshards, List.getElem?_set_ne (Ne.symm hj)]
    exact hshj


theorem Set_keeps_qlen {K V : Type} [DecidableEq K] [Inhabited V] {E : Env K V}
    (s s' : Store E) (key : K) (value : V) (cost ttl : Int) (entry : Ptr) (r : Bool)
    (shard : Shard K)
    (hsh : s.shards[(s.index key).2]? = some shard)
    (hinv : shard.qlen = dequeCost s.heap shard.deque)
    (hfresh : entry ∉ shard.deque)
    (hflag : ∀ exist, shard.get key = some exist →
      shard.deque.count exist = if (s.heap exist).deque = true then 1 else 0)
    (hfit : ∀ exist, shard.get key = some exist →
      -2 ^ 63 ≤ s.effectiveCost value cost - (s.heap exist).cost ∧
        s.effectiveCost value cost - (s.heap exist).cost < 2 ^ 63)
    (hres : s.Set key value cost ttl entry = some (r, s')) :
    ∃ shard', s'.shards[(s.index key).2]? = some shard' ∧
      shard'.qlen = dequeCost s'.heap shard'.deque := by
  by_cases hc : s.effectiveCost value cost > toInt s.cap
  · rw [Set_over s key value cost ttl entry hc] at hres
    cases hres
    exact ⟨shard, hsh, hinv⟩
  cases hget : shard.get key with
  | some exist =>
    obtain ⟨s1, shard', hset, hshards, _, _, _, hdq, _, hqlen, _, hcost, _, _, hother, _⟩ :=
      Set_update s key value cost ttl entry shard exist hc hsh hget
    rw [i64_of_fits _ (hfit exist hget).1 (hfit exist hget).2] at hqlen
    rw [hset] at hres
    cases hres
    refine ⟨shard', ?_, ?_⟩
    · rw [hshards]; exact getElem?_set_self_of _ _ _ _ hsh
    · rw [hdq, dequeCost_update s.heap s'.heap exist
        (fun q hq => by rw [hother q hq]) shard.deque, hflag exist hget, hqlen, hcost, hinv]
      split_ifs <;> simp_all
  | none =>
    cases hgate : s.gate shard (s.index key).1 with
    | none =>
      exfalso
      unfold Store.effectiveCost at hc
      unfold Store.gate at hgate
      unfold Store.Set at hres
      simp only [if_neg hc, hsh, hget, hgate] at hres
      exact Option.noConfusion hres
    | some g =>
      obtain ⟨b, shard1⟩ := g
      obtain ⟨_, hdq1, hq1, hqs1, _⟩ := gate_frame s shard shard1 _ b hgate
      cases b with
      | false =>
        rw [Set_rejected s key value cost ttl entry shard shard1 hc hsh hget hgate] at hres
        cases hres
        refine ⟨shard1, getElem?_set_self_of _ _ _ _ hsh, ?_⟩
        rw [hq1, hdq1]; exact hinv
      | true =>
        obtain ⟨_, hdq2, hq2, hqs2, _⟩ := Shard.set_frame E.fl shard1 key entry
        by_cases hq : s.effectiveCost value cost > ((shard1.set E.fl key entry).qsize : Int)
        · rw [Set_bypass s key value cost ttl entry shard shard1 hc hsh hget hgate hq] at hres
          cases hres
          refine ⟨shard1.set E.fl key entry, getElem?_set_self_of _ _ _ _ hsh, ?_⟩
          rw [hq2, hdq2, hq1, hdq1]
          show shard.qlen = dequeCost (s.heap.write entry _) shard.deque
          rw [dequeCost_write_notin _ _ _ _ hfresh]
          exact hinv
        · rw [Set_window s key value cost ttl entry shard shard1 hc hsh hget hgate hq] at hres
          cases hpd : Store.processDeque
              ({ s with
                heap := s.heap.write entry
                  { s.heap entry with
                    frequency := -1, shard := (s.index key).2 % 2 ^ 16, key := key,
                    value := value, expire := s.expireOf ttl,
                    cost := s.effectiveCost value cost, deque := true },
                entryPool := s.entryPool.erase entry,
                shards := s.shards.set (s.index key).2
                  { shard1.set E.fl key entry with
                    deque := entry :: (shard1.set E.fl key entry).deque,
                    qlen := (shard1.set E.fl key entry).qlen + s.effectiveCost value cost } } :
                Store E) (s.index key).2 with
          | none => rw [hpd] at hres; exact Option.noConfusion hres
          | some s2 =>
            rw [hpd] at hres
            cases hres
            have hinv2 : (shard1.set E.fl key entry).qlen + s.effectiveCost value cost
                = dequeCost (s.heap.write entry
                    { s.heap entry with
                      frequency := -1, shard := (s.index key).2 % 2 ^ 16, key := key,
                      value := value, expire := s.expireOf ttl,
                      cost := s.effectiveCost value cost, deque := true })
                  (entry :: (shard1.set E.fl key entry).deque) := by
              rw [dequeCost_cons, hq2, hdq2, hq1, hdq1, dequeCost_write_notin _ _ _ _ hfresh,
                hinv, Heap.write_self]
              ring
            obtain ⟨shard', h1, h2, _⟩ := processDeque_keeps_qlen _ s' (s.index key).2 _
              (getElem?_set_self_of _ _ _ _ hsh) hinv2 hpd
            exact ⟨shard', h1, h2⟩

/-! ### The entry pushed by `Set` stays in the window -/

theorem step_frame {K V : Type} [DecidableEq K] [Inhabited V] (grow : Nat → Nat)
    (threshold now : Int) (st : DequeRun K V) (ev : Ptr) (rest : List Ptr) (q : Ptr)
    (hq : q ≠ ev) : (processDequeStep grow threshold now st ev rest).heap q = st.heap q := by
  cases h : isForwarded st.heap threshold now ev with
  | true =>
    rw [step_forwarded grow threshold now st ev rest h]
    exact Heap.write_other _ _ _ _ hq
  | false =>
    rw [(step_dropped grow threshold now st ev rest h).2.2.1]
    split_ifs <;> simp [Store.postDelete, Heap.write_other _ _ _ _ hq]

theorem loop_frame {K V : Type} [DecidableEq K] [Inhabited V] (grow : Nat → Nat)
    (threshold now : Int) (q : Ptr) :
    ∀ (back : List Ptr) (st st' : DequeRun K V),
      processDequeLoop grow threshold now back st = some st' →
      (∀ j, back[j]? = some q →
        ¬ st.shard.qlen - dequeCost st.heap (back.take j) > (st.shard.qsize : Int)) →
      st'.heap q = st.heap q := by
  intro back
  induction back with
  | nil =>
    intro st st' h _
    unfold processDequeLoop at h
    split_ifs at h
    injection h with h
    rw [h]
  | cons ev rest ih =>
    intro st st' h hocc
    unfold processDequeLoop at h
    split_ifs at h with hq
    · have hne : q ≠ ev := by
        intro e
        exact hocc 0 (by simp [e]) (by simpa [dequeCost] using hq)
      have hag := step_agree grow threshold now st ev rest.reverse
      rw [ih _ _ h ?_, step_frame grow threshold now st ev rest.reverse q hne]
      intro j hj
      have := hocc (j + 1) (by simpa using hj)
      rw [step_shard]
      simp only [hag.dequeCost]
      simp only [List.take_succ_cons, dequeCost_cons] at this
      omega
    · injection h with h
      rw [h]

theorem processDeque_frame {K V : Type} [DecidableEq K] [Inhabited V] {E : Env K V}
    (s s' : Store E) (index : Nat) (shard : Shard K) (q : Ptr)
    (hsh : s.shards[index]? = some shard) (h : s.processDeque index = some s')
    (hocc : ∀ j, shard.deque.reverse[j]? = some q →
      ¬ shard.qlen - dequeCost s.heap (shard.deque.reverse.take j) > (shard.qsize : Int)) :
    s'.heap q = s.heap q := by
  unfold Store.processDeque at h
  simp only [hsh] at h
  split_ifs at h with hq
  · injection h with h
    rw [← h]
  · split at h
    · exact Option.noConfusion h
    · rename_i st hloop
      injection h with h
      subst h
      exact loop_frame _ _ _ q _ _ _ hloop hocc

theorem mapDrop_keep_ne {K V : Type} [DecidableEq K] (heap : Heap K V) (m : List (K × Ptr))
    (p e : Ptr) (k : K) (hne : p ≠ e) (h : mapGet m k = some e) :
    mapGet (mapDrop heap m p) k = some e := by
  unfold mapDrop
  split_ifs with hp
  · by_cases hk : (heap p).key = k
    · rw [hk, h] at hp
      exact absurd (Option.some.inj hp).symm hne
    · rw [mapGet_mapDelete_ne _ _ _ (Ne.symm hk)]
      exact h
  · exact h

theorem mapAfterPops_notin {K V : Type} [DecidableEq K] (heap : Heap K V)
    (threshold now : Int) (k : K) (e : Ptr) :
    ∀ (l : List Ptr) (m : List (K × Ptr)), e ∉ l → mapGet m k = some e →
      mapGet (mapAfterPops heap threshold now l m) k = some e := by
  intro l
  induction l with
  | nil => intro m _ h; exact h
  | cons p l ih =>
    intro m hl h
    rw [mapAfterPops_cons]
    have hp : p ≠ e := fun e' => hl (by simp [e'])
    apply ih _ (fun hm => hl (List.mem_cons_of_mem _ hm))
    show mapGet (if isForwarded heap threshold now p = true then m else mapDrop heap m p) k
      = some e
    split_ifs
    · exact h
    · exact mapDrop_keep_ne heap m p e k hp h


theorem cons_eq_append_reverse {α : Type} (e : α) (D rest popped : List α)
    (h : e :: D = rest ++ popped.reverse) :
    (rest = [] ∧ popped = D.reverse ++ [e]) ∨
      ∃ rest', rest = e :: rest' ∧ D = rest' ++ popped.reverse := by
  cases rest with
  | nil =>
    left
    refine ⟨rfl, ?_⟩
    have h' : popped.reverse = e :: D := by simpa using h.symm
    have := congrArg List.reverse h'
    simpa using this
  | cons a rest' =>
    right
    simp only [List.cons_append, List.cons.injEq] at h
    exact ⟨rest', by rw [h.1], h.2⟩

theorem Set_new_entry_stays {K V : Type} [DecidableEq K] [Inhabited V] {E : Env K V}
    (s : Store E) (key : K) (value : V) (cost ttl : Int) (entry : Ptr)
    (shard shard1 : Shard K)
    (hc : s.effectiveCost value cost ≤ toInt s.cap)
    (hsh : s.shards[(s.index key).2]? = some shard)
    (hget : shard.get key = none)
    (hgate : s.gate shard (s.index key).1 = some (true, shard1))
    (hq : s.effectiveCost value cost ≤ (shard.qsize : Int))
    (hinv : shard.qlen = dequeCost s.heap shard.deque)
    (hfresh : entry ∉ shard.deque) :
    ∃ (s' : Store E) (shard' : Shard K) (popped rest : List Ptr),
      s.Set key value cost ttl entry = some (true, s') ∧
      s'.shards[(s.index key).2]? = some shard' ∧
      shard.deque = rest ++ popped.reverse ∧ entry ∉ popped ∧
      shard'.deque = entry :: rest ∧
      s'.heap entry = { s.newEntry key value cost ttl entry with deque := true } ∧
      shard'.get key = some entry := by
  obtain ⟨_, hdq1, hq1, hqs1, _⟩ := gate_frame s shard shard1 _ true hgate
  obtain ⟨hmap2, hdq2, hq2, hqs2, _⟩ := Shard.set_frame E.fl shard1 key entry
  have hsh2 : (s.pushed key value cost ttl entry shard1).shards[(s.index key).2]?
      = some (s.pushedShard key value cost entry shard1) :=
    getElem?_set_self_of _ _ _ _ hsh
  have hD : (s.pushedShard key value cost entry shard1).deque = entry :: shard.deque := by
    show entry :: (shard1.set E.fl key entry).deque = _
    rw [hdq2, hdq1]
  have hQ : (s.pushedShard key value cost entry shard1).qlen
      = shard.qlen + s.effectiveCost value cost := by
    show (shard1.set E.fl key entry).qlen + _ = _
    rw [hq2, hq1]
  have hS : (s.pushedShard key value cost entry shard1).qsize = shard.qsize := by
    show (shard1.set E.fl key entry).qsize = _
    rw [hqs2, hqs1]
  have hcostD : ∀ l : List Ptr, (∀ p, p ∈ l → p ∈ shard.deque) →
      dequeCost (s.pushed key value cost ttl entry shard1).heap l = dequeCost s.heap l := by
    intro l hl
    exact dequeCost_write_notin _ _ _ _ (fun hm => hfresh (hl _ hm))
  have hcostE : ((s.pushed key value cost ttl entry shard1).heap entry).cost
      = s.effectiveCost value cost := by
    show (s.heap.write entry _ entry).cost = _
    rw [Heap.write_self]
    rfl
  have hinv2 : (s.pushedShard key value cost entry shard1).qlen
      = dequeCost (s.pushed key value cost ttl entry shard1).heap
          (s.pushedShard key value cost entry shard1).deque := by
    rw [hD, hQ, dequeCost_cons, hcostE, hcostD _ (fun _ h => h), hinv]
    ring
  have hkey : (s.pushedShard key value cost entry shard1).qlen
      - dequeCost (s.pushed key value cost ttl entry shard1).heap shard.deque.reverse
      = s.effectiveCost value cost := by
    rw [hQ, dequeCost_reverse, hcostD _ (fun _ h => h), hinv]
    ring
  obtain ⟨s', hpd⟩ := processDeque_total _ _ _ hsh2 hinv2
  obtain ⟨popped, rest, hdq, hshards, _, hpops, _⟩ := processDeque_spec _ s' _ _ hsh2 hpd
  have hs' := getElem?_set_self_of _ (s.index key).2 _
    ({ s.pushedShard key value cost entry shard1 with
        hashmap := mapAfterPops (s.pushed key value cost ttl entry shard1).heap
          (s.pushed key value cost ttl entry shard1).policy.threshold
          (s.pushed key value cost ttl entry shard1).timerwheel.clock.nowNano popped
          (s.pushedShard key value cost entry shard1).hashmap,
        deque := rest,
        qlen := (s.pushedShard key value cost entry shard1).qlen
          - dequeCost (s.pushed key value cost ttl entry shard1).heap popped } : Shard K) hsh2
  rw [← hshards] at hs'
  rw [hD] at hdq
  rcases cons_eq_append_reverse entry shard.deque rest popped hdq with ⟨_, hpop⟩ | ⟨rest', hr, hd⟩
  · exfalso
    have hj := hpops shard.deque.length (by rw [hpop]; simp)
    have ht : popped.take shard.deque.length = shard.deque.reverse := by
      rw [hpop, List.take_left' (by simp)]
    rw [ht, hkey, hS] at hj
    omega
  · have hnot : entry ∉ popped := by
      intro hm
      apply hfresh
      rw [hd]
      exact List.mem_append_right _ (List.mem_reverse.mpr hm)
    refine ⟨s', _, popped, rest', ?_, hs', hd, hnot, hr, ?_, ?_⟩
    · rw [Set_window_eq s key value cost ttl entry shard shard1 hc hsh hget hgate hq, hpd]
      rfl
    · rw [processDeque_frame _ s' _ _ entry hsh2 hpd ?_]
      · show s.heap.write entry _ entry = _
        rw [Heap.write_self]
      · intro j hj
        rw [hD, List.reverse_cons] at hj ⊢
        have hjl : ¬ j < shard.deque.reverse.length := by
          intro hlt
          rw [List.getElem?_append_left hlt] at hj
          exact hfresh (List.mem_reverse.mp (List.getElem?_mem hj))
        have hje : j = shard.deque.reverse.length := by
          by_contra hne
          have : (shard.deque.reverse ++ [entry]).length ≤ j := by
            simp only [List.length_append, List.length_singleton]; omega
          rw [List.getElem?_eq_none this] at hj
          exact Option.noConfusion hj
        rw [hje, List.take_left' rfl, hkey, hS]
        omega
    · show mapGet (mapAfterPops _ _ _ popped
        (s.pushedShard key value cost entry shard1).hashmap) key = some entry
      apply mapAfterPops_notin _ _ _ _ _ _ _ hnot
      show mapGet (shard1.set E.fl key entry).hashmap key = some entry
      rw [hmap2]
      exact mapGet_mapSet_self _ _ _

theorem Set_new_present {K V : Type} [DecidableEq K] [Inhabited V] {E : Env K V}
    (s : Store E) (key : K) (value : V) (cost ttl : Int) (entry : Ptr)
    (shard shard1 : Shard K)
    (hc : s.effectiveCost value cost ≤ toInt s.cap)
    (hsh : s.shards[(s.index key).2]? = some shard)
    (hget : shard.get key = none)
    (hgate : s.gate shard (s.index key).1 = some (true, shard1))
    (hinv : shard.qlen = dequeCost s.heap shard.deque)
    (hfresh : entry ∉ shard.deque) :
    ∃ s' shard', s.Set key value cost ttl entry = some (true, s') ∧
      s'.shards[(s.index key).2]? = some shard' ∧ shard'.get key = some entry := by
  by_cases hq : (shard.qsize : Int) < s.effectiveCost value cost
  · obtain ⟨s', shard', h1, h2, h3, _⟩ :=
      Set_bypass_facts s key value cost ttl entry shard shard1 hc hsh hget hgate hq
    exact ⟨s', shard', h1, h2, h3⟩
  · obtain ⟨s', shard', _, _, h1, h2, _, _, _, _, h3⟩ :=
      Set_new_entry_stays s key value cost ttl entry shard shard1 hc hsh hget hgate
        (not_lt.mp hq) hinv hfresh
    exact ⟨s', shard', h1, h2, h3⟩

/-! ### Two consecutive `Set`s of a new key behind the doorkeeper -/

theorem Set_twice_facts {K V : Type} [DecidableEq K] [Inhabited V] {E : Env K V}
    (s : Store E) (key : K) (value : V) (cost ttl : Int) (entry : Ptr)
    (shard shard1 : Shard K) (d : doorkeeper) (j : Nat)
    (hdk : s.doorkeeper = true)
    (hc : s.effectiveCost value cost ≤ toInt s.cap)
    (hsh : s.shards[(s.index key).2]? = some shard)
    (hget : shard.get key = none)
    (hd : shard.dookeeper = some d) (hm : d.m = 2 ^ j) (hj : j < 32)
    (hlen : d.filter.length = (d.m + 63) / 64)
    (hfirst : shard.doorkeeperGate (s.index key).1 = some (false, shard1))
    (hcnt : shard.counter ≠ d.capacity) (hcap : 0 < d.capacity)
    (hinv : shard.qlen = dequeCost s.heap shard.deque)
    (hfresh : entry ∉ shard.deque) :
    ∃ s1, s.Set key value cost ttl entry = some (false, s1) ∧
      s1.shards = s.shards.set (s.index key).2 shard1 ∧
      shard1.hashmap = shard.hashmap ∧ shard1.deque = shard.deque ∧
      shard1.qlen = shard.qlen ∧ s1.writebuf = s.writebuf ∧ s1.heap = s.heap ∧
      ∃ s2 shard2, s1.Set key value cost ttl entry = some (true, s2) ∧
        s2.shards[(s.index key).2]? = some shard2 ∧ shard2.get key = some entry := by
  have hgate1 : s.gate shard (s.index key).1 = some (false, shard1) := by
    unfold Store.gate; rw [if_pos hdk]; exact hfirst
  obtain ⟨g1, g2, g3, _, _⟩ := doorkeeperGate_frame shard shard1 _ _ hfirst
  have hset1 := Set_rejected s key value cost ttl entry shard shard1 (not_lt.mpr hc) hsh hget hgate1
  refine ⟨_, hset1, rfl, g1, g2, g3, rfl, rfl, ?_⟩
  -- the doorkeeper after the first call
  obtain ⟨r, d1, _, hgeq, _, hbits1, hl1, hm1, hk1, hc1⟩ :=
    doorkeeperGate_eq shard d (s.index key).1 j hd hm hj hlen (index_fst_lt s key)
  rw [hfirst] at hgeq
  injection hgeq with hgeq
  injection hgeq with hr hsh1
  subst hr
  have hd1 : shard1.dookeeper = some d1 := by rw [hsh1]
  have hcnt1 : ¬ shard1.counter > d1.capacity := by
    rw [hsh1, hc1]
    simp only [Bool.false_eq_true, if_false]
    have hle : ∀ n, u64 n ≤ n := fun n => Nat.mod_le _ _
    split_ifs with hgt
    · have := hle (0 + 1); omega
    · have := hle (shard.counter + 1); omega
  -- the second call
  obtain ⟨r2, d2, _, hgeq2, hr2, _⟩ :=
    doorkeeperGate_eq shard1 d1 (s.index key).1 j hd1 (by rw [hm1]; exact hm) hj
      (by rw [hl1, hm1]; exact hlen) (index_fst_lt s key)
  rw [if_neg hcnt1] at hr2
  have hr2t : r2 = true := by
    rw [hr2, hm1, hk1]; exact hbits1
  subst hr2t
  have hidx : ∀ s' : Store E, s'.shardCount = s.shardCount → s'.index key = s.index key :=
    fun s' h => index_congr s s' key h
  have hsh' : ({ s with shards := s.shards.set (s.index key).2 shard1 } : Store E).shards[
      (({ s with shards := s.shards.set (s.index key).2 shard1 } : Store E).index key).2]?
      = some shard1 := by
    rw [hidx _ rfl]; exact getElem?_set_self_of _ _ _ _ hsh
  obtain ⟨s2, shard2, hs2, h2, h3⟩ :=
    Set_new_present ({ s with shards := s.shards.set (s.index key).2 shard1 } : Store E)
      key value cost ttl entry shard1 _ hc hsh'
      (by unfold Shard.get at hget ⊢; rw [g1]; exact hget)
      (by
        unfold Store.gate
        rw [hidx _ rfl]
        simp only [hdk, if_true]
        exact hgeq2)
      (by rw [g2, g3]; exact hinv)
      (by rw [g2]; exact hfresh)
  rw [hidx _ rfl] at h2
  exact ⟨s2, shard2, hs2, h2, h3⟩

/-! ## The claims -/

/-- C1: for a doorkeeper whose `m` is a power of two and whose filter holds `m` bits, and
a 64-bit hash `h`, `insert h` returns, and its result is `true` exactly when every probed
position `(h1 + i*h2) mod m`, `i < k`, was already set before the call; afterwards a bit is
set exactly when it was set before or is one of the probed positions, and the size of the
filter, `m`, `k` and the capacity are unchanged. -/
theorem doorkeeper_insert_spec (d : doorkeeper) (h j : Nat) (hm : d.m = 2 ^ j) (hj : j < 32)
    (hlen : d.filter.length = (d.m + 63) / 64) (hh : h < 2 ^ 64) :
    ∃ r d', d.insert h = some (r, d') ∧
      (r = true ↔ ∀ i, i < d.k → bitAt d.filter (specPos d.m h i) = true) ∧
      (∀ q, bitAt d'.filter q = true ↔
        bitAt d.filter q = true ∨ ∃ i, i < d.k ∧ q = specPos d.m h i) ∧
      d'.filter.length = d.filter.length ∧ d'.m = d.m ∧ d'.k = d.k ∧
      d'.capacity = d.capacity :=
  insert_facts d h j hm hj hlen hh

/-- Witness for C1: the doorkeeper of a new shard (`m = 8192`, `k = 11`) and the hash
`5 * 2^32 + 7`. -/
theorem doorkeeper_insert_spec_witness :
    ((newDoorkeeper exEnv.fl (1 / 100)).m = 2 ^ 13 ∧ 13 < 32 ∧
      (newDoorkeeper exEnv.fl (1 / 100)).filter.length
        = ((newDoorkeeper exEnv.fl (1 / 100)).m + 63) / 64 ∧
      21474836487 < 2 ^ 64) ∧
    ∃ r d', (newDoorkeeper exEnv.fl (1 / 100)).insert 21474836487 = some (r, d') ∧
      (r = true ↔ ∀ i, i < (newDoorkeeper exEnv.fl (1 / 100)).k →
        bitAt (newDoorkeeper exEnv.fl (1 / 100)).filter
          (specPos (newDoorkeeper exEnv.fl (1 / 100)).m 21474836487 i) = true) ∧
      (∀ q, bitAt d'.filter q = true ↔
        bitAt (newDoorkeeper exEnv.fl (1 / 100)).filter q = true ∨
          ∃ i, i < (newDoorkeeper exEnv.fl (1 / 100)).k ∧
            q = specPos (newDoorkeeper exEnv.fl (1 / 100)).m 21474836487 i) ∧
      d'.filter.length = (newDoorkeeper exEnv.fl (1 / 100)).filter.length ∧
      d'.m = (newDoorkeeper exEnv.fl (1 / 100)).m ∧
      d'.k = (newDoorkeeper exEnv.fl (1 / 100)).k ∧
      d'.capacity = (newDoorkeeper exEnv.fl (1 / 100)).capacity :=
  ⟨by decide,
   doorkeeper_insert_spec (newDoorkeeper exEnv.fl (1 / 100)) 21474836487 13
     (by decide) (by decide) (by decide) (by decide)⟩

/-- Counterexample to C2 as stated: in a doorkeeper-enabled store whose shard counter stands
at the doorkeeper capacity (512), key 7 is absent and a first sighting, the first
`Set(7, 70, cost 1)` returns `false`, and the immediately following `Set` of the same key
returns `false` again: the first call raised the counter above the capacity, so the second
call resets the filter before probing it. -/
theorem Set_doorkeeper_second_rejected :
    exCounterFull.doorkeeper = true ∧
    (exCounterFull.shardAt 3).counter = 512 ∧
    (exCounterFull.shardAt 3).dookeeper.map (fun d => d.capacity) = some 512 ∧
    (exCounterFull.index 7).2 = 3 ∧
    (exCounterFull.shardAt 3).get 7 = none ∧
    (exCounterFull.Set 7 70 1 0 0).map (fun r => r.1) = some false ∧
    ((exCounterFull.afterSet 7 70 1 0 0).Set 7 70 1 0 0).map (fun r => r.1) = some false := by
  decide

/-- C2, amended: in a doorkeeper-enabled store, for a key that is absent from its shard map
and a first sighting for the doorkeeper (the gate answers `false`), when the shard counter
differs from the doorkeeper capacity, the first `Set` (cost within the capacity as `Set`
compares it, `cost ≤ int64(capacity)`; any `ttl`) returns `false` and leaves shard map,
window, `qlen`, write log and heap unchanged, and the immediately following `Set` of the
same key returns `true` and leaves the key in the shard map.  The doorkeeper has `m` a power
of two and a filter of `m` bits, `qlen` is the sum of the window costs, and the entry handed
out by the pool is not in the window. -/
theorem Set_doorkeeper_first_then_second {K V : Type} [DecidableEq K] [Inhabited V]
    {E : Env K V} (s : Store E) (key : K) (value : V) (cost ttl : Int) (entry : Ptr)
    (shard shard1 : Shard K) (d : doorkeeper) (j : Nat)
    (hdk : s.doorkeeper = true)
    (hc : s.effectiveCost value cost ≤ toInt s.cap)
    (hsh : s.shards[(s.index key).2]? = some shard)
    (hget : shard.get key = none)
    (hd : shard.dookeeper = some d) (hm : d.m = 2 ^ j) (hj : j < 32)
    (hlen : d.filter.length = (d.m + 63) / 64)
    (hfirst : shard.doorkeeperGate (s.index key).1 = some (false, shard1))
    (hcnt : shard.counter ≠ d.capacity) (hcap : 0 < d.capacity)
    (hinv : shard.qlen = dequeCost s.heap shard.deque)
    (hfresh : entry ∉ shard.deque) :
    ∃ s1, s.Set key value cost ttl entry = some (false, s1) ∧
      s1.shards = s.shards.set (s.index key).2 shard1 ∧
      shard1.hashmap = shard.hashmap ∧ shard1.deque = shard.deque ∧
      shard1.qlen = shard.qlen ∧ s1.writebuf = s.writebuf ∧ s1.heap = s.heap ∧
      ∃ s2 shard2, s1.Set key value cost ttl entry = some (true, s2) ∧
        s2.shards[(s.index key).2]? = some shard2 ∧ shard2.get key = some entry :=
  Set_twice_facts s key value cost ttl entry shard shard1 d j hdk hc hsh hget hd hm hj hlen
    hfirst hcnt hcap hinv hfresh

/-- Witness for C2: the new doorkeeper-enabled store and key 7, set twice. -/
theorem Set_doorkeeper_first_then_second_witness :
    ((exStore true).doorkeeper = true ∧
      (exStore true).effectiveCost 70 1 ≤ toInt (exStore true).cap ∧
      (exStore true).shards[((exStore true).index 7).2]? = some ((exStore true).shardAt 3) ∧
      ((exStore true).shardAt 3).get 7 = none ∧
      ((exStore true).shardAt 3).dookeeper = some (newDoorkeeper exEnv.fl (1 / 100)) ∧
      (newDoorkeeper exEnv.fl (1 / 100)).m = 2 ^ 13 ∧ 13 < 32 ∧
      (newDoorkeeper exEnv.fl (1 / 100)).filter.length
        = ((newDoorkeeper exEnv.fl (1 / 100)).m + 63) / 64 ∧
      ((exStore true).shardAt 3).doorkeeperGate ((exStore true).index 7).1
        = some (false, ((exStore true).afterSet 7 70 1 0 0).shardAt 3) ∧
      ((exStore true).shardAt 3).counter ≠ (newDoorkeeper exEnv.fl (1 / 100)).capacity ∧
      0 < (newDoorkeeper exEnv.fl (1 / 100)).capacity ∧
      ((exStore true).shardAt 3).qlen
        = dequeCost (exStore true).heap ((exStore true).shardAt 3).deque ∧
      0 ∉ ((exStore true).shardAt 3).deque) ∧
    ∃ s1, (exStore true).Set 7 70 1 0 0 = some (false, s1) ∧
      s1.shards = (exStore true).shards.set ((exStore true).index 7).2
        (((exStore true).afterSet 7 70 1 0 0).shardAt 3) ∧
      (((exStore true).afterSet 7 70 1 0 0).shardAt 3).hashmap
        = ((exStore true).shardAt 3).hashmap ∧
      (((exStore true).afterSet 7 70 1 0 0).shardAt 3).deque
        = ((exStore true).shardAt 3).deque ∧
      (((exStore true).afterSet 7 70 1 0 0).shardAt 3).qlen
        = ((exStore true).shardAt 3).qlen ∧
      s1.writebuf = (exStore true).writebuf ∧ s1.heap = (exStore true).heap ∧
      ∃ s2 shard2, s1.Set 7 70 1 0 0 = some (true, s2) ∧
        s2.shards[((exStore true).index 7).2]? = some shard2 ∧ shard2.get 7 = some 0 :=
  ⟨⟨by decide, by decide, by rfl, by decide, by rfl, by decide, by decide, by decide, by rfl,
      by decide, by decide, by decide, by decide⟩,
   Set_doorkeeper_first_then_second (exStore true) 7 70 1 0 0 ((exStore true).shardAt 3)
     (((exStore true).afterSet 7 70 1 0 0).shardAt 3) (newDoorkeeper exEnv.fl (1 / 100)) 13
     (by decide) (by decide) (by rfl) (by decide) (by rfl) (by decide) (by decide)
     (by decide) (by rfl) (by decide) (by decide) (by decide) (by decide)⟩

/-- Counterexample to C3 as stated, in a store without doorkeeper whose clock reads 10.
(a) Key 7 was set with `ttl = 5` at clock value 0: `Set(7, 71, cost 1, ttl 0)` returns `true`
and the immediately following `Get(7)` is a miss, because the update with `ttl = 0` leaves
the expiry 5 of the entry in place.  (b) In the new store `Set(7, 70, cost 1, ttl -1)` returns
`true` and stores the expiry 9, so `Get(7)` is a miss.  (c) In the new store
`Set(7, 70, cost 1, ttl 2^63 - 1)` returns `true` and stores the wrapped expiry
`-2^63 + 9`, so `Get(7)` is a miss. -/
theorem Set_then_Get_misses :
    ((exTtl.atTime 10).doorkeeper = false ∧
      ((exTtl.atTime 10).shardAt 3).get 7 = some 0 ∧ ((exTtl.atTime 10).heap 0).expire = 5 ∧
      ((exTtl.atTime 10).Set 7 71 1 0 1).map (fun r => r.1) = some true ∧
      (((exTtl.atTime 10).afterSet 7 71 1 0 1).Get 7).map (fun r => r.1) = some (0, false)) ∧
    (((exStore false).atTime 10).doorkeeper = false ∧
      (((exStore false).atTime 10).Set 7 70 1 (-1) 0).map (fun r => r.1) = some true ∧
      ((((exStore false).atTime 10).afterSet 7 70 1 (-1) 0).heap 0).expire = 9 ∧
      ((((exStore false).atTime 10).afterSet 7 70 1 (-1) 0).Get 7).map (fun r => r.1)
        = some (0, false)) ∧
    ((((exStore false).atTime 10).Set 7 70 1 (2 ^ 63 - 1) 0).map (fun r => r.1) = some true ∧
      ((((exStore false).atTime 10).afterSet 7 70 1 (2 ^ 63 - 1) 0).heap 0).expire
        = -2 ^ 63 + 9 ∧
      ((((exStore false).atTime 10).afterSet 7 70 1 (2 ^ 63 - 1) 0).Get 7).map (fun r => r.1)
        = some (0, false)) := by
  decide

/-- C3, amended: in a store without doorkeeper, for `1 ≤ cost ≤ capacity` (the capacity as
`Set` compares it, `int64(capacity)`) and a `ttl ≥ 0` for which `now + ttl` does not exceed
the largest `int64`, `Set(k, v, cost, ttl)` returns `true` and the immediately following
`Get(k)` returns `(v, true)`, provided that, when `k` is already present and this call
computes no positive expiry (`ttl = 0`, or `now + ttl ≤ 0`), the entry stored under `k` is
not expired: such an update keeps the expiry the entry has.  The clock value is an `int64`,
`qlen` is the sum of the window costs and the entry handed out by the pool is not in the
window. -/
theorem Set_then_Get {K V : Type} [DecidableEq K] [Inhabited V] {E : Env K V}
    (s : Store E) (key : K) (value : V) (cost ttl : Int) (entry : Ptr) (shard : Shard K)
    (hdk : s.doorkeeper = false)
    (h1 : 1 ≤ cost) (hc : cost ≤ toInt s.cap)
    (hsh : s.shards[(s.index key).2]? = some shard)
    (httl : 0 ≤ ttl) (hnow : -2 ^ 63 ≤ s.timerwheel.clock.nowNano)
    (hfit : s.timerwheel.clock.nowNano + ttl < 2 ^ 63)
    (hold : ∀ p, shard.get key = some p → ttl = 0 ∨ s.timerwheel.clock.nowNano + ttl ≤ 0 →
      ¬ ((s.heap p).expire ≠ 0 ∧ (s.heap p).expire ≤ s.timerwheel.clock.nowNano))
    (hinv : shard.qlen = dequeCost s.heap shard.deque)
    (hfresh : entry ∉ shard.deque) :
    ∃ s', s.Set key value cost ttl entry = some (true, s') ∧
      (s'.Get key).map (fun r => r.1) = some (value, true) := by
  have hce : s.effectiveCost value cost = cost := by
    unfold Store.effectiveCost
    rw [if_neg (by omega)]
  have hc' : s.effectiveCost value cost ≤ toInt s.cap := by rw [hce]; exact hc
  have hlive := expireOf_live s ttl httl hnow hfit
  cases hget : shard.get key with
  | some exist =>
    obtain ⟨s', shard', hset, hshards, hmap, _, _, _, _, _, hval, _, hexp, _, _, _, _, _, htw,
      hsc, _⟩ := Set_update s key value cost ttl entry shard exist (not_lt.mpr hc') hsh hget
    refine ⟨s', hset, ?_⟩
    have hsh' : s'.shards[(s.index key).2]? = some shard' := by
      rw [hshards]; exact getElem?_set_self_of _ _ _ _ hsh
    have hget' : shard'.get key = some exist := by
      unfold Shard.get at hget ⊢; rw [hmap]; exact hget
    rw [Get_hit_of s s' key shard' exist hsc hsh' hget' ?_, hval]
    rw [hexp, htw]
    by_cases hpos : s.expireOf ttl > 0
    · rw [if_pos hpos]
      exact hlive
    · rw [if_neg hpos]
      apply hold exist hget
      by_cases h0 : ttl = 0
      · exact Or.inl h0
      · right
        rw [expireOf_fits s ttl h0 (by omega) hfit] at hpos
        omega
  | none =>
    have hgate : s.gate shard (s.index key).1 = some (true, shard) := by
      unfold Store.gate; simp only [hdk, Bool.false_eq_true, if_false]
    obtain ⟨s', shard', hset, hsh', hget', hval, hexp, htw, hsc⟩ :=
      Set_new_ok s key value cost ttl entry shard shard hc' hsh hget hgate
        hlive hinv hfresh
    refine ⟨s', hset, ?_⟩
    rw [Get_hit_of s s' key shard' entry hsc hsh' hget' ?_, hval]
    rw [hexp, htw]
    exact hlive

/-- Witness for C3: `Set(7, 71, cost 1, ttl 5)` at clock value 10 on the store in which key 7
is present with an expiry that has passed. -/
theorem Set_then_Get_witness :
    ((exTtl.atTime 10).doorkeeper = false ∧ (1 : Int) ≤ 1 ∧
      (1 : Int) ≤ toInt (exTtl.atTime 10).cap ∧
      (exTtl.atTime 10).shards[((exTtl.atTime 10).index 7).2]?
        = some ((exTtl.atTime 10).shardAt 3) ∧
      (0 : Int) ≤ 5 ∧ -2 ^ 63 ≤ (exTtl.atTime 10).timerwheel.clock.nowNano ∧
      (exTtl.atTime 10).timerwheel.clock.nowNano + 5 < 2 ^ 63 ∧
      ((exTtl.atTime 10).shardAt 3).qlen
        = dequeCost (exTtl.atTime 10).heap ((exTtl.atTime 10).shardAt 3).deque ∧
      1 ∉ ((exTtl.atTime 10).shardAt 3).deque) ∧
    ∃ s', (exTtl.atTime 10).Set 7 71 1 5 1 = some (true, s') ∧
      (s'.Get 7).map (fun r => r.1) = some (71, true) :=
  have hold : ∀ p, ((exTtl.atTime 10).shardAt 3).get 7 = some p →
      (5 : Int) = 0 ∨ (exTtl.atTime 10).timerwheel.clock.nowNano + 5 ≤ 0 →
      ¬ (((exTtl.atTime 10).heap p).expire ≠ 0 ∧
        ((exTtl.atTime 10).heap p).expire ≤ (exTtl.atTime 10).timerwheel.clock.nowNano) := by
    intro p _ h
    have hf : ¬ ((5 : Int) = 0 ∨ (exTtl.atTime 10).timerwheel.clock.nowNano + 5 ≤ 0) := by
      decide
    exact absurd h hf
  ⟨⟨by decide, by decide, by decide, by decide, by decide, by decide, by decide, by decide,
      by decide⟩,
   Set_then_Get (exTtl.atTime 10) 7 71 1 5 1 ((exTtl.atTime 10).shardAt 3)
     (by decide) (by decide) (by decide) (by decide) (by decide) (by decide) (by decide) hold
     (by decide) (by decide)⟩

/-- C4: when key `k` is present in its shard map, `Set(k, v2, cost, ttl)` with a cost within
the capacity (`cost ≤ int64(capacity)`, the comparison that `Set` makes) returns `true`; the shard map is unchanged, so the same entry stays under `k`
and `Len` is unchanged; that entry now holds `v2`; no listener call is made; doorkeeper and
counter of the shard are untouched; and when the new cost differs from the old one an
`UPDATE` item for that entry is appended to the write log whose `costChange` is
`newCost - oldCost` as Go computes it in `int64`, which is the difference itself whenever the
difference fits in an `int64` (as it does for any two costs that are not negative).  The
new and the old cost are `int64` values. -/
theorem Set_existing_key {K V : Type} [DecidableEq K] [Inhabited V] {E : Env K V}
    (s : Store E) (key : K) (value : V) (cost ttl : Int) (entry : Ptr)
    (shard : Shard K) (exist : Ptr)
    (hc : s.effectiveCost value cost ≤ toInt s.cap)
    (hsh : s.shards[(s.index key).2]? = some shard)
    (hget : shard.get key = some exist)
    (hnew : -2 ^ 63 ≤ s.effectiveCost value cost)
    (hold : -2 ^ 63 ≤ (s.heap exist).cost ∧ (s.heap exist).cost < 2 ^ 63) :
    ∃ s' shard', s.Set key value cost ttl entry = some (true, s') ∧
      s'.shards = s.shards.set (s.index key).2 shard' ∧
      shard'.hashmap = shard.hashmap ∧ shard'.get key = some exist ∧
      (s'.heap exist).value = value ∧
      s'.Len = s.Len ∧
      s'.removalListener = s.removalListener ∧
      shard'.dookeeper = shard.dookeeper ∧ shard'.counter = shard.counter ∧
      (s.effectiveCost value cost ≠ (s.heap exist).cost →
        ∃ r, s'.writebuf = s.writebuf ++
          [updateItem exist (i64 (s.effectiveCost value cost - (s.heap exist).cost)) r]) ∧
      (s.effectiveCost value cost ≠ (s.heap exist).cost →
        -2 ^ 63 ≤ s.effectiveCost value cost - (s.heap exist).cost →
        s.effectiveCost value cost - (s.heap exist).cost < 2 ^ 63 →
        ∃ r, s'.writebuf = s.writebuf ++
          [updateItem exist (s.effectiveCost value cost - (s.heap exist).cost) r]) := by
  obtain ⟨s', shard', hset, hshards, hmap, hdk, hcnt, _, _, _, hval, _, _, _, _, hwb, hl, _⟩ :=
    Set_update s key value cost ttl entry shard exist (not_lt.mpr hc) hsh hget
  have hitem : s.effectiveCost value cost ≠ (s.heap exist).cost →
      ∃ r, s'.writebuf = s.writebuf ++
        [updateItem exist (i64 (s.effectiveCost value cost - (s.heap exist).cost)) r] := by
    intro hne
    rw [hwb, if_pos (Or.inr (i64_sub_ne_zero _ _ ⟨hnew, lt_of_le_of_lt hc (toInt_lt _)⟩ hold hne))]
    exact ⟨_, rfl⟩
  refine ⟨s', shard', hset, hshards, hmap, ?_, hval, ?_, hl, hdk, hcnt, hitem, ?_⟩
  · unfold Shard.get at hget ⊢
    rw [hmap]; exact hget
  · exact Len_set s s' _ shard shard' hsh hshards (by rw [hmap])
  · intro hne hlo hhi
    rw [← i64_of_fits _ hlo hhi]
    exact hitem hne

/-- Witness for C4: in the store that holds key 7 with cost 1, `Set(7, 71, cost 5)`. -/
theorem Set_existing_key_witness :
    (exStore1.effectiveCost 71 5 ≤ toInt exStore1.cap ∧
      exStore1.shards[(exStore1.index 7).2]? = some (exStore1.shardAt 3) ∧
      (exStore1.shardAt 3).get 7 = some 0 ∧
      -2 ^ 63 ≤ exStore1.effectiveCost 71 5 ∧
      (-2 ^ 63 ≤ (exStore1.heap 0).cost ∧ (exStore1.heap 0).cost < 2 ^ 63)) ∧
    ∃ s' shard', exStore1.Set 7 71 5 0 1 = some (true, s') ∧
      s'.shards = exStore1.shards.set (exStore1.index 7).2 shard' ∧
      shard'.hashmap = (exStore1.shardAt 3).hashmap ∧ shard'.get 7 = some 0 ∧
      (s'.heap 0).value = 71 ∧
      s'.Len = exStore1.Len ∧
      s'.removalListener = exStore1.removalListener ∧
      shard'.dookeeper = (exStore1.shardAt 3).dookeeper ∧
      shard'.counter = (exStore1.shardAt 3).counter ∧
      (exStore1.effectiveCost 71 5 ≠ (exStore1.heap 0).cost →
        ∃ r, s'.writebuf = exStore1.writebuf ++
          [updateItem 0 (i64 (exStore1.effectiveCost 71 5 - (exStore1.heap 0).cost)) r]) ∧
      (exStore1.effectiveCost 71 5 ≠ (exStore1.heap 0).cost →
        -2 ^ 63 ≤ exStore1.effectiveCost 71 5 - (exStore1.heap 0).cost →
        exStore1.effectiveCost 71 5 - (exStore1.heap 0).cost < 2 ^ 63 →
        ∃ r, s'.writebuf = exStore1.writebuf ++
          [updateItem 0 (exStore1.effectiveCost 71 5 - (exStore1.heap 0).cost) r]) :=
  ⟨by decide,
   Set_existing_key exStore1 7 71 5 0 1 (exStore1.shardAt 3) 0
     (by decide) (by decide) (by decide) (by decide) (by decide)⟩

/-- C5: after `Delete(k)` the shard map has no entry for `k` and every other key is mapped
as before, so the following `Get(k)` is a miss; a `REMOVE` item carrying the removed entry
is appended to the write log when `k` was present, and nothing is appended when it was
absent.  The shard map is one in which the entry stored under `k` carries the key `k`. -/
theorem Delete_removes_key {K V : Type} [DecidableEq K] [Inhabited V] {E : Env K V}
    (s : Store E) (key : K) (shard : Shard K)
    (hsh : s.shards[(s.index key).2]? = some shard)
    (hkey : ∀ p, shard.get key = some p → (s.heap p).key = key) :
    ∃ s' shard', s.Delete key = some s' ∧
      s'.shards = s.shards.set (s.index key).2 shard' ∧
      shard'.get key = none ∧
      (∀ k', k' ≠ key → shard'.get k' = shard.get k') ∧
      (s'.Get key).map (fun r => r.1) = some (default, false) ∧
      (∀ p, shard.get key = some p → s'.writebuf = s.writebuf ++ [removeItem p]) ∧
      (shard.get key = none → s'.writebuf = s.writebuf) := by
  obtain ⟨s', shard', h1, h2, _, h4, h5, h6, h7, h8, _⟩ := Delete_facts s key shard hsh hkey
  exact ⟨s', shard', h1, h2, h4, h5, h6, h7, h8⟩

/-- Witness for C5: `Delete(7)` in the store that holds key 7. -/
theorem Delete_removes_key_witness :
    (exStore1.shards[(exStore1.index 7).2]? = some (exStore1.shardAt 3) ∧
      ∀ p, (exStore1.shardAt 3).get 7 = some p → (exStore1.heap p).key = 7) ∧
    ∃ s' shard', exStore1.Delete 7 = some s' ∧
      s'.shards = exStore1.shards.set (exStore1.index 7).2 shard' ∧
      shard'.get 7 = none ∧
      (∀ k', k' ≠ 7 → shard'.get k' = (exStore1.shardAt 3).get k') ∧
      (s'.Get 7).map (fun r => r.1) = some (default, false) ∧
      (∀ p, (exStore1.shardAt 3).get 7 = some p →
        s'.writebuf = exStore1.writebuf ++ [removeItem p]) ∧
      ((exStore1.shardAt 3).get 7 = none → s'.writebuf = exStore1.writebuf) :=
  have hk : ∀ p, (exStore1.shardAt 3).get 7 = some p → (exStore1.heap p).key = 7 := by
    intro p hp
    have h0 : (exStore1.shardAt 3).get 7 = some 0 := by decide
    rw [h0] at hp
    injection hp with hp
    subst hp
    decide
  ⟨⟨by decide, hk⟩, Delete_removes_key exStore1 7 (exStore1.shardAt 3) (by decide) hk⟩

/-- C6: when the cost that `Set` works with (the argument, or the value of the cost function
when the argument is `0`) exceeds the capacity, `Set` returns `false` and the store is left
exactly as it was: shard maps, windows, `qlen`, doorkeepers and counters, write log and
the record of listener calls. -/
theorem Set_cost_above_capacity {K V : Type} [DecidableEq K] [Inhabited V] {E : Env K V}
    (s : Store E) (key : K) (value : V) (cost ttl : Int) (entry : Ptr)
    (hc : s.effectiveCost value cost > (s.cap : Int)) :
    s.Set key value cost ttl entry = some (false, s) :=
  Set_over s key value cost ttl entry (lt_of_le_of_lt (toInt_le s.cap) hc)

/-- Witness for C6: cost 10001 on a store of capacity 10000. -/
theorem Set_cost_above_capacity_witness :
    (exStore true).effectiveCost 70 10001 > ((exStore true).cap : Int) ∧
    (exStore true).Set 7 70 10001 0 0 = some (false, exStore true) :=
  ⟨by decide, Set_cost_above_capacity (exStore true) 7 70 10001 0 0 (by decide)⟩


/-- Counterexample to C7 as stated: key 7 was set with `ttl = 5`; `Set(7, 71, cost 1,
ttl 0)` returns `true` and the entry stored under key 7 afterwards still has `expire = 5`. -/
theorem Set_ttl_zero_keeps_expiry :
    (exTtl.shardAt 3).get 7 = some 0 ∧ (exTtl.heap 0).expire = 5 ∧
    (exTtl.Set 7 71 1 0 1).map (fun r => r.1) = some true ∧
    ((exTtl.afterSet 7 71 1 0 1).shardAt 3).get 7 = some 0 ∧
    ((exTtl.afterSet 7 71 1 0 1).heap 0).expire = 5 := by
  decide

/-- C7, amended: whenever `Set(k, v, cost, ttl = 0)` returns `true`, an entry is stored under
`k` afterwards; when `k` was absent before the call that entry has `expire = 0` and the
following `Get(k)` returns `(v, true)` whatever the clock; when `k` was present the entry is
the one that was there and its `expire` is what it was before the call. -/
theorem Set_ttl_zero {K V : Type} [DecidableEq K] [Inhabited V] {E : Env K V}
    (s s' : Store E) (key : K) (value : V) (cost : Int) (entry : Ptr) (shard : Shard K)
    (hsh : s.shards[(s.index key).2]? = some shard)
    (hres : s.Set key value cost 0 entry = some (true, s')) :
    ∃ shard' p, s'.shards[(s.index key).2]? = some shard' ∧ shard'.get key = some p ∧
      (shard.get key = none →
        (s'.heap p).expire = 0 ∧ (s'.Get key).map (fun r => r.1) = some (value, true)) ∧
      (∀ q, shard.get key = some q → p = q ∧ (s'.heap p).expire = (s.heap q).expire) := by
  have hx : s.expireOf 0 = 0 := by unfold Store.expireOf; rw [if_neg (by simp)]
  cases hget : shard.get key with
  | none =>
    obtain ⟨shard', hsh', hget', hval, hexp, htw, hsc⟩ :=
      Set_new_result s s' key value cost 0 entry shard hsh hget
        (by rw [expireOf_zero]; intro hc; exact hc.1 rfl) hres
    rw [hx] at hexp
    refine ⟨shard', entry, hsh', hget', fun _ => ⟨hexp, ?_⟩,
      fun q hq => Option.noConfusion hq⟩
    rw [Get_hit_of s s' key shard' entry hsc hsh' hget' ?_, hval]
    rw [hexp]
    exact fun hcon => hcon.1 rfl
  | some exist =>
    have hc : ¬ s.effectiveCost value cost > toInt s.cap := by
      intro hc
      rw [Set_over s key value cost 0 entry hc] at hres
      injection hres with hres
      injection hres with hres _
      exact Bool.noConfusion hres
    obtain ⟨s'', shard', hset, hshards, hmap, _, _, _, _, _, _, _, hexp, _⟩ :=
      Set_update s key value cost 0 entry shard exist hc hsh hget
    rw [hset] at hres
    injection hres with hres
    injection hres with _ hres
    subst hres
    refine ⟨shard', exist, ?_, ?_, fun h => Option.noConfusion h, ?_⟩
    · rw [hshards]; exact getElem?_set_self_of _ _ _ _ hsh
    · unfold Shard.get at hget ⊢; rw [hmap]; exact hget
    · intro q hq
      injection hq with hq
      subst hq
      refine ⟨rfl, ?_⟩
      rw [hexp, hx, if_neg (by omega)]

/-- Witness for C7: `Set(7, 71, cost 1, ttl 0)` on the store that holds key 7 with expiry 5. -/
theorem Set_ttl_zero_witness :
    (exTtl.shards[(exTtl.index 7).2]? = some (exTtl.shardAt 3) ∧
      exTtl.Set 7 71 1 0 1 = some (true, exTtl.afterSet 7 71 1 0 1)) ∧
    ∃ shard' p, (exTtl.afterSet 7 71 1 0 1).shards[(exTtl.index 7).2]? = some shard' ∧
      shard'.get 7 = some p ∧
      ((exTtl.shardAt 3).get 7 = none →
        ((exTtl.afterSet 7 71 1 0 1).heap p).expire = 0 ∧
          ((exTtl.afterSet 7 71 1 0 1).Get 7).map (fun r => r.1) = some (71, true)) ∧
      (∀ q, (exTtl.shardAt 3).get 7 = some q →
        p = q ∧ ((exTtl.afterSet 7 71 1 0 1).heap p).expire = (exTtl.heap q).expire) :=
  have hrun : exTtl.Set 7 71 1 0 1 = some (true, exTtl.afterSet 7 71 1 0 1) := by
    have hb : (exTtl.Set 7 71 1 0 1).map (fun r => r.1) = some true := by decide
    unfold Store.afterSet
    cases hs : exTtl.Set 7 71 1 0 1 with
    | none => rw [hs] at hb; exact Option.noConfusion hb
    | some r =>
      rw [hs] at hb
      simp only [Option.map_some', Option.some.injEq] at hb
      obtain ⟨r1, r2⟩ := r
      simp only at hb
      subst hb
      rfl
  ⟨⟨by decide, hrun⟩,
   Set_ttl_zero exTtl (exTtl.afterSet 7 71 1 0 1) 7 71 1 1 (exTtl.shardAt 3) (by decide) hrun⟩

/-- C8, the code at the failing input: the pool holds entry 0, which `removeEntry` put
there with its `deque` flag still `true` while it is still a member of the window of shard 3;
key 8 is absent from that shard and `qsize = 6 < cost = 7 ≤ capacity`.  `Set(8, 80, cost 7)`
takes entry 0 from the pool and returns `true`; afterwards key 8 is mapped to entry 0, the
window and `qlen` are unchanged and one `NEW` item is queued, but the `deque` flag of the
new entry is `true`, not `false`, and the entry is still in the window. -/
theorem Set_large_cost_recycled_entry :
    (exRecycled.entryPool = [0] ∧ (exRecycled.heap 0).deque = true ∧
      (exRecycled.shardAt 3).deque = [0] ∧ (exRecycled.shardAt 3).qlen = 1 ∧
      (exRecycled.shardAt 3).qsize = 6 ∧ exRecycled.cap = 10000 ∧
      (exRecycled.index 8).2 = 3 ∧ (exRecycled.shardAt 3).get 8 = none ∧
      exRecycled.writebuf = []) ∧
    (exRecycled.Set 8 80 7 0 0).map (fun r => r.1) = some true ∧
    ((exRecycled.afterSet 8 80 7 0 0).shardAt 3).get 8 = some 0 ∧
    ((exRecycled.afterSet 8 80 7 0 0).shardAt 3).deque = [0] ∧
    ((exRecycled.afterSet 8 80 7 0 0).shardAt 3).qlen = 1 ∧
    (exRecycled.afterSet 8 80 7 0 0).writebuf = [newItem 0] ∧
    ((exRecycled.afterSet 8 80 7 0 0).heap 0).deque = true := by
  decide

theorem newItem_injective : Function.Injective newItem := by
  intro a b h
  unfold newItem at h
  injection h with h _ _ _
  injection h

/-- C9: `processDeque` returns when `qlen` is the sum of the window costs, and every run
that returns pops some entries `popped` off the back of the window; the `NEW` items it
appends to the write log are, in pop order, exactly the popped entries that are not expired
and whose frequency is `-1` or at least the threshold (so an expired entry is never
forwarded); every popped entry that is not forwarded is no longer bound in the shard map,
the map being the result of removing each such entry when the map still held that same
entry. -/
theorem processDeque_forwarding {K V : Type} [DecidableEq K] [Inhabited V] {E : Env K V}
    (s : Store E) (index : Nat) (shard : Shard K)
    (hsh : s.shards[index]? = some shard) :
    (shard.qlen = dequeCost s.heap shard.deque → ∃ s', s.processDeque index = some s') ∧
    ∀ s', s.processDeque index = some s' →
      ∃ popped shard', s'.shards[index]? = some shard' ∧
        shard.deque = shard'.deque ++ popped.reverse ∧
        s'.writebuf = s.writebuf ++
          (popped.filter
            (isForwarded s.heap s.policy.threshold s.timerwheel.clock.nowNano)).map newItem ∧
        (∀ p, p ∈ popped →
          (newItem p ∈ (popped.filter
              (isForwarded s.heap s.policy.threshold s.timerwheel.clock.nowNano)).map newItem ↔
            ¬ ((s.heap p).expire ≠ 0 ∧ (s.heap p).expire ≤ s.timerwheel.clock.nowNano) ∧
              ((s.heap p).frequency = -1 ∨ (s.heap p).frequency ≥ s.policy.threshold))) ∧
        shard'.hashmap = mapAfterPops s.heap s.policy.threshold s.timerwheel.clock.nowNano
          popped shard.hashmap ∧
        (∀ p, p ∈ popped →
          isForwarded s.heap s.policy.threshold s.timerwheel.clock.nowNano p = false →
          shard'.get (s.heap p).key ≠ some p) := by
  refine ⟨fun hinv => processDeque_total s index shard hsh hinv, ?_⟩
  intro s' h
  obtain ⟨popped, rest, hdq, hshards, _, _, hwb, _⟩ := processDeque_spec s s' index shard hsh h
  have hs' := getElem?_set_self_of s.shards index shard
    ({ shard with
        hashmap := mapAfterPops s.heap s.policy.threshold s.timerwheel.clock.nowNano popped
          shard.hashmap,
        deque := rest, qlen := shard.qlen - dequeCost s.heap popped } : Shard K) hsh
  rw [← hshards] at hs'
  refine ⟨popped, _, hs', hdq, hwb, ?_, rfl, ?_⟩
  · intro p hp
    rw [List.mem_map_of_injective newItem_injective, List.mem_filter]
    unfold isForwarded isExpired
    simp only [Bool.and_eq_true, Bool.not_eq_true', decide_eq_false_iff_not, Bool.or_eq_true,
      decide_eq_true_eq]
    exact ⟨fun h => h.2, fun h => ⟨hp, h⟩⟩
  · intro p hp hf
    exact mapAfterPops_dropped s.heap _ _ p hf popped shard.hashmap hp

/-- The store on which `Set(150, 1500, cost 2)` calls `processDeque` in `exWindow`: entry 6
has just been pushed on the full window of shard 3. -/
theorem exPushed_shard :
    (exWindow.pushed 150 1500 2 0 6 (exWindow.shardAt 3)).shards[3]?
      = some (exWindow.pushedShard 150 1500 2 6 (exWindow.shardAt 3)) := by
  decide

/-- Witness for C9: `processDeque` on shard 3 of the store in which `Set(150, 1500, cost 2)`
has just pushed entry 6 on the full window of `exWindow`; `qlen = 8` is the sum of the
window costs, the run returns and pops the entries 0 and 1. -/
theorem processDeque_forwarding_witness :
    (exWindow.pushed 150 1500 2 0 6 (exWindow.shardAt 3)).shards[3]?
        = some (exWindow.pushedShard 150 1500 2 6 (exWindow.shardAt 3)) ∧
    (exWindow.pushedShard 150 1500 2 6 (exWindow.shardAt 3)).qlen
        = dequeCost (exWindow.pushed 150 1500 2 0 6 (exWindow.shardAt 3)).heap
            (exWindow.pushedShard 150 1500 2 6 (exWindow.shardAt 3)).deque ∧
    ∃ s', (exWindow.pushed 150 1500 2 0 6 (exWindow.shardAt 3)).processDeque 3 = some s' ∧
      ∃ popped shard', s'.shards[3]? = some shard' ∧
        (exWindow.pushedShard 150 1500 2 6 (exWindow.shardAt 3)).deque
          = shard'.deque ++ popped.reverse ∧
        s'.writebuf = (exWindow.pushed 150 1500 2 0 6 (exWindow.shardAt 3)).writebuf ++
          (popped.filter
            (isForwarded (exWindow.pushed 150 1500 2 0 6 (exWindow.shardAt 3)).heap
              (exWindow.pushed 150 1500 2 0 6 (exWindow.shardAt 3)).policy.threshold
              (exWindow.pushed 150 1500 2 0 6
                (exWindow.shardAt 3)).timerwheel.clock.nowNano)).map newItem ∧
        shard'.hashmap
          = mapAfterPops (exWindow.pushed 150 1500 2 0 6 (exWindow.shardAt 3)).heap
              (exWindow.pushed 150 1500 2 0 6 (exWindow.shardAt 3)).policy.threshold
              (exWindow.pushed 150 1500 2 0 6 (exWindow.shardAt 3)).timerwheel.clock.nowNano
              popped (exWindow.pushedShard 150 1500 2 6 (exWindow.shardAt 3)).hashmap :=
  have hinv : (exWindow.pushedShard 150 1500 2 6 (exWindow.shardAt 3)).qlen
      = dequeCost (exWindow.pushed 150 1500 2 0 6 (exWindow.shardAt 3)).heap
          (exWindow.pushedShard 150 1500 2 6 (exWindow.shardAt 3)).deque := by decide
  have hthm := processDeque_forwarding (exWindow.pushed 150 1500 2 0 6 (exWindow.shardAt 3)) 3
    (exWindow.pushedShard 150 1500 2 6 (exWindow.shardAt 3)) exPushed_shard
  ⟨exPushed_shard, hinv,
    (hthm.1 hinv).elim fun s' hs' =>
      (hthm.2 s' hs').elim fun popped hp =>
        hp.elim fun shard' h => ⟨s', hs', popped, shard', h.1, h.2.1, h.2.2.1, h.2.2.2.2.1⟩⟩

/-- C10, the code at two failing inputs, each a `Set(150, 1500, cost 2)` that pushes entry 6
on the full window of shard 3 and makes `processDeque` pop the entries of the keys 7 and 8,
both with frequency 1 below the threshold 3, with a listener registered.  In `exWindow`
neither is expired: both are deleted from the map and recycled, yet the listener is called
once only, for key 8; the call for key 7 is missing.  In `exWindowExpired` the entry of key 7
is expired: the listener is called with `EVICTED` for key 7, `EVICTED` for key 8 and
`EXPIRED` for key 7, so key 7 is reported under both reasons. -/
theorem processDeque_listener_calls :
    (exWindow.policy.threshold = 3 ∧ (exWindow.heap 0).frequency = 1 ∧
      (exWindow.heap 1).frequency = 1 ∧ (exWindow.shardAt 3).get 7 = some 0 ∧
      (exWindow.shardAt 3).get 8 = some 1 ∧ (exWindow.shardAt 3).deque = [5, 4, 3, 2, 1, 0] ∧
      exWindow.removalListener = some []) ∧
    ((exWindow.Set 150 1500 2 0 6).map (fun r => r.1) = some true ∧
      ((exWindow.afterSet 150 1500 2 0 6).shardAt 3).deque = [6, 5, 4, 3, 2] ∧
      ((exWindow.afterSet 150 1500 2 0 6).shardAt 3).get 7 = none ∧
      ((exWindow.afterSet 150 1500 2 0 6).shardAt 3).get 8 = none ∧
      (exWindow.afterSet 150 1500 2 0 6).entryPool = [1, 0] ∧
      (exWindow.afterSet 150 1500 2 0 6).removalListener
        = some [(8, 80, RemoveReason.EVICTED)]) ∧
    ((exWindowExpired.heap 0).expire = 5 ∧ exWindowExpired.timerwheel.clock.nowNano = 10 ∧
      (exWindowExpired.Set 150 1500 2 0 6).map (fun r => r.1) = some true ∧
      ((exWindowExpired.afterSet 150 1500 2 0 6).shardAt 3).get 7 = none ∧
      ((exWindowExpired.afterSet 150 1500 2 0 6).shardAt 3).get 8 = none ∧
      (exWindowExpired.afterSet 150 1500 2 0 6).removalListener
        = some [(7, 70, RemoveReason.EVICTED), (8, 80, RemoveReason.EVICTED),
            (7, 70, RemoveReason.EXPIRED)]) := by
  decide


/-- C12: the doorkeeper has no false negatives. On a doorkeeper whose `m` is a power of
two below `2^32` and whose filter has `m` bits, once `insert h` has been called, a later
`insert h` answers `true` whatever finite sequence `hs` of other `insert` calls ran in
between (no reset and no rebuild); none of the calls indexes outside the filter. -/
theorem doorkeeper_no_false_negative (d : doorkeeper) (h j : Nat) (hs : List Nat)
    (hm : d.m = 2 ^ j) (hj : j < 32) (hlen : d.filter.length = (d.m + 63) / 64)
    (hh : h < 2 ^ 64) (hhs : ∀ x ∈ hs, x < 2 ^ 64) :
    ∃ r d1 d2 d3, d.insert h = some (r, d1) ∧ d1.insertAll hs = some d2 ∧
      d2.insert h = some (true, d3) :=
  insert_then_insertAll d h j hs hm hj hlen hh hhs

/-- Witness of C12 on the doorkeeper of the example store, hash `7` and three other
hashes in between. -/
theorem doorkeeper_no_false_negative_witness :
    (newDoorkeeper exEnv.fl (1 / 100)).m = 2 ^ 13 ∧
    (∃ r d1 d2 d3, (newDoorkeeper exEnv.fl (1 / 100)).insert 7 = some (r, d1) ∧
      d1.insertAll [8, 2 ^ 40 + 5, 7 + 2 ^ 13] = some d2 ∧
      d2.insert 7 = some (true, d3)) :=
  ⟨by rfl, doorkeeper_no_false_negative (newDoorkeeper exEnv.fl (1 / 100)) 7 13
    [8, 2 ^ 40 + 5, 7 + 2 ^ 13] (by rfl) (by decide) (by rfl) (by decide)
    (by intro x hx; simp at hx; rcases hx with h | h | h <;> subst h <;> norm_num)⟩

/-- C19: every doorkeeper reached from `newDoorkeeper` by `ensureCapacity`, `insert` and
`reset` calls (none of which fails) has `m` a power of two that is at least 1024, `k` at
least 2 and a filter of exactly `m` bits, that is `m / 64` words; so every probed index
has its word inside the filter and `insert` never indexes out of bounds; and
`ensureCapacity c` with `c` at most the current capacity changes nothing. -/
theorem doorkeeper_filter_shape (fl : FloatOps) (rate : ℚ) (ops : List DoorkeeperOp) :
    ∃ d, (newDoorkeeper fl rate).run fl ops = some d ∧
      (∃ j, 10 ≤ j ∧ d.m = 2 ^ j) ∧ 1024 ≤ d.m ∧ 2 ≤ d.k ∧
      d.filter.length * 64 = d.m ∧ d.filter.length = d.m / 64 ∧
      (∀ h i, doorkeeper.probe d.m (u32 h) (u32 (h >>> 32)) i < d.m ∧
        doorkeeper.probe d.m (u32 h) (u32 (h >>> 32)) i / 64 < d.filter.length) ∧
      (∀ h, ∃ r d', d.insert h = some (r, d')) ∧
      (∀ c, c ≤ d.capacity → d.ensureCapacity fl c = d) := by
  obtain ⟨d, hrun, hd⟩ := run_shaped fl ops _ (newDoorkeeper_shaped fl rate)
  have hd' := hd
  obtain ⟨⟨j, h10, hj, hm⟩, hk, hlen⟩ := hd'
  refine ⟨d, hrun, ⟨j, h10, hm⟩, ?_, hk, hlen, by omega, ?_, ?_, ?_⟩
  · rw [hm]
    calc 1024 = 2 ^ 10 := by norm_num
      _ ≤ 2 ^ j := Nat.pow_le_pow_right (by norm_num) h10
  · intro h i
    have := probe_lt j (u32 h) (u32 (h >>> 32)) i hj
    rw [← hm] at this
    exact ⟨this, by omega⟩
  · intro h
    obtain ⟨r, d', hins, _⟩ := insert_shaped d h hd
    exact ⟨r, d', hins⟩
  · intro c hc
    unfold doorkeeper.ensureCapacity
    rw [if_pos hc]

/-- Witness of C19 on the doorkeeper of the example store after an `insert`, a growing
`ensureCapacity`, a `reset` and another `insert`. -/
theorem doorkeeper_filter_shape_witness :
    ∃ d, (newDoorkeeper exEnv.fl (1 / 100)).run exEnv.fl
        [DoorkeeperOp.insert 7, DoorkeeperOp.ensureCapacity 1000, DoorkeeperOp.reset,
          DoorkeeperOp.insert 8] = some d ∧
      (∃ j, 10 ≤ j ∧ d.m = 2 ^ j) ∧ 1024 ≤ d.m ∧ 2 ≤ d.k ∧
      d.filter.length * 64 = d.m ∧ d.filter.length = d.m / 64 ∧
      (∀ h i, doorkeeper.probe d.m (u32 h) (u32 (h >>> 32)) i < d.m ∧
        doorkeeper.probe d.m (u32 h) (u32 (h >>> 32)) i / 64 < d.filter.length) ∧
      (∀ h, ∃ r d', d.insert h = some (r, d')) ∧
      (∀ c, c ≤ d.capacity → d.ensureCapacity exEnv.fl c = d) :=
  doorkeeper_filter_shape exEnv.fl (1 / 100)
    [DoorkeeperOp.insert 7, DoorkeeperOp.ensureCapacity 1000, DoorkeeperOp.reset,
      DoorkeeperOp.insert 8]

/-- C20: on a shard whose `qlen` is the sum of the costs of its window members, the loop
`for shard.qlen > int(shard.qsize)` of `processDeque` terminates without calling `PopBack`
on an empty deque (the run returns a state, from every loop state over that shard and
heap, and so does `processDeque` itself), entries are popped only while `qlen` exceeds
`qsize`, and on exit `qlen ≤ qsize`. -/
theorem processDeque_loop_terminates {K V : Type} [DecidableEq K] [Inhabited V]
    {E : Env K V} (s : Store E) (index : Nat) (shard : Shard K)
    (hsh : s.shards[index]? = some shard)
    (hinv : shard.qlen = dequeCost s.heap shard.deque) :
    (∀ st : DequeRun K V, st.shard = shard → st.heap = s.heap →
      ∃ st', processDequeLoop E.growslice s.policy.threshold s.timerwheel.clock.nowNano
          shard.deque.reverse st = some st' ∧
        st'.shard.qsize = shard.qsize ∧ st'.shard.qlen ≤ (shard.qsize : Int)) ∧
    ∃ s' popped shard', s.processDeque index = some s' ∧
      s'.shards[index]? = some shard' ∧
      shard.deque = shard'.deque ++ popped.reverse ∧
      shard'.qlen = shard.qlen - dequeCost s.heap popped ∧
      shard'.qsize = shard.qsize ∧
      shard'.qlen ≤ (shard'.qsize : Int) ∧
      ∀ j, j < popped.length →
        shard.qlen - dequeCost s.heap (popped.take j) > (shard.qsize : Int) := by
  refine ⟨?_, processDeque_exit s index shard hsh hinv⟩
  intro st hst hheap
  obtain ⟨st', n, hrun, _, _, hq, hle, _⟩ :=
    loop_exit E.growslice s.policy.threshold s.timerwheel.clock.nowNano st
      (by rw [hst, hheap]; exact hinv)
  rw [hst] at hrun hq
  exact ⟨st', hrun, hq, by rw [← hq]; exact hle⟩

/-- Witness of C20: `processDeque` on shard 3 of the store in which `Set(150, 1500, cost 2)`
has just pushed entry 6 on the full window of `exWindow` (`qlen = 8`, `qsize = 6`). -/
theorem processDeque_loop_terminates_witness :
    (exWindow.pushedShard 150 1500 2 6 (exWindow.shardAt 3)).qlen
        = dequeCost (exWindow.pushed 150 1500 2 0 6 (exWindow.shardAt 3)).heap
            (exWindow.pushedShard 150 1500 2 6 (exWindow.shardAt 3)).deque ∧
    ∃ s' popped shard',
      (exWindow.pushed 150 1500 2 0 6 (exWindow.shardAt 3)).processDeque 3 = some s' ∧
      s'.shards[3]? = some shard' ∧
      (exWindow.pushedShard 150 1500 2 6 (exWindow.shardAt 3)).deque
        = shard'.deque ++ popped.reverse ∧
      shard'.qlen = (exWindow.pushedShard 150 1500 2 6 (exWindow.shardAt 3)).qlen
        - dequeCost (exWindow.pushed 150 1500 2 0 6 (exWindow.shardAt 3)).heap popped ∧
      shard'.qsize = (exWindow.pushedShard 150 1500 2 6 (exWindow.shardAt 3)).qsize ∧
      shard'.qlen ≤ (shard'.qsize : Int) ∧
      ∀ j, j < popped.length →
        (exWindow.pushedShard 150 1500 2 6 (exWindow.shardAt 3)).qlen
          - dequeCost (exWindow.pushed 150 1500 2 0 6 (exWindow.shardAt 3)).heap
              (popped.take j)
          > ((exWindow.pushedShard 150 1500 2 6 (exWindow.shardAt 3)).qsize : Int) :=
  ⟨by decide,
    (processDeque_loop_terminates (exWindow.pushed 150 1500 2 0 6 (exWindow.shardAt 3)) 3
      (exWindow.pushedShard 150 1500 2 6 (exWindow.shardAt 3)) exPushed_shard
      (by decide)).2⟩

/-- C13: one call of `climb` on a policy with `step` in `[-13, 13]`, `lruFactor` in
`[0, 16]` and a `threshold` at least 16 away from the limits of `int32`.  With
`d = hit/total - hr`: if `d > 0`, `step` moves one unit away from zero and is clamped to
`[-13, 13]`; if `d < 0`, `step` becomes `-1` when it was positive and `+1` otherwise; in
both cases `lruFactor` becomes `clamp(lruFactor + step, 0, 16)` with the new `step`; if `d`
is neither, `step` and `lruFactor` are unchanged.  In all cases `threshold` decreases by
exactly the increase of `lruFactor`, so `threshold + lruFactor` is preserved, and `hit`
and `total` are reset to 0. -/
theorem climb_step_and_factor {K V : Type} {E : Env K V} (t : TinyLfu E)
    (hlo : -13 ≤ t.step) (hhi : t.step ≤ 13) (hf : t.lruFactor ≤ 16)
    (hthr : -2 ^ 31 + 16 ≤ t.threshold ∧ t.threshold + 16 < 2 ^ 31) :
    (E.f32pos t.delta = true →
      t.climb.step = clamp (if t.step < 0 then t.step - 1 else t.step + 1) (-13) 13) ∧
    (E.f32pos t.delta = false → E.f32neg t.delta = true →
      t.climb.step = if t.step > 0 then -1 else 1) ∧
    (E.f32pos t.delta = true ∨ E.f32neg t.delta = true →
      (t.climb.lruFactor : Int) = clamp (t.lruFactor + t.climb.step) 0 16) ∧
    (E.f32pos t.delta = false → E.f32neg t.delta = false →
      t.climb.step = t.step ∧ t.climb.lruFactor = t.lruFactor) ∧
    t.climb.threshold = t.threshold - ((t.climb.lruFactor : Int) - t.lruFactor) ∧
    t.climb.threshold + t.climb.lruFactor = t.threshold + t.lruFactor ∧
    t.climb.hit = 0 ∧ t.climb.total = 0 := by
  obtain ⟨hfac, hthr'⟩ := climb_threshold t hlo hhi hf
  have hval : t.climb.threshold = t.threshold - ((t.climb.lruFactor : Int) - t.lruFactor) := by
    rw [hthr']
    exact i32_small _ (by omega) (by omega)
  refine ⟨fun hd => (climb_pos t hlo hhi hf hd).1, fun hd hn => (climb_neg t hf hd hn).1,
    ?_, fun hd hn => ⟨(climb_zero t hd hn).1, (climb_zero t hd hn).2.1⟩, hval, by omega,
    rfl, rfl⟩
  intro h
  cases hd : E.f32pos t.delta
  · rcases h with h | h
    · rw [hd] at h; exact Bool.noConfusion h
    · exact (climb_neg t hf hd h).2.1
  · exact (climb_pos t hlo hhi hf hd).2.1

/-- Witness of C13 on the policy `polClimbDue` (`hit = 1`, `total = 0`, `hr = 0`, so
`d > 0`): `step` goes from 1 to 2, `lruFactor` from 0 to 2 and `threshold` from -1 to
-3. -/
theorem climb_step_and_factor_witness :
    polEnv.f32pos polClimbDue.delta = true ∧
    polClimbDue.climb.step = 2 ∧ polClimbDue.climb.lruFactor = 2 ∧
    polClimbDue.climb.threshold = -3 ∧
    polClimbDue.climb.threshold
      = polClimbDue.threshold - ((polClimbDue.climb.lruFactor : Int) - polClimbDue.lruFactor) ∧
    polClimbDue.climb.threshold + polClimbDue.climb.lruFactor
      = polClimbDue.threshold + polClimbDue.lruFactor :=
  have h := climb_step_and_factor polClimbDue (by decide) (by decide) (by decide)
    (by decide)
  ⟨by decide, by decide, by decide, by decide, h.2.2.2.2.1, h.2.2.2.2.2.1⟩

/-- C14: starting from `NewTinyLfu` (`step = 1`, `lruFactor = 0`), after any number of
`climb` calls with arbitrary values of `hit` and `total`, `lruFactor` stays in `[0, 16]`
and `step` stays in `[-13, 13]` and is never 0; hence in the next `climb` no `int8` or
`uint8` conversion or addition wraps: `step ± 1`, `int8(lruFactor)`, the sum
`int8(lruFactor) + step` with the new `step`, the clamped factor converted to `uint8`, and
the difference `newFactor - int8(lruFactor)` all keep their exact values. -/
theorem climb_invariant {K V : Type} {E : Env K V} (size : Nat) (slru : E.Slru)
    (sketch : E.Sketch) (hr : E.F32) (inputs : List (Nat × Nat)) :
    ((NewTinyLfu size slru sketch hr : TinyLfu E).climbs inputs).lruFactor ≤ 16 ∧
    -13 ≤ ((NewTinyLfu size slru sketch hr : TinyLfu E).climbs inputs).step ∧
    ((NewTinyLfu size slru sketch hr : TinyLfu E).climbs inputs).step ≤ 13 ∧
    ((NewTinyLfu size slru sketch hr : TinyLfu E).climbs inputs).step ≠ 0 ∧
    ∀ t : TinyLfu E, t = (NewTinyLfu size slru sketch hr : TinyLfu E).climbs inputs →
      i8 (t.step - 1) = t.step - 1 ∧ i8 (t.step + 1) = t.step + 1 ∧
      i8 t.lruFactor = t.lruFactor ∧
      i8 (i8 t.lruFactor + t.climb.step) = t.lruFactor + t.climb.step ∧
      (u8 (clamp (t.lruFactor + t.climb.step) 0 16) : Int)
        = clamp (t.lruFactor + t.climb.step) 0 16 ∧
      i8 (clamp (t.lruFactor + t.climb.step) 0 16 - i8 t.lruFactor)
        = clamp (t.lruFactor + t.climb.step) 0 16 - t.lruFactor := by
  obtain ⟨hlo, hhi, h0, hf⟩ := climbs_inv inputs (NewTinyLfu size slru sketch hr : TinyLfu E)
    (by show (-13 : Int) ≤ 1; decide) (by show (1 : Int) ≤ 13; decide)
    (by show (1 : Int) ≠ 0; decide) (by show 0 ≤ 16; decide)
  refine ⟨hf, hlo, hhi, h0, ?_⟩
  intro t ht
  rw [← ht] at hlo hhi h0 hf
  obtain ⟨clo, chi, _, _⟩ := climb_inv t hlo hhi h0 hf
  have hb := clamp_bounds (t.lruFactor + t.climb.step) 0 16 (by omega)
  have hi8 : i8 t.lruFactor = t.lruFactor := i8_small _ (by omega) (by omega)
  rw [hi8]
  exact ⟨i8_small _ (by omega) (by omega), i8_small _ (by omega) (by omega), rfl,
    i8_small _ (by omega) (by omega), u8_small _ hb.1 (by omega),
    i8_small _ (by omega) (by omega)⟩

/-- Witness of C14 on the policy of the second instance after three `climb` calls: the hit
ratio rises (`step` 2, `lruFactor` 2), falls (`step` -1, `lruFactor` 1) and rises again
(`step` -2, `lruFactor` 0 after clamping). -/
theorem climb_invariant_witness :
    ((polPolicy 1).climbs [(1, 0), (0, 64), (64, 64)]).step = -2 ∧
    ((polPolicy 1).climbs [(1, 0), (0, 64), (64, 64)]).lruFactor = 0 ∧
    ((polPolicy 1).climbs [(1, 0), (0, 64), (64, 64)]).lruFactor ≤ 16 ∧
    -13 ≤ ((polPolicy 1).climbs [(1, 0), (0, 64), (64, 64)]).step ∧
    ((polPolicy 1).climbs [(1, 0), (0, 64), (64, 64)]).step ≤ 13 ∧
    ((polPolicy 1).climbs [(1, 0), (0, 64), (64, 64)]).step ≠ 0 :=
  have h := @climb_invariant Nat Nat polEnv 1
    { probationList := [], protectedList := [], maxsize := 1 } [] (0, 1)
    [(1, 0), (0, 64), (64, 64)]
  ⟨by decide, by decide, h.1, h.2.1, h.2.2.1, h.2.2.2.1⟩

/-- C15: `UpdateThreshold` on a policy with `lruFactor` in `[0, 16]` and sketch estimates in
`[0, 15]` stores `-1` when `probation.Len() + protected.Len() < maxsize` and when there is
no victim; otherwise it stores `Estimate(hash(victim.key)) - lruFactor` as a signed
difference in `[-16, 15]`: the two's-complement truncation of the unsigned subtraction
yields the exact difference, no wrapped value. -/
theorem UpdateThreshold_signed_difference {K V : Type} {E : Env K V} (t : TinyLfu E)
    (heap : Heap K V) (hf : t.lruFactor ≤ 16)
    (hest : ∀ h, E.sketchEstimate t.sketch h ≤ 15) :
    (E.probationLen t.slru + E.protectedLen t.slru < (E.slruMaxsize t.slru : Int) →
      (t.UpdateThreshold heap).threshold = -1) ∧
    (E.slruVictim t.slru = none → (t.UpdateThreshold heap).threshold = -1) ∧
    (∀ tail, ¬ E.probationLen t.slru + E.protectedLen t.slru < (E.slruMaxsize t.slru : Int) →
      E.slruVictim t.slru = some tail →
      (t.UpdateThreshold heap).threshold
        = (E.sketchEstimate t.sketch (E.hash (heap tail).key) : Int) - t.lruFactor ∧
      -16 ≤ (t.UpdateThreshold heap).threshold ∧ (t.UpdateThreshold heap).threshold ≤ 15) :=
  UpdateThreshold_cases t heap hf hest

/-- Witness of C15 on the full SLRU of `polClimbDue` with `lruFactor = 5` and a sketch that
counted key 1 three times: the victim is entry 0, the estimate of its key is 3, and the
stored threshold is `3 - 5 = -2`. -/
theorem UpdateThreshold_signed_difference_witness :
    polEnv.slruVictim polClimbDue.slru = some 0 ∧
    (({ polClimbDue with lruFactor := 5, sketch := [(1, 3)] } :
        TinyLfu polEnv).UpdateThreshold polHeap).threshold = -2 ∧
    (({ polClimbDue with lruFactor := 5, sketch := [(1, 3)] } :
        TinyLfu polEnv).UpdateThreshold polHeap).threshold
      = (polEnv.sketchEstimate [(1, 3)] (polEnv.hash (polHeap 0).key) : Int) - 5 :=
  have h := UpdateThreshold_signed_difference
    ({ polClimbDue with lruFactor := 5, sketch := [(1, 3)] } : TinyLfu polEnv) polHeap
    (by decide)
    (by
      intro h
      show (mapGet [(1, 3)] h).getD 0 ≤ 15
      by_cases h1 : h = 1
      · subst h1; decide
      · have : mapGet [((1 : Nat), (3 : Ptr))] h = none := by
          simp [mapGet, List.find?, Ne.symm h1]
        rw [this]; decide)
  ⟨by decide, by decide, (h.2.2 0 (by decide) (by decide)).1⟩

/-- C11, counterexample: on the policy `polClimbDue` the entry 1 is not linked, the SLRU
has the victim 0, and `ef + lruFactor = 0 + 0 ≤ 0 = vf` holds for the `lruFactor` of the
state, yet `Set` does not reject: this call is the eleventh, it runs `climb` first, which
raises `lruFactor` to 2, and entry 1 is inserted (`slru.insert` returns entry 0). -/
theorem TinyLfu_Set_climbs_before_comparing :
    (polHeap 1).meta.prev = none ∧ polEnv.slruVictim polClimbDue.slru = some 0 ∧
    (polHeap 1).frequency = -1 ∧
    polEnv.sketchEstimate polClimbDue.sketch (polEnv.hash (polHeap 1).key)
        + polClimbDue.lruFactor
      ≤ polEnv.sketchEstimate polClimbDue.sketch (polEnv.hash (polHeap 0).key) ∧
    (polClimbDue.Set polHeap 1).1 = some 0 ∧
    (polClimbDue.Set polHeap 1).2.1.slru.probationList = [1] ∧
    (polClimbDue.Set polHeap 1).2.1.lruFactor = 2 := by
  decide

/-- C11, amended: `Set` first counts the call and runs `climb` when the count exceeds
`10 * size` (`t.counted`); the SLRU and the sketch are not touched by that.  For an entry
with frequency at least `-1`, and estimates in the range of `int`, with
`ef = e.frequency` (or `Estimate(hash(e.key))` when it is `-1`) and
`vf = Estimate(hash(victim.key))`: if `e` is linked the result is nil and the SLRU is
unchanged; if `e` is not linked and there is a victim, `e` is rejected (returned, SLRU
unchanged) if and only if `ef + lruFactor ≤ vf` for the `lruFactor` after that `climb`,
which is the `lruFactor` of the state when no `climb` is due; in every other case `e` is
inserted and the result is what `slru.insert` returned. -/
theorem TinyLfu_Set_admission {K V : Type} {E : Env K V} (t : TinyLfu E) (heap : Heap K V)
    (entry : Ptr)
    (hlo : -1 ≤ (heap entry).frequency) (hhi : (heap entry).frequency < 2 ^ 31)
    (hest : ∀ h, E.sketchEstimate t.sketch h < 2 ^ 63) (hf : t.lruFactor ≤ 255) :
    ((heap entry).meta.prev ≠ none → t.Set heap entry = (none, t.counted, heap)) ∧
    (∀ victim, (heap entry).meta.prev = none → E.slruVictim t.slru = some victim →
      ((if (heap entry).frequency = -1 then
            (E.sketchEstimate t.sketch (E.hash (heap entry).key) : Int)
          else (heap entry).frequency) + t.counted.lruFactor
          ≤ E.sketchEstimate t.sketch (E.hash (heap victim).key) →
        t.Set heap entry = (some entry, t.counted, heap)) ∧
      (¬ (if (heap entry).frequency = -1 then
            (E.sketchEstimate t.sketch (E.hash (heap entry).key) : Int)
          else (heap entry).frequency) + t.counted.lruFactor
          ≤ E.sketchEstimate t.sketch (E.hash (heap victim).key) →
        t.Set heap entry =
          ((E.slruInsert t.slru heap entry).2.2,
            { t.counted with slru := (E.slruInsert t.slru heap entry).1 },
            (E.slruInsert t.slru heap entry).2.1))) ∧
    ((heap entry).meta.prev = none → E.slruVictim t.slru = none →
      t.Set heap entry =
        ((E.slruInsert t.slru heap entry).2.2,
          { t.counted with
            sketch := E.sketchEnsureCapacity t.sketch
              (toUint (E.probationLen t.slru + E.protectedLen t.slru
                + Int.tdiv (E.probationLen t.slru + E.protectedLen t.slru) 100)),
            slru := (E.slruInsert t.slru heap entry).1 },
          (E.slruInsert t.slru heap entry).2.1)) ∧
    t.counted.slru = t.slru ∧ t.counted.sketch = t.sketch ∧
    (¬ u64 (t.counter + 1) > u64 (10 * t.size) → t.counted.lruFactor = t.lruFactor) := by
  have hc := counted_fields t
  refine ⟨policySet_linked t heap entry, ?_, policySet_novictim t heap entry, hc.1, hc.2.1,
    fun h => (hc.2.2.2.1 h).1⟩
  intro victim hl hv
  have hcmp := admission_compare (heap entry).frequency
    (E.sketchEstimate t.sketch (E.hash (heap entry).key))
    (E.sketchEstimate t.sketch (E.hash (heap victim).key)) t.counted.lruFactor hlo hhi
    (hest _) (hest _) (hc.2.2.2.2 hf)
  constructor
  · intro h
    rw [policySet_victim t heap entry victim hl hv, if_pos (hcmp.2 h)]
  · intro h
    rw [policySet_victim t heap entry victim hl hv, if_neg (fun hle => h (hcmp.1 hle))]

/-- Witness of C11 on the policy `polClimbDue` before its counter is due
(`counter = 0`): entry 1 is not linked, entry 0 is the victim, `0 + 0 ≤ 0`, and `Set`
returns entry 1 itself and leaves the SLRU as it was. -/
theorem TinyLfu_Set_admission_witness :
    (polHeap 1).meta.prev = none ∧
    polEnv.slruVictim ({ polClimbDue with counter := 0 } : TinyLfu polEnv).slru = some 0 ∧
    ({ polClimbDue with counter := 0 } : TinyLfu polEnv).Set polHeap 1
      = (some 1, ({ polClimbDue with counter := 0 } : TinyLfu polEnv).counted, polHeap) ∧
    ({ polClimbDue with counter := 0 } : TinyLfu polEnv).counted.slru = polClimbDue.slru ∧
    ({ polClimbDue with counter := 0 } : TinyLfu polEnv).counted.lruFactor = 0 :=
  have hest : ∀ h, polEnv.sketchEstimate
      ({ polClimbDue with counter := 0 } : TinyLfu polEnv).sketch h < 2 ^ 63 := by
    intro h
    show (0 : Nat) < 2 ^ 63
    decide
  have h := TinyLfu_Set_admission ({ polClimbDue with counter := 0 } : TinyLfu polEnv)
    polHeap 1 (by decide) (by decide) hest (by decide)
  ⟨by decide, by decide, (h.2.1 0 (by decide) (by decide)).1 (by decide), h.2.2.2.1,
    by decide⟩

/-- C16, counterexample: on `exStore1` (read counter 0, empty read log) the first 63 calls
`Get(7)` push their items, but the 64th call pushes nothing: it only drains the log.  The
policy counter, incremented once per `Access`, stands at 63 afterwards, while `total` has
grown by 64; the counter is reset and the log is empty. -/
theorem Get_64th_item_not_logged :
    exStore1.readCounter = 0 ∧ exStore1.readbuf = [] ∧ exStore1.policy.counter = 0 ∧
    exStore1.policy.total = 0 ∧
    (exStore1.getAll (List.replicate 63 7)).map (fun s => (s.readbuf.length, s.readCounter))
      = some (63, 63) ∧
    (exRead63.Get 7).map
        (fun r => (r.1, r.2.policy.counter, r.2.policy.total, r.2.readCounter, r.2.readbuf))
      = some ((70, true), 63, 64, 0, []) := by
  decide

/-- C16, amended: starting from a reset read counter and an empty read log, with every key
mapped to an existing shard, each of the first 63 consecutive `Get` calls pushes its read
item (after any number `n` of them the log holds the items of the first `n` keys); the
64th call pushes nothing and drains: exactly the 63 logged items are fed to `Access`, in
order, `total` grows by 64, the log is emptied and the counter is reset to 0. -/
theorem Get_64th_drains {K V : Type} [DecidableEq K] [Inhabited V] {E : Env K V}
    (s : Store E) (keys : List K) (key : K)
    (hcnt : s.readCounter = 0) (hlog : s.readbuf = []) (hlen : keys.length = 63)
    (hsh : ∀ k, (s.index k).2 < s.shards.length) :
    (∀ n, s.getAll (keys.take n) = some (s.logged (keys.take n)) ∧
      (s.logged (keys.take n)).readbuf = (keys.take n).map s.readItem) ∧
    s.getAll keys = some (s.logged keys) ∧
    (s.logged keys).readbuf = keys.map s.readItem ∧ (s.logged keys).readCounter = 63 ∧
    ∃ v s', (s.logged keys).Get key = some (v, s') ∧
      s'.readbuf = [] ∧ s'.readCounter = 0 ∧
      (s'.policy, s'.heap) =
        (keys.map s.readItem).foldl (fun acc item => acc.1.Access acc.2 item)
          ({ s.policy with
              hit := s.hitsAfter [key] (s.hitsAfter keys s.policy.hit),
              total := u32 (s.policy.total + 64) }, s.heap) := by
  have hbuf : ∀ l : List K, (s.logged l).readbuf = l.map s.readItem := by
    intro l
    show s.readbuf ++ l.map s.readItem = _
    rw [hlog]; rfl
  refine ⟨fun n => ⟨getAll_logged (keys.take n) s hsh ?_, hbuf _⟩,
    getAll_logged keys s hsh (by omega), hbuf keys,
    by show s.readCounter + keys.length = 63; omega, ?_⟩
  · have := List.length_take n keys
    omega
  · obtain ⟨v, hget⟩ := Get_drains (s.logged keys) key (hsh key)
      (by show s.readCounter + keys.length + 1 = 64; omega)
    refine ⟨v, _, hget, rfl, rfl, ?_⟩
    rw [drainRead_fold]
    show List.foldl _ _ (s.logged keys).readbuf = _
    rw [hbuf keys]
    rfl

/-- Witness of C16 on `exStore1` with 64 calls `Get(7)`. -/
theorem Get_64th_drains_witness :
    exStore1.getAll (List.replicate 63 7) = some (exStore1.logged (List.replicate 63 7)) ∧
    (exStore1.logged (List.replicate 63 7)).readbuf
      = (List.replicate 63 7).map exStore1.readItem ∧
    ∃ v s', (exStore1.logged (List.replicate 63 7)).Get 7 = some (v, s') ∧
      s'.readbuf = [] ∧ s'.readCounter = 0 ∧
      (s'.policy, s'.heap) =
        ((List.replicate 63 7).map exStore1.readItem).foldl
          (fun acc item => acc.1.Access acc.2 item)
          ({ exStore1.policy with
              hit := exStore1.hitsAfter [7]
                (exStore1.hitsAfter (List.replicate 63 7) exStore1.policy.hit),
              total := u32 (exStore1.policy.total + 64) }, exStore1.heap) :=
  have h := Get_64th_drains exStore1 (List.replicate 63 7) 7 (by decide) (by decide)
    (by decide)
    (fun k => lt_of_lt_of_eq (index_lt exStore1 k (by decide) (by decide)) (by decide))
  ⟨h.2.1, h.2.2.1, h.2.2.2.2⟩

/-- C17, counterexample: in the store of capacity 1 `polPending` the SLRU is full with
entry 0 (key 7), and the item `NEW` of entry 1 (key 8, not marked removed, not linked) is
handled.  The victim is entry 0, both keys have the estimate 0 and `lruFactor` is 0, so
`policy.Set` rejects and returns the input entry 1 itself, and the maintainer removes that
entry: key 8 is deleted from its shard map, the listener is called with `(8, 80, EVICTED)`,
the entry goes back to the pool and `tailUpdate` is set; key 7 stays. -/
theorem maintance_removes_rejected_input :
    polPending.cap = 1 ∧
    polPending.writebuf = [newItem 1] ∧ (polPending.heap 1).removed = false ∧
    (polPending.heap 1).meta.prev = none ∧ (polPending.shardAt 3).get 8 = some 1 ∧
    (polPending.policy.slru.probationList = [0] ∧ polPending.policy.slru.protectedList = [] ∧
      polPending.policy.slru.maxsize = 1) ∧
    polEnv.slruVictim polPending.policy.slru = some 0 ∧
    polEnv.sketchEstimate polPending.policy.sketch (polEnv.hash 7) = 0 ∧
    polEnv.sketchEstimate polPending.policy.sketch (polEnv.hash 8) = 0 ∧
    polPending.policy.lruFactor = 0 ∧
    (polPending.policy.Set polPending.heap 1).1 = some 1 ∧
    (polPending.maintanceSet 1).map (fun s => ((s.shardAt 3).get 8, s.tailUpdate, s.entryPool))
      = some (none, true, [1]) ∧
    (polPending.maintance 2 (newItem 1)).isSome = true ∧
    (polRejected.shardAt 3).get 8 = none ∧ (polRejected.shardAt 3).get 7 = some 0 ∧
    polRejected.removalListener = some [(8, 80, RemoveReason.EVICTED)] ∧
    polRejected.entryPool = [1] ∧ polRejected.policy.slru.probationList = [0] := by
  decide

/-- C17, amended: when the maintainer handles a `NEW` item whose entry is not marked removed,
the handling is the step around `policy.Set` followed by `EvictEntries` and the threshold
update.  In that step the entry returned by `policy.Set` is removed with reason `EVICTED`
and `tailUpdate` is set exactly when the returned entry is non-nil, whether it is a victim
or the input entry itself; when nil is returned nothing is removed and `tailUpdate` is
not set.  In particular a rejected input entry (returned by `policy.Set`, not linked, not
scheduled, still bound in its shard map) is removed by that step: its key is deleted from
the shard map, the listener is called with reason `EVICTED`, and the entry returns to the
pool. -/
theorem maintance_new_removes_returned {K V : Type} [DecidableEq K] [Inhabited V]
    {E : Env K V} (fuel : Nat) (s : Store E) (entry : Ptr)
    (hrem : (s.heap entry).removed = false) :
    s.maintance fuel (newItem entry) =
      (s.maintanceSet entry).bind
        (fun s1 => (s1.maintanceEvict fuel).map (fun s2 => s2.tailUpdated)) ∧
    ((s.afterPolicySet entry).1 = none →
      s.maintanceSet entry = some (s.afterPolicySet entry).2) ∧
    (∀ evicted, (s.afterPolicySet entry).1 = some evicted →
      s.maintanceSet entry =
        ((s.afterPolicySet entry).2.removeEntry evicted RemoveReason.EVICTED).map
          (fun s' => { s' with tailUpdate := true })) ∧
    (∀ shard, (s.afterPolicySet entry).1 = some entry →
      ((s.afterPolicySet entry).2.heap entry).meta.prev = none →
      ((s.afterPolicySet entry).2.heap entry).meta.wheelPrev = none →
      (s.afterPolicySet entry).2.shards[((s.afterPolicySet entry).2.heap entry).shard]?
        = some shard →
      shard.get ((s.afterPolicySet entry).2.heap entry).key = some entry →
      ∃ s', s.maintanceSet entry = some s' ∧ s'.tailUpdate = true ∧
        s'.shards = (s.afterPolicySet entry).2.shards.set
          ((s.afterPolicySet entry).2.heap entry).shard
          { shard with
            hashmap := mapDelete shard.hashmap ((s.afterPolicySet entry).2.heap entry).key } ∧
        mapGet (mapDelete shard.hashmap ((s.afterPolicySet entry).2.heap entry).key)
          ((s.afterPolicySet entry).2.heap entry).key = none ∧
        s'.removalListener = (s.afterPolicySet entry).2.removalListener.map
          (fun calls => calls ++ [(((s.afterPolicySet entry).2.heap entry).key,
            ((s.afterPolicySet entry).2.heap entry).value, RemoveReason.EVICTED)]) ∧
        s'.entryPool = entry :: (s.afterPolicySet entry).2.entryPool) := by
  refine ⟨maintance_new_eq fuel s entry hrem, ?_, ?_, ?_⟩
  · intro h
    rw [maintanceSet_eq, h]
  · intro evicted h
    rw [maintanceSet_eq, h]
  · intro shard h hl hw hsh hget
    rw [maintanceSet_eq, h]
    simp only [removeEntry_evicted_of_mapped _ entry shard hl hw hsh hget, Option.map_some']
    exact ⟨_, rfl, rfl, rfl, mapGet_mapDelete_self _ _, rfl, rfl⟩

/-- Witness of C17 on the store of capacity 1 `polPending` and its entry 1, which
`policy.Set` rejects because the SLRU is full. -/
theorem maintance_new_removes_returned_witness :
    (polPending.heap 1).removed = false ∧ (polPending.afterPolicySet 1).1 = some 1 ∧
    ∃ s', polPending.maintanceSet 1 = some s' ∧ s'.tailUpdate = true ∧
      s'.entryPool = 1 :: (polPending.afterPolicySet 1).2.entryPool :=
  have h := maintance_new_removes_returned 2 polPending 1 (by decide)
  ⟨by decide, by decide,
    (h.2.2.2 ((polPending.afterPolicySet 1).2.shardAt 3) (by decide) (by decide) (by decide)
      (by rfl) (by decide)).imp
      (fun _ hs => ⟨hs.1, hs.2.1, hs.2.2.2.2.2⟩)⟩

/-- C18, the code at a failing input: in `exRecycled` every shard has `qlen` equal to the
sum of the costs of its window members (shard 3: window `[0]`, `qlen = 1`), and entry 0,
removed by `removeEntry(_, EXPIRED)` while it was in the window, is in the pool.
`Set(51, 510, cost 2)` takes entry 0 from the pool and inserts it into the window of
shard 3: the window becomes `[0, 0]`, the cost of entry 0 is now 2, so the member costs
sum to 4 (2 if the member is counted once), while `qlen` is 3.  The same call with the
unused entry 1 keeps `qlen` equal to the sum (3). -/
theorem Set_recycled_entry_breaks_qlen :
    (∀ i, i < 16 →
      (exRecycled.shardAt i).qlen = dequeCost exRecycled.heap (exRecycled.shardAt i).deque) ∧
    (exRecycled.shardAt 3).deque = [0] ∧ (exRecycled.shardAt 3).qlen = 1 ∧
    exRecycled.entryPool = [0] ∧ (exRecycled.shardAt 3).get 51 = none ∧
    (exRecycled.Set 51 510 2 0 0).map (fun r => r.1) = some true ∧
    ((exRecycled.afterSet 51 510 2 0 0).shardAt 3).deque = [0, 0] ∧
    ((exRecycled.afterSet 51 510 2 0 0).heap 0).cost = 2 ∧
    ((exRecycled.afterSet 51 510 2 0 0).shardAt 3).qlen = 3 ∧
    dequeCost (exRecycled.afterSet 51 510 2 0 0).heap
      ((exRecycled.afterSet 51 510 2 0 0).shardAt 3).deque = 4 ∧
    ((exRecycled.Set 51 510 2 0 1).map (fun r => r.1) = some true ∧
      ((exRecycled.afterSet 51 510 2 0 1).shardAt 3).deque = [1, 0] ∧
      ((exRecycled.afterSet 51 510 2 0 1).shardAt 3).qlen = 3 ∧
      dequeCost (exRecycled.afterSet 51 510 2 0 1).heap
        ((exRecycled.afterSet 51 510 2 0 1).shardAt 3).deque = 3) := by
  decide

/-- C21, the code at a failing input: in `exRecycled` the window of shard 3 is `[0]` with
`qlen = 1`, the cost of entry 0 (`qsize = 6`), and entry 0, removed by
`removeEntry(_, EXPIRED)` while it was in the window, is in the pool.
`Set(51, 510, cost 6)` takes entry 0 from the pool, pushes it on the window and runs
`processDeque` with `qlen = 7`: the loop pops the older occurrence of that same entry,
clears its `deque` flag and forwards it to the policy.  When `Set` returns, entry 0 is at
the front of the window and bound to key 51, but its `deque` flag is false and a `NEW`
item for it is in the write log.  The same call with the unused entry 1 leaves the new
entry at the front with its flag set. -/
theorem Set_recycled_entry_popped :
    (exRecycled.shardAt 3).deque = [0] ∧ (exRecycled.shardAt 3).qlen = 1 ∧
    (exRecycled.shardAt 3).qsize = 6 ∧ (exRecycled.heap 0).cost = 1 ∧
    (exRecycled.shardAt 3).qlen = dequeCost exRecycled.heap (exRecycled.shardAt 3).deque ∧
    exRecycled.entryPool = [0] ∧ (exRecycled.shardAt 3).get 51 = none ∧
    exRecycled.writebuf = [] ∧
    (exRecycled.Set 51 510 6 0 0).map (fun r => r.1) = some true ∧
    ((exRecycled.afterSet 51 510 6 0 0).shardAt 3).deque = [0] ∧
    ((exRecycled.afterSet 51 510 6 0 0).shardAt 3).get 51 = some 0 ∧
    ((exRecycled.afterSet 51 510 6 0 0).heap 0).key = 51 ∧
    ((exRecycled.afterSet 51 510 6 0 0).heap 0).deque = false ∧
    (exRecycled.afterSet 51 510 6 0 0).writebuf = [newItem 0] ∧
    ((exRecycled.Set 51 510 6 0 1).map (fun r => r.1) = some true ∧
      ((exRecycled.afterSet 51 510 6 0 1).shardAt 3).deque = [1] ∧
      ((exRecycled.afterSet 51 510 6 0 1).shardAt 3).get 51 = some 1 ∧
      ((exRecycled.afterSet 51 510 6 0 1).heap 1).deque = true ∧
      (exRecycled.afterSet 51 510 6 0 1).writebuf = []) := by
  decide

end Theine
